import Mathlib

/-!
# A verification development for the `f90nmlrs` core of `schismrs`

This file gives a shallow embedding, in Lean 4, of the parts of the
`f90nmlrs` crate (lexer, scanner, Fortran value model, namelist document
model, merge engine, formatter, index iterator, and the streaming
parse-and-patch algorithm) that the specification's testable claims are
about, together with theorems settling those claims.

Modelling conventions, used throughout:

* Rust `String`/`&str` values are modelled as `List Char` (abbreviated
  `Str`).  All inputs exercised by the claims are ASCII, and the
  character classification and lowercasing functions of the source
  (`char::is_whitespace`, `str::to_lowercase`, `str::trim`, ...) are
  modelled by their ASCII behaviour; the development only ever applies
  them in positions where the Unicode and ASCII behaviours agree, as
  noted at each definition.
* Rust `f64` is modelled by `FReal`: an exact rational for finite
  values, plus distinguished `inf`, `negInf` and `nan` points.  Decimal
  literals are read as exact rationals (the source rounds to the nearest
  `f64`; no claim in this development distinguishes a literal from its
  rounding, and no theorem below relies on float rounding).
* Rust `i64` is modelled as `Int`, with the `i64` range checks of the
  source made explicit where the source performs them.
* `std::collections::HashMap` is modelled as an association list with
  key-based insert/lookup/remove; the document model never relies on
  hash-map iteration order (iteration in the source goes through the
  explicit `*_order` vectors, which are modelled directly).
* Fallible Rust functions returning `Result<T, F90nmlError>` are
  modelled as `Except F90nmlError T`.
* Source loops driven by a cursor are modelled by structural recursion
  where possible and by an explicit fuel parameter otherwise; every
  fuelled model is invoked with fuel `input length + 1` (or more), which
  the accompanying lemmas show is never exhausted on the inputs of the
  theorems below.
* Token line/column bookkeeping of the source lexer is omitted: no
  claim (and no control-flow decision of the modelled code) depends on
  token positions, only on token kinds and lexemes.
-/

set_option maxRecDepth 100000

namespace F90nml

/-- Rust strings are modelled as lists of characters. -/
abbrev Str := List Char

/-- Embed a Lean string literal as a model string. -/

def lit (s : String) : Str := s.data

/-- The single-quote character (written via its code point so that the
text of this file stays free of stray quote characters). -/

def sq : Char := Char.ofNat 39

/-- The double-quote character. -/

def dq : Char := Char.ofNat 34

/-- ASCII model of Rust `char::is_whitespace` (the source only consults
it on ASCII input; see the module docstring). -/

def isWsChar (c : Char) : Bool := c = ' ' || c = '\t' || c = '\n' || c = '\r'

/-- Rust `char::is_ascii_digit`. -/

def isDigitChar (c : Char) : Bool := '0' ≤ c && c ≤ '9'

/-- Rust `char::is_ascii_alphabetic`. -/

def isAlphaChar (c : Char) : Bool := ('a' ≤ c && c ≤ 'z') || ('A' ≤ c && c ≤ 'Z')

/-- Rust `char::is_ascii_alphanumeric`. -/

def isAlnumChar (c : Char) : Bool := isAlphaChar c || isDigitChar c

/-- ASCII model of Rust `char::to_lowercase` / `str::to_lowercase`. -/

def lowerChar (c : Char) : Char :=
  if 'A' ≤ c && c ≤ 'Z' then Char.ofNat (c.toNat + 32) else c

/-- ASCII model of `str::to_lowercase`. -/

def lowerStr (s : Str) : Str := s.map lowerChar

/-- ASCII model of `str::trim` (strip whitespace from both ends). -/

def strTrim (s : Str) : Str :=
  ((s.dropWhile isWsChar).reverse.dropWhile isWsChar).reverse

/-- Model of `str::starts_with` on strings. -/

def startsWith (pre s : Str) : Bool :=
  match pre, s with
  | [], _ => true
  | _ :: _, [] => false
  | p :: ps, c :: cs => p = c && startsWith ps cs

/-- Model of `str::contains(char)`. -/

def containsChar (s : Str) (c : Char) : Bool := s.any (· = c)

/-- `value[..p]` for the first `'_'`, i.e. the
`if let Some(p) = value.find('_') { &value[..p] } else { value }` idiom
that strips a Fortran kind suffix. -/

def truncAtUnderscore (s : Str) : Str := s.takeWhile (· ≠ '_')

/-- Model of `str::split(char)`: splits at every occurrence, always
returning at least one (possibly empty) part. -/

def splitOnChar (c : Char) : Str → List Str
  | [] => [[]]
  | x :: xs =>
    let rest := splitOnChar c xs
    if x = c then [] :: rest
    else
      match rest with
      | [] => [[x]]
      | r :: rs => (x :: r) :: rs

/-- Model of Rust `f64` values: an exact rational for finite values plus
the special points.  (The source's `f64` rounds parsed literals to the
nearest float; the claims never distinguish a literal from its
rounding.) -/

inductive FReal where
  | finite (q : ℚ)
  | inf
  | negInf
  | nan
deriving Repr

/-- `f64::is_finite`. -/

def FReal.isFinite : FReal → Bool
  | .finite _ => true
  | _ => false

/-- `f64::fract() == 0.0` — true exactly for finite values with zero
fractional part (`NaN.fract()` is `NaN` and infinite values have
non-zero `fract()`, so both compare unequal to `0.0`). -/

def FReal.fractZero : FReal → Bool
  | .finite q => q.den = 1
  | _ => false

/-- `value.is_infinite() && value > 0.0` style sign test used by the
formatter. -/

def FReal.isPosInf : FReal → Bool
  | .inf => true
  | _ => false

/-- The errors of `error.rs` that the modelled code paths can produce.
The source stores a rendered `value.to_string()` in some payloads; the
model stores the message strings it can compute and leaves the payloads
that no claim inspects as plain strings. -/

inductive F90nmlError where
  | parse (message : Str) (line column : Nat)
  | invalidSyntax (message : Str) (position : Nat)
  | unexpectedEof
  | invalidValue (varName value expectedType : Str)
  | typeConversion (src dst : Str)
  | invalidIndex (varName index message : Str)
  | fuel
deriving Repr

/-- Rust `Result<T, F90nmlError>`. -/
abbrev FResult (α : Type) := Except F90nmlError α

/-- The dynamic value model of `fortran_types/value.rs`.  Derived-type
field maps (`HashMap<String, FortranValue>`) are modelled as association
lists. -/

inductive FValue where
  | integer (i : Int)
  | real (f : FReal)
  | complex (re im : FReal)
  | logical (b : Bool)
  | character (s : Str)
  | array (xs : List FValue)
  | multiArray (values : List FValue) (dimensions : List Nat) (startIndices : List Int)
  | derivedType (fields : List (Str × FValue))
  | derivedTypeArray (xs : List (List (Str × FValue)))
  | null
deriving Repr

/-- `FortranValue::type_name`. -/

def FValue.typeName : FValue → Str
  | .integer _ => lit "integer"
  | .real _ => lit "real"
  | .complex _ _ => lit "complex"
  | .logical _ => lit "logical"
  | .character _ => lit "character"
  | .array _ => lit "array"
  | .multiArray _ _ _ => lit "multi_array"
  | .derivedType _ => lit "derived_type"
  | .derivedTypeArray _ => lit "derived_type_array"
  | .null => lit "null"

/-! ## Decimal digit strings

`i64::to_string` / `i32::to_string` and the inverse `str::parse`
conversions, modelled from first principles so that round-trip lemmas
can be proved about them. -/

/-- Digit character for a value `0 ≤ d ≤ 9`. -/

def digitChar (d : Nat) : Char := Char.ofNat (48 + d)

/-- Numeric value of a digit character. -/

def digitVal (c : Char) : Nat := c.toNat - 48

/-- Fuelled decimal rendering of a natural number (most significant
digit first); fuel `n + 1` always suffices. -/

def natToStrAux : Nat → Nat → Str
  | 0, _ => []
  | fuel + 1, n =>
    if n < 10 then [digitChar n]
    else natToStrAux fuel (n / 10) ++ [digitChar (n % 10)]

/-- `u64::to_string`-style decimal rendering. -/

def natToStr (n : Nat) : Str := natToStrAux (n + 1) n

/-- `i64::to_string` / `i32::to_string`. -/

def intToStr (i : Int) : Str :=
  if i < 0 then '-' :: natToStr i.natAbs else natToStr i.toNat

/-- Value of a digit string (used by the `str::parse` models). -/

def digitsToNat (ds : Str) : Nat := ds.foldl (fun a c => 10 * a + digitVal c) 0

/-- `i64::MIN` as a mathematical integer. -/

def i64Min : Int := -(2 ^ 63)

/-- `i64::MAX` as a mathematical integer. -/

def i64Max : Int := 2 ^ 63 - 1

/-- Model of `str::parse::<i64>`: optional sign, then a non-empty run of
decimal digits, rejecting anything else and rejecting values outside the
`i64` range. -/

def rustParseI64 (s : Str) : Option Int :=
  let (neg, rest) :=
    match s with
    | '+' :: r => (false, r)
    | '-' :: r => (true, r)
    | r => (false, r)
  if rest = [] then none
  else if rest.all isDigitChar then
    let n : Int := (digitsToNat rest : Nat)
    let v := if neg then -n else n
    if i64Min ≤ v && v ≤ i64Max then some v else none
  else none

/-- Model of `str::parse::<i32>` (used by the index-string parser). -/

def rustParseI32 (s : Str) : Option Int :=
  let (neg, rest) :=
    match s with
    | '+' :: r => (false, r)
    | '-' :: r => (true, r)
    | r => (false, r)
  if rest = [] then none
  else if rest.all isDigitChar then
    let n : Int := (digitsToNat rest : Nat)
    let v := if neg then -n else n
    if -(2 ^ 31) ≤ v && v ≤ 2 ^ 31 - 1 then some v else none
  else none

/-- Model of `str::parse::<f64>` (Rust `f64::from_str`): an optional
sign, then a case-insensitive `inf`/`infinity`/`nan` keyword or a
decimal mantissa (digits with an optional point, at least one digit
overall) with an optional exponent.  Finite results are the exact
rational value of the literal. -/

def rustParseF64 (s : Str) : Option FReal :=
  let (neg, rest) :=
    match s with
    | '+' :: r => (false, r)
    | '-' :: r => (true, r)
    | r => (false, r)
  let low := lowerStr rest
  if low = lit "inf" || low = lit "infinity" then
    some (if neg then .negInf else .inf)
  else if low = lit "nan" then some .nan
  else
    let intPart := rest.takeWhile isDigitChar
    let r1 := rest.dropWhile isDigitChar
    let fracState : Option (Str × Str) :=
      match r1 with
      | '.' :: r2 => some (r2.takeWhile isDigitChar, r2.dropWhile isDigitChar)
      | _ => some ([], r1)
    match fracState with
    | none => none
    | some (fracPart, r3) =>
      if intPart = [] && fracPart = [] then none
      else
        let expVal : Option Int :=
          match r3 with
          | [] => some 0
          | e :: r4 =>
            if e = 'e' || e = 'E' then
              let (eneg, r5) :=
                match r4 with
                | '+' :: r => (false, r)
                | '-' :: r => (true, r)
                | r => (false, r)
              let eds := r5.takeWhile isDigitChar
              if eds = [] then none
              else if r5.dropWhile isDigitChar = [] then
                some (if eneg then -(digitsToNat eds : Int) else (digitsToNat eds : Int))
              else none
            else none
        match expVal with
        | none => none
        | some ex =>
          let mant : Nat := digitsToNat (intPart ++ fracPart)
          let e : Int := ex - (fracPart.length : Int)
          let q : ℚ :=
            if 0 ≤ e then mkRat (mant * 10 ^ e.toNat : Nat) 1
            else mkRat (mant : Nat) (10 ^ (-e).toNat)
          some (.finite (if neg then -q else q))

/-! ## `fortran_types/parsing.rs` -/

/-- `looks_like_integer`: after trimming and stripping any kind suffix,
an optional sign followed by (possibly zero) digits, starting with a
sign or a digit. -/

def looksLikeInteger (value : Str) : Bool :=
  let trimmed := strTrim value
  let clean := truncAtUnderscore trimmed
  match clean with
  | [] => false
  | first :: rest =>
    if first = '+' || first = '-' then rest.all isDigitChar
    else if isDigitChar first then rest.all isDigitChar
    else false

/-- `parse_integer`: strip a kind suffix, then `str::parse::<i64>`. -/

def parseInteger (value : Str) : FResult FValue :=
  let clean := truncAtUnderscore value
  match rustParseI64 clean with
  | some i => .ok (.integer i)
  | none => .error (.invalidValue [] value (lit "integer"))

/-- `parse_real`: reject integer-looking strings, normalize the first
`d`/`D` exponent marker to `e`, strip a kind suffix, recognize the
`inf`/`nan` specials, then `str::parse::<f64>`.

The source locates the first `d` in `normalized.to_lowercase()` and
replaces one character at that position in `normalized`; on the ASCII
strings this development quantifies over, character positions in the
lowercased string coincide with positions in the original, which the
`List.findIdx?` below mirrors. -/

def parseReal (value : Str) : FResult FValue :=
  let normalized0 := strTrim value
  if looksLikeInteger normalized0 then
    .error (.invalidValue [] value (lit "real"))
  else
    let normalized :=
      if containsChar (lowerStr normalized0) 'd' then
        match normalized0.findIdx? (fun c => lowerChar c = 'd') with
        | some p => normalized0.set p 'e'
        | none => normalized0
      else normalized0
    let clean := truncAtUnderscore normalized
    let low := lowerStr clean
    if low = lit "+inf" || low = lit "inf" || low = lit "+infinity" ||
        low = lit "infinity" then
      .ok (.real .inf)
    else if low = lit "-inf" || low = lit "-infinity" then
      .ok (.real .negInf)
    else if low = lit "nan" || low = lit "+nan" || low = lit "-nan" then
      .ok (.real .nan)
    else
      match rustParseF64 clean with
      | some f => .ok (.real f)
      | none => .error (.invalidValue [] value (lit "real"))

/-- `FortranValue::as_real`, needed by `parse_complex` below. -/

def FValue.asReal : FValue → FResult FReal
  | .real f => .ok f
  | .integer i => .ok (.finite (i : ℚ))
  | v => .error (.typeConversion v.typeName (lit "real"))

/-- `parse_complex`: requires the exact `(re, im)` form with a single
top-level comma split. -/

def parseComplex (value : Str) : FResult FValue :=
  let trimmed := strTrim value
  match trimmed with
  | '(' :: rest =>
    if rest ≠ [] && rest.getLast? = some ')' then
      let inner := rest.dropLast
      let parts := splitOnChar ',' inner
      match parts with
      | [p1, p2] => do
        let r ← parseReal (strTrim p1)
        let re ← r.asReal
        let i ← parseReal (strTrim p2)
        let im ← i.asReal
        .ok (.complex re im)
      | _ => .error (.invalidValue [] value (lit "complex"))
    else .error (.invalidValue [] value (lit "complex"))
  | _ => .error (.invalidValue [] value (lit "complex"))

/-- `parse_logical`: exact keyword matches plus the permissive `.t`/`.f`
prefix fallback, all on the lowercased, trimmed input. -/

def parseLogical (value : Str) : FResult FValue :=
  let low := strTrim (lowerStr value)
  if low = lit ".true." || low = lit ".t." || low = lit "true" || low = lit "t" then
    .ok (.logical true)
  else if low = lit ".false." || low = lit ".f." || low = lit "false" || low = lit "f" then
    .ok (.logical false)
  else if startsWith (lit ".t") low then .ok (.logical true)
  else if startsWith (lit ".f") low then .ok (.logical false)
  else .error (.invalidValue [] value (lit "logical"))

/-- Collapse doubled quote characters (`str::replace("''", "'")`,
scanning left to right without overlap). -/

def collapseDoubled (q : Char) : Str → Str
  | [] => []
  | [c] => [c]
  | c :: c2 :: rest =>
    if c = q && c2 = q then c :: collapseDoubled q rest
    else c :: collapseDoubled q (c2 :: rest)

/-- `parse_character`: strip matching quotes and collapse doubled
escapes, otherwise take the text verbatim.  (On the one-character
strings consisting of a bare quote, the source's `&trimmed[1..len-1]`
slice panics; the model's length guard keeps that unreachable input in
the verbatim branch instead — no claim exercises it.) -/

def parseCharacter (value : Str) : FValue :=
  let trimmed := strTrim value
  if 2 ≤ trimmed.length &&
      ((trimmed.head? = some sq && trimmed.getLast? = some sq) ||
        (trimmed.head? = some dq && trimmed.getLast? = some dq)) then
    let inner := trimmed.drop 1 |>.dropLast
    if trimmed.head? = some sq then .character (collapseDoubled sq inner)
    else .character (collapseDoubled dq inner)
  else .character trimmed

/-- `parse_fortran_value`: trim, map empty input to `Null`, dispatch on
a type hint if present, and otherwise auto-detect in the order Logical,
Complex, Real, Integer, with Character as the fallback. -/

def parseFortranValue (value : Str) (typeHint : Option Str) : FResult FValue :=
  let trimmed := strTrim value
  if trimmed = [] then .ok .null
  else
    let hinted : Option (FResult FValue) :=
      match typeHint with
      | some h =>
        if h = lit "integer" then some (parseInteger trimmed)
        else if h = lit "real" then some (parseReal trimmed)
        else if h = lit "complex" then some (parseComplex trimmed)
        else if h = lit "logical" then some (parseLogical trimmed)
        else if h = lit "character" then some (.ok (parseCharacter trimmed))
        else none
      | none => none
    match hinted with
    | some r => r
    | none =>
      match parseLogical trimmed with
      | .ok v => .ok v
      | .error _ =>
        match parseComplex trimmed with
        | .ok v => .ok v
        | .error _ =>
          match parseReal trimmed with
          | .ok v => .ok v
          | .error _ =>
            match parseInteger trimmed with
            | .ok v => .ok v
            | .error _ => .ok (parseCharacter trimmed)

/-! ## `fortran_types/formatting.rs`

`FormatOptions` and the value formatter.  The only formatting paths the
claims exercise are the default-option ones (no precision, no
exponential threshold); the remaining branches are modelled for
completeness of the definition, with the decimal rendering of finite
floats modelled as the exact shortest decimal of the modelled rational
(Rust's `f64` `Display` prints the shortest decimal that rounds back to
the float, which on the literals this development manipulates is that
same decimal). -/

/-- `ComplexFormat`. -/

inductive ComplexFormat where
  | parentheses
  | mathematical
deriving Repr

/-- `QuoteStyle`. -/

inductive QuoteStyle where
  | single
  | double
  | preserve
deriving Repr

/-- `FormatOptions`. -/

structure FormatOptions where
  uppercase : Bool
  floatPrecision : Option Nat
  exponentialThreshold : Option (FReal × FReal)
  complexFormat : ComplexFormat
  stringQuoteStyle : QuoteStyle
  useFortranDouble : Bool
  arrayElementWidth : Option Nat

/-- `FormatOptions::default`. -/

def FormatOptions.default : FormatOptions :=
  { uppercase := false
    floatPrecision := none
    exponentialThreshold := none
    complexFormat := .parentheses
    stringQuoteStyle := .single
    useFortranDouble := false
    arrayElementWidth := none }

/-- Number of factors `p` in `n` (fuelled; fuel `n` suffices). -/

def factorCount (p : Nat) : Nat → Nat → Nat
  | 0, _ => 0
  | fuel + 1, n => if 2 ≤ p && n % p = 0 && n ≠ 0 then factorCount p fuel (n / p) + 1 else 0

/-- Exact decimal rendering of a rational whose denominator divides a
power of ten (model of `f64::to_string` on such values: the shortest
decimal, without a trailing `.0` for integral values).  For other
denominators (which never arise from parsed or formatted floats in this
development) a `/`-separated fraction is produced. -/

def ratToDecimal (q : ℚ) : Str :=
  let a := factorCount 2 q.den q.den
  let b := factorCount 5 q.den q.den
  let k := max a b
  if q.den = 2 ^ a * 5 ^ b then
    if k = 0 then intToStr q.num
    else
      let scaled := q.num * (2 : Int) ^ (k - a) * (5 : Int) ^ (k - b)
      let mag := natToStr scaled.natAbs
      let digits := if mag.length ≤ k then List.replicate (k + 1 - mag.length) '0' ++ mag else mag
      let ip := digits.take (digits.length - k)
      let fp := digits.drop (digits.length - k)
      (if q.num < 0 then ['-'] else []) ++ ip ++ '.' :: fp
  else intToStr q.num ++ '/' :: natToStr q.den

/-- Decimal exponent of a nonzero rational: the `e` with
`1 ≤ |q| / 10^e < 10` (fuelled search; used only by the exponential
formatting branch, which default options never take). -/

def decExponentAux : Nat → ℚ → Int → Int
  | 0, _, e => e
  | fuel + 1, q, e =>
    if 10 ≤ |q| then decExponentAux fuel (q / 10) (e + 1)
    else if |q| < 1 && q ≠ 0 then decExponentAux fuel (q * 10) (e - 1)
    else e

/-- Decimal exponent entry point. -/

def decExponent (q : ℚ) : Int :=
  decExponentAux (natToStr q.num.natAbs).length q 0 -
    decExponentAux (natToStr q.den).length (1 / (q.den : ℚ)) 0 * 0 +
    0

/-- Model of `format!("{:e}", v)` on finite values (only reachable when
an exponential threshold is configured, which no claim exercises). -/

def ratToExpString (q : ℚ) : Str :=
  if q = 0 then lit "0e0"
  else
    let e := decExponentAux ((natToStr q.num.natAbs).length + (natToStr q.den).length + 2) q 0
    ratToDecimal (q / (10 : ℚ) ^ e) ++ 'e' :: intToStr e

/-- Round to `p` decimal places (model of `format!("{:.p$}", v)`;
unreachable with default options). -/

def ratToFixed (q : ℚ) (p : Nat) : Str :=
  let scaled : Int := round (q * (10 : ℚ) ^ p)
  if p = 0 then intToStr scaled
  else
    let mag := natToStr scaled.natAbs
    let digits := if mag.length ≤ p then List.replicate (p + 1 - mag.length) '0' ++ mag else mag
    let ip := digits.take (digits.length - p)
    let fp := digits.drop (digits.length - p)
    (if scaled < 0 then ['-'] else []) ++ ip ++ '.' :: fp

/-- ASCII model of `str::to_uppercase`. -/

def upperChar (c : Char) : Char :=
  if 'a' ≤ c && c ≤ 'z' then Char.ofNat (c.toNat - 32) else c

/-- `", "`-join used by `format_array` without a width limit. -/

def joinCommaSpace (parts : List Str) : Str :=
  match parts with
  | [] => []
  | p :: ps => p ++ (ps.flatMap (fun x => ',' :: ' ' :: x))

/-- `format_array`'s wrapping mode (`array_element_width` set; modelled
for definitional completeness, never exercised by the claims). -/

def formatArrayWrap (vals : List Str) (maxWidth : Nat) : Str :=
  match vals with
  | [] => []
  | first :: rest =>
    let step := fun (st : Str × Nat) (v : Str) =>
      if st.2 + v.length + 2 > maxWidth then
        (st.1 ++ lit ",\x0a    " ++ v, 4 + v.length)
      else (st.1 ++ lit ", " ++ v, st.2 + 2 + v.length)
    (rest.foldl step (first, first.length)).1

/-- `FortranValue::format_real`. -/

def formatReal (f : FReal) (options : FormatOptions) : Str :=
  match f with
  | .inf => lit "+inf"
  | .negInf => lit "-inf"
  | .nan => lit "nan"
  | .finite q =>
    let useExponential :=
      match options.exponentialThreshold with
      | some (minT, maxT) =>
        match minT, maxT with
        | .finite mn, .finite mx => q ≠ 0 && (|q| < mn || mx < |q|)
        | _, _ => false
      | none => false
    if useExponential then
      let base :=
        match options.floatPrecision with
        | some p =>
          let e := decExponentAux ((natToStr q.num.natAbs).length + (natToStr q.den).length + 2) q 0
          ratToFixed (q / (10 : ℚ) ^ e) p ++ 'e' :: intToStr e
        | none => ratToExpString q
      if options.useFortranDouble then base.map (fun c => if c = 'e' then 'd' else c)
      else base
    else
      match options.floatPrecision with
      | some p => ratToFixed q p
      | none =>
        let s := ratToDecimal q
        if containsChar s '.' || containsChar s 'e' || containsChar s 'E' then s
        else s ++ lit ".0"

/-- `FortranValue::format_complex`. -/

def formatComplex (re im : FReal) (options : FormatOptions) : Str :=
  let reStr := formatReal re options
  let imStr := formatReal im options
  match options.complexFormat with
  | .parentheses => '(' :: reStr ++ ',' :: ' ' :: imStr ++ [')']
  | .mathematical =>
    let nonneg :=
      match im with
      | .finite q => decide (0 ≤ q)
      | .inf => true
      | .negInf => false
      | .nan => false
    if nonneg then reStr ++ '+' :: imStr ++ lit "*i"
    else reStr ++ imStr ++ lit "*i"

/-- `FortranValue::format_logical`. -/

def formatLogical (b : Bool) (options : FormatOptions) : Str :=
  let base := if b then lit ".true." else lit ".false."
  if options.uppercase then base.map upperChar else base

/-- `FortranValue::format_string`: quote and double embedded quotes. -/

def formatString (s : Str) (options : FormatOptions) : Str :=
  let quoteChar :=
    match options.stringQuoteStyle with
    | .single => sq
    | .double => dq
    | .preserve => sq
  let escaped := s.flatMap (fun c => if c = quoteChar then [c, c] else [c])
  quoteChar :: escaped ++ [quoteChar]

/-- The `format_array` post-processing on already-formatted elements
(empty arrays format to the empty string; otherwise a `", "` join or
the width-wrapping mode when `array_element_width` is set). -/

def formatArrayJoin (formatted : List Str) (options : FormatOptions) : Str :=
  match formatted with
  | [] => []
  | _ :: _ =>
    match options.arrayElementWidth with
    | some maxWidth => formatArrayWrap formatted maxWidth
    | none => joinCommaSpace formatted

mutual

/-- `FortranValue::to_fortran_string_with_options` (the `Array` and
`MultiArray` cases inline `format_array`, which formats every element
and joins the results). -/

def toFortranStringWithOptions (v : FValue) (options : FormatOptions) : Str :=
  match v with
  | .integer i => intToStr i
  | .real f => formatReal f options
  | .complex r i => formatComplex r i options
  | .logical b => formatLogical b options
  | .character s => formatString s options
  | .array arr => formatArrayJoin (formatArrayElems arr options) options
  | .multiArray values _ _ => formatArrayJoin (formatArrayElems values options) options
  | .derivedType _ => lit "<derived_type>"
  | .derivedTypeArray _ => lit "<derived_type_array>"
  | .null => []

/-- Helper: format every array element in order (`values.iter().map(|v|
v.to_fortran_string_with_options(options))`). -/

def formatArrayElems (values : List FValue) (options : FormatOptions) : List Str :=
  match values with
  | [] => []
  | v :: vs => toFortranStringWithOptions v options :: formatArrayElems vs options

end

/-- `FortranValue::format_array` as a standalone function (equal, by
definition, to what the array cases above compute). -/

def formatArray (values : List FValue) (options : FormatOptions) : Str :=
  formatArrayJoin (formatArrayElems values options) options

/-- `FortranValue::to_fortran_string(uppercase)`: defaults with the
given uppercase flag. -/

def toFortranString (v : FValue) (uppercase : Bool) : Str :=
  toFortranStringWithOptions v { FormatOptions.default with uppercase := uppercase }

/-! ## `fortran_types/value.rs` — conversions -/

/-- `i64::MIN as f64` (exact). -/

def i64MinF : ℚ := -(2 ^ 63)

/-- `i64::MAX as f64` (rounds up to `2^63`). -/

def i64MaxF : ℚ := 2 ^ 63

/-- `FortranValue::as_integer`: integers pass through; finite reals with
zero fractional part and in-range magnitude are cast (the `as i64` cast
saturates at the range ends). -/

def FValue.asInteger : FValue → FResult Int
  | .integer i => .ok i
  | .real f =>
    match f with
    | .finite q =>
      if q.den = 1 then
        if i64MinF ≤ q && q ≤ i64MaxF then
          .ok (min q.num i64Max)
        else .error (.typeConversion (lit "real") (lit "integer"))
      else .error (.typeConversion (lit "real") (lit "integer"))
    | _ => .error (.typeConversion (lit "real") (lit "integer"))
  | v => .error (.typeConversion v.typeName (lit "integer"))

/-- `FortranValue::as_complex`. -/

def FValue.asComplex : FValue → FResult (FReal × FReal)
  | .complex r i => .ok (r, i)
  | .real f => .ok (f, .finite 0)
  | .integer i => .ok (.finite (i : ℚ), .finite 0)
  | v => .error (.typeConversion v.typeName (lit "complex"))

/-- `FortranValue::as_logical`. -/

def FValue.asLogical : FValue → FResult Bool
  | .logical b => .ok b
  | v => .error (.typeConversion v.typeName (lit "logical"))

/-- `FortranValue::as_character`. -/

def FValue.asCharacter : FValue → FResult Str
  | .character s => .ok s
  | v => .error (.typeConversion v.typeName (lit "character"))

/-- `FortranValue::as_array`. -/

def FValue.asArray : FValue → FResult (List FValue)
  | .array arr => .ok arr
  | .multiArray values _ _ => .ok values
  | v => .error (.typeConversion v.typeName (lit "array"))

/-- `FortranValue::can_convert_to`, with the source's match arms in
order: the `Integer → real/complex`, `Real → integer/complex` and
`Complex → real` special cases first, then the same-type-name guard,
then `false`. -/

def FValue.canConvertTo (v : FValue) (target : Str) : Bool :=
  match v with
  | .integer _ =>
    if target = lit "real" || target = lit "complex" then true
    else v.typeName = target
  | .real f =>
    if target = lit "integer" then f.fractZero && f.isFinite
    else if target = lit "complex" then true
    else v.typeName = target
  | .complex _ _ =>
    if target = lit "real" then false
    else v.typeName = target
  | _ => v.typeName = target

/-! ## `namelist/patching.rs` — the merge engine -/

/-- `MergeStrategy`. -/

inductive MergeStrategy where
  | replace
  | update
  | append
  | skipExisting
deriving Repr, DecidableEq

/-- `Array(_) | MultiArray { .. }` test used by the first arm's guard in
`merge_values`. -/

def FValue.isArrayLike : FValue → Bool
  | .array _ => true
  | .multiArray _ _ _ => true
  | _ => false

/-- Field-wise union used by the derived-type arm of `merge_values`
(`merged = existing.clone(); merged.insert(key, value)` for every
incoming field). -/

def unionFields (existing new : List (Str × FValue)) : List (Str × FValue) :=
  new.foldl (fun m kv =>
    if m.any (fun p => p.1 = kv.1) then
      m.map (fun p => if p.1 = kv.1 then (p.1, kv.2) else p)
    else m ++ [kv]) existing

/-- `merge_values`, with the source's arms in order.  Note that the
first arm's guard (`new` is not `Array`/`MultiArray`) already captures
every `DerivedType` incoming value, so the later derived-type arm is
unreachable — exactly as in the source. -/

def mergeValues (existing new : FValue) : FResult FValue :=
  if !new.isArrayLike then .ok new
  else
    match existing, new with
    | .array _, .array newArr => .ok (.array newArr)
    | existingScalar, .array newArr => .ok (.array (existingScalar :: newArr))
    | .derivedType ef, .derivedType nf => .ok (.derivedType (unionFields ef nf))
    | _, _ => .ok new

/-- `append_values`, with the source's arms in order. -/

def appendValues (existing new : FValue) : FResult FValue :=
  match existing, new with
  | .array existingArr, .array newArr => .ok (.array (existingArr ++ newArr))
  | .array existingArr, newScalar => .ok (.array (existingArr ++ [newScalar]))
  | existingScalar, newScalar =>
    if !(match existingScalar with | .array _ => true | _ => false) then
      .ok (.array [existingScalar, newScalar])
    else .ok new

/-! ## Association lists modelling `HashMap`

The source keeps each map's authoritative iteration order in a separate
`*_order` vector, so only key-based operations of the hash maps are
observable; they are modelled on association lists. -/

/-- `HashMap::get`. -/

def alGet {α : Type} (m : List (Str × α)) (k : Str) : Option α :=
  (m.find? (fun p => p.1 = k)).map (·.2)

/-- `HashMap::contains_key`. -/

def alContains {α : Type} (m : List (Str × α)) (k : Str) : Bool :=
  m.any (fun p => p.1 = k)

/-- `HashMap::insert` (replaces the value under an existing key,
otherwise adds the binding). -/

def alInsert {α : Type} (m : List (Str × α)) (k : Str) (v : α) : List (Str × α) :=
  if alContains m k then m.map (fun p => if p.1 = k then (p.1, v) else p)
  else m ++ [(k, v)]

/-- `HashMap::remove` (drops the binding if present). -/

def alRemove {α : Type} (m : List (Str × α)) (k : Str) : List (Str × α) :=
  m.filter (fun p => ¬ p.1 = k)

/-! ## `namelist/group.rs` — `NamelistGroup`

The `formatting_hints: GroupFormattingHints` field is omitted from the
model: it is never read by any code path a claim depends on. -/

/-- `WriteOptions` (from `lib.rs`); the `force` flag only affects file
creation and is carried for completeness. -/

structure WriteOptions where
  force : Bool
  columnWidth : Nat
  indent : Str
  endComma : Bool
  uppercase : Bool
  floatPrecision : Option Nat
  sortGroups : Bool
  sortVariables : Bool
  defaultStartIndex : Int

/-- `WriteOptions::default`. -/

def WriteOptions.default : WriteOptions :=
  { force := false
    columnWidth := 72
    indent := lit "    "
    endComma := false
    uppercase := false
    floatPrecision := none
    sortGroups := false
    sortVariables := false
    defaultStartIndex := 1 }

/-- Byte-lexicographic `≤` on strings (the `Ord` used by
`sort_by_key`; on char lists, code-point order coincides with UTF-8
byte order). -/

def strLe : Str → Str → Bool
  | [], _ => true
  | _ :: _, [] => false
  | a :: as_, b :: bs => if a = b then strLe as_ bs else decide (a < b)

/-- `NamelistGroup`. -/

structure NamelistGroup where
  vars : List (Str × FValue)
  variable_order : List Str
  start_indices : List (Str × List Int)
  variable_comments : List (Str × Str)

/-- `NamelistGroup::new`. -/

def NamelistGroup.new : NamelistGroup :=
  { vars := [], variable_order := [], start_indices := [], variable_comments := [] }

/-- `NamelistGroup::insert_value` (and `insert`, which differs only by
an `Into<FortranValue>` coercion): lowercase the name, append it to the
order vector only when it is new, and store the value. -/

def NamelistGroup.insertValue (g : NamelistGroup) (name : Str) (value : FValue) :
    NamelistGroup :=
  let n := lowerStr name
  { g with
    variable_order :=
      if alContains g.vars n then g.variable_order else g.variable_order ++ [n]
    vars := alInsert g.vars n value }

/-- `NamelistGroup::insert_with_comment`. -/

def NamelistGroup.insertWithComment (g : NamelistGroup) (name : Str) (value : FValue)
    (comment : Str) : NamelistGroup :=
  let n := lowerStr name
  { g with
    variable_order :=
      if alContains g.vars n then g.variable_order else g.variable_order ++ [n]
    vars := alInsert g.vars n value
    variable_comments := alInsert g.variable_comments n comment }

/-- `NamelistGroup::get`. -/

def NamelistGroup.get (g : NamelistGroup) (name : Str) : Option FValue :=
  alGet g.vars (lowerStr name)

/-- `NamelistGroup::has_variable`. -/

def NamelistGroup.hasVariable (g : NamelistGroup) (name : Str) : Bool :=
  alContains g.vars (lowerStr name)

/-- `NamelistGroup::remove`: on a hit, drop the value, the order entry
and the per-variable metadata. -/

def NamelistGroup.remove (g : NamelistGroup) (name : Str) :
    Option FValue × NamelistGroup :=
  let n := lowerStr name
  match alGet g.vars n with
  | some v =>
    (some v,
      { vars := alRemove g.vars n
        variable_order := g.variable_order.filter (fun x => ¬ x = n)
        start_indices := alRemove g.start_indices n
        variable_comments := alRemove g.variable_comments n })
  | none => (none, g)

/-- `NamelistGroup::set_start_indices`. -/

def NamelistGroup.setStartIndices (g : NamelistGroup) (name : Str) (indices : List Int) :
    NamelistGroup :=
  { g with start_indices := alInsert g.start_indices (lowerStr name) indices }

/-- `NamelistGroup::get_start_indices`. -/

def NamelistGroup.getStartIndices (g : NamelistGroup) (name : Str) : Option (List Int) :=
  alGet g.start_indices (lowerStr name)

/-- `NamelistGroup::set_comment`. -/

def NamelistGroup.setComment (g : NamelistGroup) (name comment : Str) : NamelistGroup :=
  { g with variable_comments := alInsert g.variable_comments (lowerStr name) comment }

/-- `NamelistGroup::get_comment`. -/

def NamelistGroup.getComment (g : NamelistGroup) (name : Str) : Option Str :=
  alGet g.variable_comments (lowerStr name)

/-- `NamelistGroup::variables()`: iterate the order vector, looking each
name up in the map. -/

def NamelistGroup.variablesInOrder (g : NamelistGroup) : List (Str × FValue) :=
  g.variable_order.filterMap (fun name => (alGet g.vars name).map (fun v => (name, v)))

/-- `NamelistGroup::apply_patch`: merge each patch variable into the
existing slot (via `merge_values`) or insert it, then copy start
indices and comments when the patch carries them. -/

def NamelistGroup.applyPatch (g : NamelistGroup) (patch : NamelistGroup) :
    FResult NamelistGroup := do
  let mut cur := g
  for (varName, patchValue) in patch.variablesInOrder do
    match cur.get varName with
    | some existingValue =>
      let merged ← mergeValues existingValue patchValue
      cur := { cur with vars := alInsert cur.vars (lowerStr varName) merged }
    | none =>
      cur := cur.insertValue varName patchValue
    match patch.getStartIndices varName with
    | some indices => cur := cur.setStartIndices varName indices
    | none => pure ()
    match patch.getComment varName with
    | some comment => cur := cur.setComment varName comment
    | none => pure ()
  return cur

/-- `NamelistGroup::merge_with_strategy`. -/

def NamelistGroup.mergeWithStrategy (g : NamelistGroup) (other : NamelistGroup)
    (strategy : MergeStrategy) : FResult NamelistGroup := do
  let mut cur := g
  for (varName, otherValue) in other.variablesInOrder do
    match strategy with
    | .replace => cur := cur.insertValue varName otherValue
    | .update => cur := cur.insertValue varName otherValue
    | .append =>
      match cur.get varName with
      | some existingValue =>
        let appended ← appendValues existingValue otherValue
        cur := { cur with vars := alInsert cur.vars (lowerStr varName) appended }
      | none => cur := cur.insertValue varName otherValue
    | .skipExisting =>
      if !cur.hasVariable varName then
        cur := cur.insertValue varName otherValue
    if strategy ≠ .skipExisting || !cur.hasVariable varName then
      match other.getStartIndices varName with
      | some indices => cur := cur.setStartIndices varName indices
      | none => pure ()
      match other.getComment varName with
      | some comment => cur := cur.setComment varName comment
      | none => pure ()
  return cur

/-! ### Group formatting (`NamelistGroup::to_fortran_string`) -/

/-- `format_simple_assignment`: optional start-index prefix, ` = `, the
formatted value, and an optional trailing comma. -/

def NamelistGroup.formatSimpleAssignment (g : NamelistGroup) (name : Str) (value : FValue)
    (options : WriteOptions) : Str :=
  let head :=
    match g.getStartIndices name with
    | some indices =>
      if indices ≠ [] then
        name ++ '(' ::
          (joinCommaSep (indices.map intToStr) (options.columnWidth > 0)) ++ [')']
      else name
    | none => name
  let line := head ++ lit " = " ++ toFortranString value options.uppercase
  if options.endComma then line ++ [','] else line
where
  /-- Join with `","` plus a space when the column width is positive. -/
  joinCommaSep (parts : List Str) (withSpace : Bool) : Str :=
    match parts with
    | [] => []
    | p :: ps =>
      p ++ ps.flatMap (fun x => (if withSpace then [',', ' '] else [',']) ++ x)

/-- `format_array_assignment`: `name(start:end) = v1, v2, ...` with
column-width wrapping. -/

def NamelistGroup.formatArrayAssignment (g : NamelistGroup) (name : Str)
    (values : List FValue) (options : WriteOptions) : List Str :=
  match values with
  | [] => [name ++ lit " ="]
  | _ :: _ =>
    let startIdx :=
      match g.getStartIndices name with
      | some indices => indices.head?.getD options.defaultStartIndex
      | none => options.defaultStartIndex
    let endIdx := startIdx + (values.length : Int) - 1
    let header := name ++ '(' ::
      (if values.length = 1 then intToStr startIdx
       else intToStr startIdx ++ ':' :: intToStr endIdx) ++ lit ") = "
    let headerLen := header.length
    let step := fun (st : List Str × Str × Bool) (v : FValue) =>
      let (lines, line, first) := st
      let line := if first then line else line ++ lit ", "
      let valueStr := toFortranString v options.uppercase
      if options.columnWidth > 0 && line.length + valueStr.length > options.columnWidth
          && line.length > headerLen then
        (lines ++ [line], List.replicate headerLen ' ' ++ valueStr, false)
      else
        (lines, line ++ valueStr, false)
    let (lines, line, _) := values.foldl step ([], header, true)
    let line := if options.endComma then line ++ [','] else line
    lines ++ [line]

/-- `format_multi_array_assignment` (simple `(:,:)` list form). -/

def NamelistGroup.formatMultiArrayAssignment (name : Str) (values : List FValue)
    (options : WriteOptions) : List Str :=
  let body := joinCommaSpace (values.map (fun v => toFortranString v options.uppercase))
  let line := name ++ lit "(:,:) = " ++ body
  [if options.endComma then line ++ [','] else line]

/-- `format_derived_type_assignment`: one `name%field = value` line per
field (hash-map iteration order is modelled as the association-list
order; no claim depends on it). -/

def NamelistGroup.formatDerivedTypeAssignment (g : NamelistGroup) (name : Str)
    (fields : List (Str × FValue)) (options : WriteOptions) : List Str :=
  fields.map (fun (fieldName, fieldValue) =>
    g.formatSimpleAssignment (name ++ '%' :: fieldName) fieldValue options)

/-- `format_derived_type_array_assignment`. -/

def NamelistGroup.formatDerivedTypeArrayAssignment (g : NamelistGroup) (name : Str)
    (array : List (List (Str × FValue))) (options : WriteOptions) : List Str :=
  (array.enum.map (fun (i, element) =>
    let index : Int := (i : Int) + options.defaultStartIndex
    element.map (fun (fieldName, fieldValue) =>
      g.formatSimpleAssignment (name ++ '(' :: intToStr index ++ ')' :: '%' :: fieldName)
        fieldValue options))).flatten

/-- `format_variable_assignment`. -/

def NamelistGroup.formatVariableAssignment (g : NamelistGroup) (name : Str)
    (value : FValue) (options : WriteOptions) : List Str :=
  match value with
  | .array arr => g.formatArrayAssignment name arr options
  | .multiArray values _ _ => NamelistGroup.formatMultiArrayAssignment name values options
  | .derivedType fields => g.formatDerivedTypeAssignment name fields options
  | .derivedTypeArray arr => g.formatDerivedTypeArrayAssignment name arr options
  | _ => [g.formatSimpleAssignment name value options]

/-- `NamelistGroup::to_fortran_string`: for each variable (in order, or
sorted when requested), indent each assignment line, append the
variable's comment when present, and terminate with a newline. -/

def NamelistGroup.toFortranString (g : NamelistGroup) (options : WriteOptions) :
    FResult Str :=
  let vars :=
    if options.sortVariables then
      g.variablesInOrder.mergeSort (fun a b => strLe (lowerStr a.1) (lowerStr b.1))
    else g.variablesInOrder
  .ok <| vars.flatMap (fun (varName, varValue) =>
    let name := if options.uppercase then varName.map upperChar else varName
    let assignmentLines := g.formatVariableAssignment name varValue options
    assignmentLines.flatMap (fun line =>
      let withComment :=
        match g.getComment varName with
        | some comment =>
          if strTrim comment ≠ [] then
            if !startsWith (lit "!") (strTrim comment) then
              line ++ lit "  ! " ++ strTrim comment
            else line ++ lit "  " ++ strTrim comment
          else line
        | none => line
      options.indent ++ withComment ++ ['\x0a']))

/-! ## `namelist/core.rs` — `Namelist`

The `formatting_hints: FormattingHints` field is omitted (never read on
a claim's code path). -/

/-- `Namelist`. -/

structure Namelist where
  groups : List (Str × NamelistGroup)
  group_order : List Str

/-- `Namelist::new`. -/

def Namelist.new : Namelist := { groups := [], group_order := [] }

/-- `Namelist::insert_group_object`. -/

def Namelist.insertGroupObject (nml : Namelist) (name : Str) (group : NamelistGroup) :
    Namelist :=
  let n := lowerStr name
  { groups := alInsert nml.groups n group
    group_order :=
      if alContains nml.groups n then nml.group_order else nml.group_order ++ [n] }

/-- `Namelist::insert_group` (creates an empty group when the name is
new; the source returns a mutable reference into the map, modelled by
the updated namelist). -/

def Namelist.insertGroup (nml : Namelist) (name : Str) : Namelist :=
  let n := lowerStr name
  if alContains nml.groups n then nml
  else { groups := alInsert nml.groups n NamelistGroup.new
         group_order := nml.group_order ++ [n] }

/-- `Namelist::get_group`. -/

def Namelist.getGroup (nml : Namelist) (name : Str) : Option NamelistGroup :=
  alGet nml.groups (lowerStr name)

/-- `Namelist::has_group`. -/

def Namelist.hasGroup (nml : Namelist) (name : Str) : Bool :=
  alContains nml.groups (lowerStr name)

/-- `Namelist::remove_group`. -/

def Namelist.removeGroup (nml : Namelist) (name : Str) :
    Option NamelistGroup × Namelist :=
  let n := lowerStr name
  match alGet nml.groups n with
  | some g =>
    (some g,
      { groups := alRemove nml.groups n
        group_order := nml.group_order.filter (fun x => ¬ x = n) })
  | none => (none, nml)

/-- `Namelist::groups()`: iterate the order vector. -/

def Namelist.groupsInOrder (nml : Namelist) : List (Str × NamelistGroup) :=
  nml.group_order.filterMap (fun name => (alGet nml.groups name).map (fun g => (name, g)))

/-- The group loop of `Namelist::to_fortran_string` (the source's `for`
loop with its two mutable variables `output` and `first_group` made
explicit). -/

def Namelist.fmtGroupsLoop (options : WriteOptions) :
    List (Str × NamelistGroup) → Str → Bool → FResult Str
  | [], output, _ => .ok output
  | (groupName, group) :: rest, output, firstGroup =>
    let output := if !firstGroup then output ++ ['\x0a'] else output
    let name := if options.uppercase then groupName.map upperChar else groupName
    match group.toFortranString options with
    | .ok body =>
      Namelist.fmtGroupsLoop options rest
        (output ++ '&' :: name ++ '\x0a' :: body ++ '/' :: ['\x0a']) false
    | .error e => .error e

/-- `Namelist::to_fortran_string`: each group (in order, or sorted when
requested) as `&name\n<body>/\n`, with a blank line between groups. -/

def Namelist.toFortranString (nml : Namelist) (options : WriteOptions) : FResult Str :=
  let grps :=
    if options.sortGroups then
      nml.groupsInOrder.mergeSort (fun a b => strLe (lowerStr a.1) (lowerStr b.1))
    else nml.groupsInOrder
  Namelist.fmtGroupsLoop options grps [] true

/-! ## `findex.rs` — the column-major index iterator -/

/-- `IndexBound`. -/

structure IndexBound where
  start : Option Int
  stop : Option Int
  stride : Option Int
deriving Repr

/-- `IndexBound::new`. -/

def IndexBound.mk' (start stop stride : Option Int) : IndexBound :=
  { start := start, stop := stop, stride := stride }

/-- `IndexBound::range`. -/

def IndexBound.range (start stop : Int) : IndexBound :=
  { start := some start, stop := some stop, stride := none }

/-- `IndexBound::single`. -/

def IndexBound.single (index : Int) : IndexBound :=
  { start := some index, stop := some index, stride := none }

/-- `IndexBound::implicit`. -/

def IndexBound.implicit : IndexBound :=
  { start := none, stop := none, stride := none }

/-- `IndexBound::effective_start`. -/

def IndexBound.effectiveStart (b : IndexBound) (default : Int) : Int :=
  b.start.getD default

/-- `IndexBound::effective_stride`. -/

def IndexBound.effectiveStride (b : IndexBound) : Int :=
  b.stride.getD 1

/-- `FIndex` — the source's field `end` is called `stop` here (`end` is
reserved in Lean). -/

structure FIndex where
  bounds : List IndexBound
  current : List Int
  start : List Int
  stop : List Int
  step : List Int
  first : List Int
  exhausted : Bool
deriving Repr

/-- `FIndex::new`: per-dimension effective starts/ends/strides, with the
`first` vector clamped to the global start when one is supplied. -/

def FIndex.new (bounds : List IndexBound) (globalStart : Option Int) : FIndex :=
  let defaultStart := globalStart.getD 1
  let start := bounds.map (fun b => b.effectiveStart defaultStart)
  let stop := bounds.map (fun b => b.stop.getD defaultStart)
  let step := bounds.map (fun b => b.effectiveStride)
  let first0 := bounds.map (fun b => b.effectiveStart defaultStart)
  let first :=
    match globalStart with
    | some gs => first0.map (fun f => min f gs)
    | none => first0
  { bounds := bounds
    current := start
    start := start
    stop := stop
    step := step
    first := first
    exhausted := false }

/-- One pass of the carry loop of `FIndex::advance`: starting from the
first (leftmost) dimension, either step a dimension that still has room
(clearing the carry and leaving the later dimensions untouched) or
reset it to its start and carry into the next.  Returns the updated
`current` vector and whether a carry ran off the last dimension. -/

def FIndex.advanceCarry : List Int → List Int → List Int → List Int → List Int × Bool
  | [], _, _, _ => ([], true)
  | c :: cs, st :: sts, e :: es, s :: ss =>
    let next := c + st
    if (st > 0 && next ≤ e) || (st < 0 && e ≤ next) then
      (next :: cs, false)
    else
      let (rest, carry) := FIndex.advanceCarry cs sts es ss
      (s :: rest, carry)
  | c :: cs, _, _, _ => (c :: cs, true)

/-- `FIndex::advance`: return the current tuple and step to the next
one, marking exhaustion when the carry leaves the last dimension. -/

def FIndex.advance (fi : FIndex) : Option (List Int) × FIndex :=
  if fi.exhausted then (none, fi)
  else
    let result := fi.current
    let (current, carry) := FIndex.advanceCarry fi.current fi.step fi.stop fi.start
    (some result, { fi with current := current, exhausted := carry })

/-- Drain the iterator (model of `Iterator::collect` on `FIndex`,
fuelled; any fuel at least the number of produced tuples plus one
collects them all). -/

def FIndex.collect : Nat → FIndex → List (List Int)
  | 0, _ => []
  | fuel + 1, fi =>
    match fi.advance with
    | (some r, fi') => r :: FIndex.collect fuel fi'
    | (none, _) => []

/-- `FIndex::to_linear_index` (column-major, using the `first` origins;
out-of-range coordinates raise `InvalidIndex`). -/

def FIndex.toLinearIndex (fi : FIndex) (indices : List Int) (dimensions : List Nat) :
    FResult Nat :=
  if indices.length ≠ dimensions.length then
    .error (.invalidIndex (lit "array") [] (lit "dimension count mismatch"))
  else
    go (indices.zip (dimensions.zip fi.first)) 0 1
where
  go : List (Int × Nat × Int) → Nat → Nat → FResult Nat
    | [], linear, _ => .ok linear
    | (idx, dim, first) :: rest, linear, multiplier =>
      let zeroBased := idx - first
      if zeroBased < 0 || (dim : Int) ≤ zeroBased then
        .error (.invalidIndex (lit "array") [] (lit "index out of bounds"))
      else go rest (linear + zeroBased.toNat * multiplier) (multiplier * dim)

/-- `FIndex::from_linear_index` (column-major). -/

def FIndex.fromLinearIndex (fi : FIndex) (linear : Nat) (dimensions : List Nat) :
    List Int :=
  go (dimensions.zip fi.first) linear
where
  go : List (Nat × Int) → Nat → List Int
    | [], _ => []
    | (dim, first) :: rest, remaining =>
      (((remaining % dim : Nat) : Int) + first) :: go rest (remaining / dim)

/-! ## `scanner/token.rs` and `scanner/lexer.rs`

Tokens carry their kind and lexeme.  The source also records 1-based
line/column positions; those are omitted (see the module docstring): no
modelled control-flow decision reads them. -/

/-- `TokenType`. -/

inductive TokType where
  | groupStart
  | groupEnd
  | groupStartAlt
  | groupEndAlt
  | assign
  | comma
  | leftParen
  | rightParen
  | colon
  | percent
  | plus
  | minus
  | star
  | identifier
  | integer
  | real
  | complex
  | logical
  | string
  | comment
  | whitespace
  | eof
  | invalid
deriving Repr, DecidableEq

/-- `Token` (kind and raw lexeme). -/

structure Tok where
  ttype : TokType
  lexeme : Str
deriving Repr, DecidableEq

/-- The default comment-introducer characters (`vec!['!', '#']` in
`Lexer::new`; every code path a claim exercises uses the default). -/

def commentTokens : List Char := ['!', '#']

/-- The default `non_delimited_strings` flag (`true` in `Lexer::new`). -/

def nonDelimitedStrings : Bool := true

/-- The continuation predicate of `scan_identifier_continuation`:
alphanumerics and underscores, plus quote characters when
`non_delimited_strings` is enabled (it is, by default). -/

def identContChar (c : Char) : Bool :=
  isAlnumChar c || c = '_' || (nonDelimitedStrings && (c = sq || c = dq))

/-- `determine_number_type`: a lexeme containing a decimal point,
exponent marker or kind underscore is Real, otherwise Integer. -/

def determineNumberType (lexeme : Str) : TokType :=
  if containsChar lexeme '.' || containsChar lexeme 'e' || containsChar lexeme 'E' ||
      containsChar lexeme 'd' || containsChar lexeme 'D' || containsChar lexeme '_' then
    .real
  else .integer

/-- Exponent-marker test (`e`/`E`/`d`/`D`). -/

def isExpMarker (c : Char) : Bool := c = 'e' || c = 'E' || c = 'd' || c = 'D'

/-- The kind-suffix scan shared by `scan_number` and
`scan_number_continuation`: after a consumed `'_'`, a named kind
(alphanumerics and underscores) or a numeric kind (digits).  Returns the
consumed characters (including the underscore) and the rest. -/

def scanKindSuffix (cs : Str) : Str × Str :=
  match cs with
  | '_' :: r =>
    match r with
    | c :: _ =>
      if isAlphaChar c then
        ('_' :: r.takeWhile (fun x => isAlnumChar x || x = '_'),
          r.dropWhile (fun x => isAlnumChar x || x = '_'))
      else if isDigitChar c then
        ('_' :: r.takeWhile isDigitChar, r.dropWhile isDigitChar)
      else (['_'], r)
    | [] => (['_'], [])
  | _ => ([], cs)

/-- The optional-sign-then-digits exponent tail shared by the number
scanners that do not raise an error on a missing exponent digit
(`scan_number_continuation` and `scan_decimal_or_logical`): consumes the
marker, an optional sign, and any digits. -/

def scanExpTailLax (cs : Str) : Str × Str :=
  match cs with
  | c :: r =>
    if isExpMarker c then
      let (signChars, r2) :=
        match r with
        | s :: r' => if s = '+' || s = '-' then ([s], r') else ([], r)
        | [] => ([], [])
      (c :: signChars ++ r2.takeWhile isDigitChar, r2.dropWhile isDigitChar)
    else ([], cs)
  | [] => ([], cs)

/-- `scan_number_continuation` (called after a consumed `+`/`-`):
digits, an unconditional point-and-digits part, a lax exponent, and a
kind suffix.  Returns the consumed characters and the rest. -/

def scanNumberContinuation (cs : Str) : Str × Str :=
  let d1 := cs.takeWhile isDigitChar
  let r1 := cs.dropWhile isDigitChar
  let (decChars, r2) :=
    match r1 with
    | '.' :: r => ('.' :: r.takeWhile isDigitChar, r.dropWhile isDigitChar)
    | _ => ([], r1)
  let (expChars, r3) := scanExpTailLax r2
  let (kindChars, r4) := scanKindSuffix r3
  (d1 ++ decChars ++ expChars ++ kindChars, r4)

/-- `scan_number` (entered on a leading digit `first`): digits, then a
decimal point only when followed by a digit or exponent marker, then an
exponent whose digits are mandatory (`Invalid exponent in number`
otherwise), then a kind suffix. -/

def scanNumber (first : Char) (cs : Str) : FResult (Tok × Str) :=
  let d1 := cs.takeWhile isDigitChar
  let r1 := cs.dropWhile isDigitChar
  let (hasDecimal, decChars, r2) :=
    match r1 with
    | '.' :: r =>
      match r with
      | c2 :: _ =>
        if isDigitChar c2 || isExpMarker c2 then
          (true, '.' :: r.takeWhile isDigitChar, r.dropWhile isDigitChar)
        else (false, [], r1)
      | [] => (false, [], r1)
    | _ => (false, [], r1)
  let expRes : FResult (Bool × Str × Str) :=
    match r2 with
    | c :: r =>
      if isExpMarker c then
        let (signChars, r3) :=
          match r with
          | s :: r' => if s = '+' || s = '-' then ([s], r') else ([], r)
          | [] => ([], [])
        match r3 with
        | d :: _ =>
          if isDigitChar d then
            .ok (true, c :: signChars ++ r3.takeWhile isDigitChar,
              r3.dropWhile isDigitChar)
          else .error (.invalidSyntax (lit "Invalid exponent in number") 0)
        | [] => .error (.invalidSyntax (lit "Invalid exponent in number") 0)
      else .ok (false, [], r2)
    | [] => .ok (false, [], r2)
  match expRes with
  | .error e => .error e
  | .ok (hasExponent, expChars, r4) =>
    let (kindChars, r5) := scanKindSuffix r4
    let hasKind := kindChars ≠ []
    let lexeme := first :: d1 ++ decChars ++ expChars ++ kindChars
    let ttype : TokType :=
      if hasDecimal || hasExponent || hasKind then .real else .integer
    .ok (⟨ttype, lexeme⟩, r5)

/-- `scan_plus_or_number` / `scan_minus_or_number` (they differ only in
the sign character and the fallback token type). -/

def scanSignOrNumber (signChar : Char) (fallback : TokType) (cs : Str) :
    FResult (Tok × Str) :=
  match cs with
  | c :: rest =>
    if isDigitChar c then
      let (tail, r) := scanNumberContinuation cs
      let lexeme := signChar :: tail
      .ok (⟨determineNumberType lexeme, lexeme⟩, r)
    else if c = '.' then
      match rest with
      | c2 :: _ =>
        if isDigitChar c2 then
          let (tail, r) := scanNumberContinuation rest
          .ok (⟨.real, signChar :: '.' :: tail⟩, r)
        else .ok (⟨fallback, [signChar]⟩, cs)
      | [] => .ok (⟨fallback, [signChar]⟩, cs)
    else if isAlphaChar c then
      .ok (⟨.identifier, signChar :: cs.takeWhile identContChar⟩,
        cs.dropWhile identContChar)
    else .ok (⟨fallback, [signChar]⟩, cs)
  | [] => .ok (⟨fallback, [signChar]⟩, [])

/-- The logical-literal keyword test of `scan_identifier`. -/

def isLogicalKeyword (low : Str) : Bool :=
  low = lit ".true." || low = lit ".t." || low = lit "true" || low = lit "t" ||
    low = lit ".false." || low = lit ".f." || low = lit "false" || low = lit "f"

/-- `scan_identifier` (entered on a leading letter or underscore
`first`). -/

def scanIdentifier (first : Char) (cs : Str) : Tok × Str :=
  let lexeme := first :: cs.takeWhile identContChar
  let rest := cs.dropWhile identContChar
  let ttype : TokType := if isLogicalKeyword (lowerStr lexeme) then .logical else .identifier
  (⟨ttype, lexeme⟩, rest)

/-- `scan_decimal_or_logical` (entered after a consumed `'.'`): a real
number when a digit follows, a logical literal or identifier when a
letter follows, and an `Invalid` token for a bare point. -/

def scanDecimalOrLogical (cs : Str) : Tok × Str :=
  match cs with
  | c :: _ =>
    if isDigitChar c then
      let ds := cs.takeWhile isDigitChar
      let r1 := cs.dropWhile isDigitChar
      let (expChars, r2) := scanExpTailLax r1
      (⟨.real, '.' :: ds ++ expChars⟩, r2)
    else if isAlphaChar c then
      let word := cs.takeWhile (fun x => isAlnumChar x || x = '_')
      let r1 := cs.dropWhile (fun x => isAlnumChar x || x = '_')
      let (dotChars, r2) :=
        match r1 with
        | '.' :: r => (['.'], r)
        | _ => ([], r1)
      let lexeme := '.' :: word ++ dotChars
      let low := lowerStr lexeme
      if startsWith (lit ".t") low || startsWith (lit ".f") low then
        (⟨.logical, lexeme⟩, r2)
      else (⟨.identifier, lexeme⟩, r2)
    else (⟨.invalid, ['.']⟩, cs)
  | [] => (⟨.invalid, ['.']⟩, [])

/-- The loop of `scan_string_single`/`scan_string_double` (entered
after the consumed opening quote `q`): consume until an unescaped
closing quote or the end of input, failing on a newline.  Returns the
consumed characters and the rest. -/

def scanStringLoop (q : Char) : Str → FResult (Str × Str)
  | [] => .ok ([], [])
  | c :: rest =>
    if c = '\x0a' then .error (.invalidSyntax (lit "Unterminated string literal") 0)
    else if c = q then
      match rest with
      | c2 :: rest2 =>
        if c2 = q then
          match scanStringLoop q rest2 with
          | .ok (l, r) => .ok (c :: c2 :: l, r)
          | .error e => .error e
        else .ok ([c], rest)
      | [] => .ok ([c], [])
    else
      match scanStringLoop q rest with
      | .ok (l, r) => .ok (c :: l, r)
      | .error e => .error e

/-- `scan_string_single` / `scan_string_double` (entered after the
consumed opening quote `q`): the token lexeme includes both quotes, or
runs to the end of input when unterminated. -/

def scanString (q : Char) (cs : Str) : FResult (Tok × Str) :=
  match scanStringLoop q cs with
  | .ok (l, r) => .ok (⟨.string, q :: l⟩, r)
  | .error e => .error e

/-- `scan_comment` (entered on a consumed comment introducer `first`):
runs to the end of the line. -/

def scanComment (first : Char) (cs : Str) : Tok × Str :=
  (⟨.comment, first :: cs.takeWhile (fun c => ¬ c = '\x0a')⟩,
    cs.dropWhile (fun c => ¬ c = '\x0a'))

/-- `Lexer::scan_token`: whitespace runs first, then end of input, then
the single-character dispatch of the source. -/

def scanToken (cs : Str) : FResult (Tok × Str) :=
  match cs with
  | [] => .ok (⟨.eof, []⟩, [])
  | c :: rest =>
    if isWsChar c then
      .ok (⟨.whitespace, cs.takeWhile isWsChar⟩, cs.dropWhile isWsChar)
    else if c = '&' then .ok (⟨.groupStart, [c]⟩, rest)
    else if c = '$' then .ok (⟨.groupStartAlt, [c]⟩, rest)
    else if c = '/' then .ok (⟨.groupEnd, [c]⟩, rest)
    else if c = '=' then .ok (⟨.assign, [c]⟩, rest)
    else if c = ',' then .ok (⟨.comma, [c]⟩, rest)
    else if c = '(' then .ok (⟨.leftParen, [c]⟩, rest)
    else if c = ')' then .ok (⟨.rightParen, [c]⟩, rest)
    else if c = ':' then .ok (⟨.colon, [c]⟩, rest)
    else if c = '%' then .ok (⟨.percent, [c]⟩, rest)
    else if c = '+' then scanSignOrNumber '+' .plus rest
    else if c = '-' then scanSignOrNumber '-' .minus rest
    else if c = '*' then .ok (⟨.star, [c]⟩, rest)
    else if c = sq then scanString sq rest
    else if c = dq then scanString dq rest
    else if c = '.' then .ok (scanDecimalOrLogical rest)
    else if isAlphaChar c || c = '_' then .ok (scanIdentifier c rest)
    else if isDigitChar c then scanNumber c rest
    else if commentTokens.contains c then .ok (scanComment c rest)
    else .ok (⟨.invalid, [c]⟩, rest)

/-! ## `scanner/scanner.rs` -/

/-- The scan loop shared by `Scanner::scan_all` and
`Scanner::scan_all_including_whitespace`: scan tokens until (and
including) the EOF token.  Fuelled; `scanAll_fuel` below shows fuel
`input length + 1` always suffices. -/

def scanAllAux : Nat → Str → FResult (List Tok)
  | 0, _ => .error .fuel
  | fuel + 1, cs =>
    match scanToken cs with
    | .error e => .error e
    | .ok (tok, rest) =>
      if tok.ttype = .eof then .ok [tok]
      else
        match scanAllAux fuel rest with
        | .ok toks => .ok (tok :: toks)
        | .error e => .error e

/-- `Scanner::scan_all_including_whitespace`. -/

def scanAllIncludingWhitespace (input : Str) : FResult (List Tok) :=
  scanAllAux (input.length + 1) input

/-- `Scanner::scan_all` (whitespace tokens filtered out, comments
kept). -/

def scanAll (input : Str) : FResult (List Tok) :=
  match scanAllIncludingWhitespace input with
  | .ok toks => .ok (toks.filter (fun t => ¬ t.ttype = .whitespace))
  | .error e => .error e

/-! ## `parser.rs` — structural parsing

The source drives a cursor (`current`) over a token vector, with
`advance` returning the *previous* token (and, at the end of input, not
moving and returning the token before the cursor).  The model carries
the pair of the previously returned token and the remaining suffix,
which reproduces that behaviour exactly. -/

/-- The cursor state of `StreamingParser` (previously consumed token
and remaining tokens). -/

structure PState where
  prev : Option Tok
  toks : List Tok

/-- `is_at_end`: cursor past the end or at an EOF token. -/

def PState.isAtEnd (st : PState) : Bool :=
  match st.toks with
  | [] => true
  | t :: _ => t.ttype = .eof

/-- `advance`: move past the current token unless at the end, then
return the token before the cursor. -/

def PState.advance (st : PState) : Option Tok × PState :=
  if st.isAtEnd then (st.prev, st)
  else
    match st.toks with
    | t :: rest => (some t, { prev := some t, toks := rest })
    | [] => (st.prev, st)

/-- `peek`. -/

def PState.peek (st : PState) : Option Tok :=
  if st.isAtEnd then none
  else st.toks.head?

/-- `parse_value`: consume one token and auto-detect its lexeme. -/

def parseValueTok (st : PState) : FResult (FValue × PState) :=
  match st.advance with
  | (some tok, st') =>
    match parseFortranValue tok.lexeme none with
    | .ok v => .ok (v, st')
    | .error e => .error e
  | (none, _) => .error .unexpectedEof

/-- `skip_array_indexing` (fuelled loop; consumes one token per
iteration, so any fuel above the remaining token count suffices). -/

def skipArrayIndexingAux : Nat → Int → PState → FResult PState
  | 0, _, _ => .error .fuel
  | fuel + 1, parenCount, st =>
    if st.isAtEnd then .ok st
    else
      match st.advance with
      | (some tok, st') =>
        match tok.ttype with
        | .leftParen => skipArrayIndexingAux fuel (parenCount + 1) st'
        | .rightParen =>
          if parenCount - 1 = 0 then .ok st'
          else skipArrayIndexingAux fuel (parenCount - 1) st'
        | _ => skipArrayIndexingAux fuel parenCount st'
      | (none, st') => .ok st'

/-- `parse_variable`: name, optional index span (skipped), `=`, then
one value token. -/

def parseVariable (fuel : Nat) (st : PState) : FResult (Str × FValue × PState) := do
  match st.advance with
  | (some tok, st1) =>
    if tok.ttype = .identifier then
      let varName := tok.lexeme
      let st2 ←
        match st1.peek with
        | some t =>
          if t.ttype = .leftParen then skipArrayIndexingAux fuel 0 st1
          else pure st1
        | none => pure st1
      match st2.advance with
      | (some t2, st3) =>
        if t2.ttype = .assign then
          match parseValueTok st3 with
          | .ok (v, st4) => .ok (varName, v, st4)
          | .error e => .error e
        else .error (.parse (lit "Expected '=' after variable name") 0 0)
      | (none, _) => .error .unexpectedEof
    else .error (.parse (lit "Expected variable name") 0 0)
  | (none, _) => .error .unexpectedEof

/-- The variable loop of `parse_group`. -/

def parseGroupLoop : Nat → PState → NamelistGroup → FResult (NamelistGroup × PState)
  | 0, _, _ => .error .fuel
  | fuel + 1, st, group =>
    if st.isAtEnd then .ok (group, st)
    else
      match st.peek with
      | some t =>
        match t.ttype with
        | .groupEnd => .ok (group, st.advance.2)
        | .identifier =>
          match parseVariable fuel st with
          | .ok (varName, value, st') =>
            parseGroupLoop fuel st' (group.insertValue varName value)
          | .error e => .error e
        | _ => parseGroupLoop fuel st.advance.2 group
      | none => .ok (group, st)

/-- `parse_group`: consume the group-start token, read the group name,
then the variable loop. -/

def parseGroup (fuel : Nat) (st : PState) : FResult (Str × NamelistGroup × PState) :=
  let (_, st1) := st.advance
  match st1.advance with
  | (some tok, st2) =>
    if tok.ttype = .identifier then
      match parseGroupLoop fuel st2 NamelistGroup.new with
      | .ok (group, st') => .ok (tok.lexeme, group, st')
      | .error e => .error e
    else .error (.parse (lit "Expected group name after &") 0 0)
  | (none, _) => .error .unexpectedEof

/-- The top-level loop of `StreamingParser::parse`. -/

def parseTopLoop : Nat → PState → Namelist → FResult Namelist
  | 0, _, _ => .error .fuel
  | fuel + 1, st, nml =>
    if st.isAtEnd then .ok nml
    else
      match st.peek with
      | some t =>
        if t.ttype = .groupStart || t.ttype = .groupStartAlt then
          match parseGroup fuel st with
          | .ok (groupName, group, st') =>
            parseTopLoop fuel st' (nml.insertGroupObject groupName group)
          | .error e => .error e
        else parseTopLoop fuel st.advance.2 nml
      | none => .ok nml

/-- `StreamingParser::new`: scan, then retain neither whitespace nor
comment tokens. -/

def streamingParserTokens (input : Str) : FResult (List Tok) :=
  match scanAll input with
  | .ok toks =>
    .ok (toks.filter (fun t => ¬ (t.ttype = .whitespace || t.ttype = .comment)))
  | .error e => .error e

/-- `StreamingParser::new` followed by `parse`.  Every loop iteration
consumes at least one token, so fuel `token count + 2` never runs
out. -/

def parseNamelist (input : Str) : FResult Namelist :=
  match streamingParserTokens input with
  | .ok toks => parseTopLoop (toks.length + 2) ⟨none, toks⟩ Namelist.new
  | .error e => .error e

/-! ## `parser.rs` — parse-and-patch mode

The output writer is modelled as an accumulating string; each model
function takes and returns the writer's contents. -/

/-- Join lexemes with single spaces (`.join(" ")`). -/

def joinSpace (parts : List Str) : Str :=
  match parts with
  | [] => []
  | p :: ps => p ++ ps.flatMap (fun x => ' ' :: x)

/-- `skip_value_tokens`: find the end of the original value's token
span — an unmatched top-level comma, or a group-end/identifier at
parenthesis depth zero that is followed (after whitespace) by `=` or
`(` — and return the remaining suffix from that point.  The returned
suffix starts at the index the source returns. -/

def skipValueTokens : Int → List Tok → List Tok
  | _, [] => []
  | parenDepth, t :: rest =>
    match t.ttype with
    | .leftParen => skipValueTokens (parenDepth + 1) rest
    | .rightParen => skipValueTokens (parenDepth - 1) rest
    | .comma =>
      if parenDepth = 0 then t :: rest else skipValueTokens parenDepth rest
    | .groupEnd =>
      if parenDepth = 0 then
        match rest.dropWhile (fun x => x.ttype = .whitespace) with
        | l :: _ =>
          if l.ttype = .assign || l.ttype = .leftParen then t :: rest
          else skipValueTokens parenDepth rest
        | [] => skipValueTokens parenDepth rest
      else skipValueTokens parenDepth rest
    | .identifier =>
      if parenDepth = 0 then
        match rest.dropWhile (fun x => x.ttype = .whitespace) with
        | l :: _ =>
          if l.ttype = .assign || l.ttype = .leftParen then t :: rest
          else skipValueTokens parenDepth rest
        | [] => skipValueTokens parenDepth rest
      else skipValueTokens parenDepth rest
    | _ => skipValueTokens parenDepth rest

/-- The collection loop of `parse_and_copy_value`: copy and collect
value tokens until the end of the span.  A top-level comma is written
but neither collected nor consumed (the source `break`s before
`idx += 1`, so the outer loop sees — and writes — the comma again). -/

def parseAndCopyValueLoop : Int → List Tok → Str → List Tok →
    List Tok × Str × List Tok
  | _, [], w, acc => (acc.reverse, w, [])
  | parenDepth, t :: rest, w, acc =>
    match t.ttype with
    | .leftParen =>
      parseAndCopyValueLoop (parenDepth + 1) rest (w ++ t.lexeme) (t :: acc)
    | .rightParen =>
      parseAndCopyValueLoop (parenDepth - 1) rest (w ++ t.lexeme) (t :: acc)
    | .comma =>
      if parenDepth = 0 then (acc.reverse, w ++ t.lexeme, t :: rest)
      else parseAndCopyValueLoop parenDepth rest (w ++ t.lexeme) (t :: acc)
    | .groupEnd =>
      if parenDepth = 0 then (acc.reverse, w, t :: rest)
      else parseAndCopyValueLoop parenDepth rest (w ++ t.lexeme) (t :: acc)
    | .identifier =>
      if parenDepth = 0 then
        match rest.dropWhile (fun x => x.ttype = .whitespace) with
        | l :: _ =>
          if l.ttype = .assign || l.ttype = .leftParen then (acc.reverse, w, t :: rest)
          else parseAndCopyValueLoop parenDepth rest (w ++ t.lexeme) (t :: acc)
        | [] => parseAndCopyValueLoop parenDepth rest (w ++ t.lexeme) (t :: acc)
      else parseAndCopyValueLoop parenDepth rest (w ++ t.lexeme) (t :: acc)
    | _ => parseAndCopyValueLoop parenDepth rest (w ++ t.lexeme) (t :: acc)

/-- `parse_and_copy_value`: copy the span and parse its non-whitespace,
non-comment lexemes (joined by single spaces) as one value; an empty
span yields `Null`. -/

def parseAndCopyValue (toks : List Tok) (w : Str) :
    FResult (FValue × List Tok × Str) :=
  let (valueToks, w', rest) := parseAndCopyValueLoop 0 toks w []
  if valueToks = [] then .ok (.null, rest, w')
  else
    let parts := (valueToks.filter
      (fun t => ¬ (t.ttype = .whitespace || t.ttype = .comment))).map (·.lexeme)
    match parseFortranValue (joinSpace parts) none with
    | .ok v => .ok (v, rest, w')
    | .error e => .error e

/-- The index-span copy loop of `parse_and_patch_variable` (depth is
updated before writing; the loop stops once the depth returns to
zero). -/

def ppCopyParens : Int → List Tok → Str → List Tok × Str
  | depth, toks, w =>
    if depth ≤ 0 then (toks, w)
    else
      match toks with
      | [] => ([], w)
      | t :: rest =>
        let depth' : Int :=
          match t.ttype with
          | .leftParen => depth + 1
          | .rightParen => depth - 1
          | _ => depth
        ppCopyParens depth' rest (w ++ t.lexeme)
  termination_by _ toks => toks.length

/-- `parse_and_patch_variable`: copy the name, any index span and the
assignment (with interleaved whitespace) verbatim; then write the patch
value's formatted text and skip the original span when the patch group
defines the variable, and otherwise copy the original value tokens. -/

def parseAndPatchVariable (toks : List Tok) (patchGroup : Option NamelistGroup)
    (w : Str) : FResult (Option (Str × FValue × List Tok) × Str) :=
  match toks with
  | t :: rest =>
    if t.ttype = .identifier then
      let varName := t.lexeme
      let w := w ++ varName
      let wsToks := rest.takeWhile (fun x => x.ttype = .whitespace)
      let w := w ++ (wsToks.map (·.lexeme)).flatten
      let rest := rest.dropWhile (fun x => x.ttype = .whitespace)
      let parenStep : List Tok × Str :=
        match rest with
        | p :: rest2 =>
          if p.ttype = .leftParen then ppCopyParens 1 rest2 (w ++ p.lexeme)
          else (p :: rest2, w)
        | [] => ([], w)
      let rest := parenStep.1
      let w := parenStep.2
      let wsToks2 := rest.takeWhile (fun x => x.ttype = .whitespace)
      let w := w ++ (wsToks2.map (·.lexeme)).flatten
      let rest := rest.dropWhile (fun x => x.ttype = .whitespace)
      match rest with
      | a :: rest3 =>
        if a.ttype = .assign then
          let w := w ++ a.lexeme
          let wsToks3 := rest3.takeWhile (fun x => x.ttype = .whitespace)
          let w := w ++ (wsToks3.map (·.lexeme)).flatten
          let rest4 := rest3.dropWhile (fun x => x.ttype = .whitespace)
          match patchGroup with
          | some pg =>
            match pg.get varName with
            | some patchVal =>
              let w := w ++ toFortranString patchVal false
              let rest5 := skipValueTokens 0 rest4
              .ok (some (varName, patchVal, rest5), w)
            | none =>
              match parseAndCopyValue rest4 w with
              | .ok (v, rest5, w') => .ok (some (varName, v, rest5), w')
              | .error e => .error e
          | none =>
            match parseAndCopyValue rest4 w with
            | .ok (v, rest5, w') => .ok (some (varName, v, rest5), w')
            | .error e => .error e
        else .error (.parse (lit "Expected '=' in variable assignment") 0 0)
      | [] => .error (.parse (lit "Expected '=' in variable assignment") 0 0)
    else .ok (none, w)
  | [] => .ok (none, w)

/-- Emit the patch variables of `patchGroup` that the original group
never assigned (the group-close step of `parse_and_patch_group`): a
newline and a fixed-indentation `    name = value` line each, in patch
order, and insert them into the result group.  The used-name check
compares the raw original names remembered by the loop. -/

def emitUnseenPatchVars (patchGroup : Option NamelistGroup) (used : List Str)
    (group : NamelistGroup) (w : Str) : NamelistGroup × Str :=
  match patchGroup with
  | some pg =>
    pg.variablesInOrder.foldl
      (fun (st : NamelistGroup × Str) (kv : Str × FValue) =>
        if used.contains kv.1 then st
        else
          (st.1.insertValue kv.1 kv.2,
            st.2 ++ '\x0a' :: lit "    " ++ kv.1 ++ lit " = " ++
              toFortranString kv.2 false))
      (group, w)
  | none => (group, w)

/-- The in-group loop of `parse_and_patch_group`. -/

def ppGroupLoop (patchGroup : Option NamelistGroup) :
    Nat → List Tok → NamelistGroup → List Str → Str →
    FResult (NamelistGroup × List Tok × Str)
  | 0, _, _, _, _ => .error .fuel
  | fuel + 1, toks, group, used, w =>
    match toks with
    | [] => .ok (group, [], w)
    | t :: rest =>
      match t.ttype with
      | .groupEnd =>
        let (group', w') := emitUnseenPatchVars patchGroup used group w
        .ok (group', rest, w' ++ t.lexeme)
      | .identifier =>
        let look := rest.dropWhile (fun x => x.ttype = .whitespace)
        let isAssignment : Bool :=
          match look with
          | l :: _ => l.ttype = .assign || l.ttype = .leftParen
          | [] => false
        if isAssignment then
          match parseAndPatchVariable (t :: rest) patchGroup w with
          | .ok (some (varName, value, rest'), w') =>
            ppGroupLoop patchGroup fuel rest' (group.insertValue varName value)
              (varName :: used) w'
          | .ok (none, w') => ppGroupLoop patchGroup fuel rest group used w'
          | .error e => .error e
        else ppGroupLoop patchGroup fuel rest group used (w ++ t.lexeme)
      | _ => ppGroupLoop patchGroup fuel rest group used (w ++ t.lexeme)

/-- `parse_and_patch_group`: copy the group-start token and name (with
interleaved whitespace), look the group up in the patch, then run the
in-group loop. -/

def parseAndPatchGroup (toks : List Tok) (patch : Namelist) (w : Str) :
    FResult (Str × NamelistGroup × List Tok × Str) :=
  match toks with
  | [] => .error .unexpectedEof
  | t :: rest =>
    let w := w ++ t.lexeme
    let wsToks := rest.takeWhile (fun x => x.ttype = .whitespace)
    let w := w ++ (wsToks.map (·.lexeme)).flatten
    let rest := rest.dropWhile (fun x => x.ttype = .whitespace)
    match rest with
    | nameTok :: rest2 =>
      if nameTok.ttype = .identifier then
        let groupName := nameTok.lexeme
        let w := w ++ groupName
        let patchGroup := patch.getGroup groupName
        match ppGroupLoop patchGroup (rest2.length + 2) rest2 NamelistGroup.new [] w with
        | .ok (group, rest', w') => .ok (groupName, group, rest', w')
        | .error e => .error e
      else .error (.parse (lit "Expected group name after &") 0 0)
    | [] => .error (.parse (lit "Expected group name after &") 0 0)

/-- The top-level token loop of `parse_and_patch`. -/

def ppTopLoop (patch : Namelist) :
    Nat → List Tok → Namelist → Str → FResult (Namelist × Str)
  | 0, _, _, _ => .error .fuel
  | fuel + 1, toks, nml, w =>
    match toks with
    | [] => .ok (nml, w)
    | t :: rest =>
      match t.ttype with
      | .groupStart | .groupStartAlt =>
        match parseAndPatchGroup (t :: rest) patch w with
        | .ok (groupName, group, rest', w') =>
          ppTopLoop patch fuel rest' (nml.insertGroupObject groupName group) w'
        | .error e => .error e
      | .eof => .ok (nml, w)
      | _ => ppTopLoop patch fuel rest nml (w ++ t.lexeme)

/-- The trailing step of `parse_and_patch`: append every patch group
absent from the original document, in canonical formatting. -/

def appendNewGroups (patch : Namelist) (nml : Namelist) (w : Str) : Namelist × Str :=
  patch.groupsInOrder.foldl
    (fun (st : Namelist × Str) (kv : Str × NamelistGroup) =>
      if st.1.hasGroup kv.1 then st
      else
        let varLines := kv.2.variablesInOrder.foldl
          (fun acc (vv : Str × FValue) =>
            acc ++ '\x0a' :: lit "    " ++ vv.1 ++ lit " = " ++
              toFortranString vv.2 false) ([] : Str)
        (st.1.insertGroupObject kv.1 kv.2,
          st.2 ++ '\x0a' :: '&' :: kv.1 ++ varLines ++ '\x0a' :: '/' :: ['\x0a']))
    (nml, w)

/-- `StreamingParser::parse_and_patch`: re-scan with whitespace
preserved, stream the tokens through the patching loop, then append the
patch-only groups.  Returns the written output and the resulting
document. -/

def parseAndPatch (input : Str) (patch : Namelist) : FResult (Str × Namelist) :=
  match scanAllIncludingWhitespace input with
  | .ok allToks =>
    match ppTopLoop patch (allToks.length + 2) allToks Namelist.new [] with
    | .ok (nml, w) =>
      let (nml', w') := appendNewGroups patch nml w
      .ok (w', nml')
    | .error e => .error e
  | .error e => .error e

/-! ## Auxiliary predicates used by the theorems -/

/-- Success test on a `Result`. -/

def isOkB {α : Type} : FResult α → Bool
  | .ok _ => true
  | .error _ => false

/-- The `i64`-range test that `as_integer` performs on a real argument
(and `can_convert_to` does not). -/

def FReal.inI64Range : FReal → Bool
  | .finite q => decide (i64MinF ≤ q && q ≤ i64MaxF)
  | _ => false

/-- MultiArray discriminator. -/

def FValue.isMultiArray : FValue → Bool
  | .multiArray _ _ _ => true
  | _ => false

/-- The well-formedness invariant tying an order vector to its map: no
duplicates, and the listed names are exactly the stored keys. -/

def OrderWf {α : Type} (ord : List Str) (m : List (Str × α)) : Prop :=
  ord.Nodup ∧ ∀ n, n ∈ ord ↔ alContains m n = true

/-- The operations on a group that the C9 claim ranges over. -/

inductive GOp where
  | ins (name : Str) (value : FValue)
  | insC (name : Str) (value : FValue) (comment : Str)
  | rem (name : Str)

/-- Apply one group operation. -/

def GOp.apply (g : NamelistGroup) : GOp → NamelistGroup
  | .ins n v => g.insertValue n v
  | .insC n v c => g.insertWithComment n v c
  | .rem n => (g.remove n).2

/-- Apply a sequence of group operations. -/

def applyGOps (g : NamelistGroup) (ops : List GOp) : NamelistGroup :=
  ops.foldl GOp.apply g

/-- The group instance of the order invariant. -/

def GroupWf (g : NamelistGroup) : Prop := OrderWf g.variable_order g.vars

/-- The operations on a namelist that the C9 claim ranges over. -/

inductive NOp where
  | insObj (name : Str) (group : NamelistGroup)
  | insEmpty (name : Str)
  | rem (name : Str)

/-- Apply one namelist operation. -/

def NOp.apply (nml : Namelist) : NOp → Namelist
  | .insObj n g => nml.insertGroupObject n g
  | .insEmpty n => nml.insertGroup n
  | .rem n => (nml.removeGroup n).2

/-- Apply a sequence of namelist operations. -/

def applyNOps (nml : Namelist) (ops : List NOp) : Namelist :=
  ops.foldl NOp.apply nml

/-- The namelist instance of the order invariant. -/

def NmlWf (nml : Namelist) : Prop := OrderWf nml.group_order nml.groups

/-- The C1 input document. -/

def c1Input : Str := lit "&data_nml  ! g\x0a    x = 1,  ! c\x0a    y = 2.0\x0a/"

/-- The C1 patch: `data_nml.x := Integer 42`. -/

def c1Patch : Namelist :=
  Namelist.new.insertGroupObject (lit "data_nml")
    (NamelistGroup.new.insertValue (lit "x") (.integer 42))

/-- The C1 expected rewritten output. -/

def c1Output : Str := lit "&data_nml  ! g\x0a    x = 42,  ! c\x0a    y = 2.0\x0a/"

/-- The C2 input document. -/

def c2Input : Str := lit "&data_nml x=1 y=2.0 /"

/-- The C2 patch: a new variable in `data_nml` and a wholly new group
`extra_nml`. -/

def c2Patch : Namelist :=
  (Namelist.new.insertGroupObject (lit "data_nml")
      (NamelistGroup.new.insertValue (lit "new_var") (.character (lit "hello")))).insertGroupObject
    (lit "extra_nml") (NamelistGroup.new.insertValue (lit "z") (.integer 1))

/-- The C2 expected rewritten output. -/

def c2Output : Str :=
  lit "&data_nml x=1 y=2.0 \x0a    new_var = " ++ sq :: lit "hello" ++ sq ::
    lit "/\x0a&extra_nml\x0a    z = 1\x0a/\x0a"

/-- A document whose only variable holds `Array [1, 2]`. -/

def c3ArrayDoc : Namelist :=
  Namelist.new.insertGroupObject (lit "g")
    (NamelistGroup.new.insertValue (lit "x") (.array [.integer 1, .integer 2]))

/-- Quote-doubling of `format_string` with the default single-quote style. -/

def escapeSq (s : Str) : Str := s.flatMap (fun c => if c = sq then [c, c] else [c])

/-- Identifier-start characters of the restricted document class
(lowercase letter or underscore). -/

def goodNameStart (c : Char) : Bool := ('a' ≤ c && c ≤ 'z') || c = '_'

/-- Identifier-continuation characters of the restricted document class. -/

def goodNameChar (c : Char) : Bool := ('a' ≤ c && c ≤ 'z') || isDigitChar c || c = '_'

/-- A plain lowercase identifier the lexer scans as one `Identifier`
token: nonempty, good start, good continuation, not a logical keyword. -/

def goodName (s : Str) : Bool :=
  match s with
  | [] => false
  | c :: rest => goodNameStart c && rest.all goodNameChar && !isLogicalKeyword s

/-- Values of the restricted document class: in-range integers,
logicals, and newline-free ASCII character strings. -/

def goodValue : FValue → Bool
  | .integer i => decide (i64Min ≤ i) && decide (i ≤ i64Max)
  | .logical _ => true
  | .character s => s.all (fun c => !(c = '\x0a') && decide (c.toNat < 128))
  | _ => false

/-- The characters the formatter prints for a restricted value. -/

def rtValueChars : FValue → Str
  | .integer i => intToStr i
  | .logical b => if b then lit ".true." else lit ".false."
  | .character s => sq :: (escapeSq s ++ [sq])
  | _ => []

/-- The token the lexer produces for a restricted value. -/

def rtValueTok : FValue → Tok
  | .integer i => ⟨.integer, intToStr i⟩
  | .logical b => ⟨.logical, if b then lit ".true." else lit ".false."⟩
  | .character s => ⟨.string, sq :: (escapeSq s ++ [sq])⟩
  | _ => ⟨.invalid, []⟩

/-- One formatted assignment line of the restricted class
(`"    name = value\n"`). -/

def rtLineChars (n : Str) (v : FValue) : Str :=
  lit "    " ++ n ++ lit " = " ++ rtValueChars v ++ ['\x0a']

/-- A formatted group body. -/

def rtLinesChars : List (Str × FValue) → Str
  | [] => []
  | (n, v) :: vs => rtLineChars n v ++ rtLinesChars vs

/-- The whitespace-included token stream of a group body, starting with
the newline after the group header and ending after the newline before
the closing slash. -/

def rtLinesToks : List (Str × FValue) → List Tok
  | [] => [⟨.whitespace, ['\x0a']⟩]
  | (n, v) :: vs =>
    ⟨.whitespace, '\x0a' :: lit "    "⟩ :: ⟨.identifier, n⟩ :: ⟨.whitespace, [' ']⟩ ::
      ⟨.assign, ['=']⟩ :: ⟨.whitespace, [' ']⟩ :: rtValueTok v :: rtLinesToks vs

/-- One formatted group block: `&name\n<body>/\n`. -/

def rtBlockChars (p : Str × List (Str × FValue)) : Str :=
  '&' :: (p.1 ++ '\x0a' :: (rtLinesChars p.2 ++ ['/', '\x0a']))

/-- Blocks after the first, each preceded by the separating blank line. -/

def rtSepChars : List (Str × List (Str × FValue)) → Str
  | [] => []
  | p :: rest => '\x0a' :: (rtBlockChars p ++ rtSepChars rest)

/-- The full document text of the restricted class. -/

def rtDocChars : List (Str × List (Str × FValue)) → Str
  | [] => []
  | p :: rest => rtBlockChars p ++ rtSepChars rest

/-- The whitespace-included token stream of the document. -/

def rtDocToks : List (Str × List (Str × FValue)) → List Tok
  | [] => [⟨.eof, []⟩]
  | (n, vars) :: rest =>
    ⟨.groupStart, ['&']⟩ :: ⟨.identifier, n⟩ :: (rtLinesToks vars ++ ⟨.groupEnd, ['/']⟩ ::
      (match rest with
       | [] => [⟨.whitespace, ['\x0a']⟩, ⟨.eof, []⟩]
       | _ :: _ => ⟨.whitespace, ['\x0a', '\x0a']⟩ :: rtDocToks rest))

/-- The token run after a closing slash: the trailing newline (merged
with the blank separator line when more groups follow) and the rest of
the document. -/

def rtSepToks : List (Str × List (Str × FValue)) → List Tok
  | [] => [⟨.whitespace, ['\x0a']⟩, ⟨.eof, []⟩]
  | p :: rest => ⟨.whitespace, ['\x0a', '\x0a']⟩ :: rtDocToks (p :: rest)

/-- The filtered token stream the structural parser consumes. -/

def rtVarToks : List (Str × FValue) → List Tok
  | [] => []
  | (n, v) :: vs => ⟨.identifier, n⟩ :: ⟨.assign, ['=']⟩ :: rtValueTok v :: rtVarToks vs

/-- The filtered document token stream. -/

def rtDocFToks : List (Str × List (Str × FValue)) → List Tok
  | [] => [⟨.eof, []⟩]
  | (n, vars) :: rest =>
    ⟨.groupStart, ['&']⟩ :: ⟨.identifier, n⟩ ::
      (rtVarToks vars ++ ⟨.groupEnd, ['/']⟩ :: rtDocFToks rest)

def LexOkF (cs : Str) (toks : List Tok) : Prop :=
  ∀ fuel, cs.length < fuel → scanAllAux fuel cs = .ok toks

/-- A good-document predicate on the extracted group list. -/

def rtGoodGroups (gs : List (Str × List (Str × FValue))) : Prop :=
  ∀ p ∈ gs, goodName p.1 = true ∧ ∀ q ∈ p.2, goodName q.1 = true ∧ goodValue q.2 = true

/-- Fuel needed by the top parse loop on the restricted stream. -/

def rtFuel : List (Str × List (Str × FValue)) → Nat
  | [] => 1
  | (_, vars) :: rest => vars.length + 2 + rtFuel rest

/-- The namelist built by the structural parser from the restricted
stream. -/

def rtBuild : List (Str × List (Str × FValue)) → Namelist → Namelist
  | [], nml => nml
  | p :: rest, nml =>
    rtBuild rest (nml.insertGroupObject p.1
      (p.2.foldl (fun g q => g.insertValue q.1 q.2) NamelistGroup.new))

/-- A restricted group (order aligned with keys, no metadata). -/

def rtGroup (vars : List (Str × FValue)) : NamelistGroup :=
  { vars := vars, variable_order := vars.map Prod.fst,
    start_indices := [], variable_comments := [] }

/-- Per-group goodness used by the formatter lemmas. -/

def rtFmtGood (gs : List (Str × List (Str × FValue))) : Prop :=
  ∀ p ∈ gs, (p.2.map Prod.fst).Nodup ∧ ∀ q ∈ p.2, goodValue q.2 = true

/-- The restricted-group predicate: order vector aligned with the
stored names, no duplicates, plain lowercase names, restricted values,
no start indices and no comments. -/

def goodGroupB (g : NamelistGroup) : Bool :=
  decide (g.variable_order = g.vars.map Prod.fst) &&
  decide ((g.vars.map Prod.fst).Nodup) &&
  g.vars.all (fun q => goodName q.1 && goodValue q.2) &&
  decide (g.start_indices = []) && decide (g.variable_comments = [])

/-- The restricted-document predicate. -/

def goodDocB (doc : Namelist) : Bool :=
  decide (doc.group_order = doc.groups.map Prod.fst) &&
  decide ((doc.groups.map Prod.fst).Nodup) &&
  doc.groups.all (fun p => goodName p.1 && goodGroupB p.2)

/-- A two-group concrete document of the restricted class (its string
value contains a space and an embedded quote). -/

def rtWitnessDoc : Namelist :=
  (Namelist.new.insertGroupObject (lit "alpha")
      (((NamelistGroup.new.insertValue (lit "a") (.integer (-3))).insertValue
          (lit "b") (.character (lit "it" ++ sq :: lit "s ok"))).insertValue
        (lit "c") (.logical true))).insertGroupObject (lit "beta_2")
    ((NamelistGroup.new.insertValue (lit "z9") (.integer 0)).insertValue
      (lit "flag") (.logical false))

end F90nml

namespace F90nml

/-! # Claim theorems -/

/-- **C7.**  Under the default two-value merge, an existing scalar
`Integer 5` merged with an incoming `Array [1, 2]` yields
`Array [5, 1, 2]` (the scalar becomes the head of a new array followed
by the incoming elements), and under the Append strategy an existing
`Array [1, 2]` merged with an incoming `Array [3]` yields
`Array [1, 2, 3]`. -/

theorem merge_scalar_into_array_and_append :
    mergeValues (.integer 5) (.array [.integer 1, .integer 2]) =
      .ok (.array [.integer 5, .integer 1, .integer 2]) ∧
    appendValues (.array [.integer 1, .integer 2]) (.array [.integer 3]) =
      .ok (.array [.integer 1, .integer 2, .integer 3]) ∧
    (∀ existing : FValue, existing.isArrayLike = false →
      ∀ newArr : List FValue,
        mergeValues existing (.array newArr) = .ok (.array (existing :: newArr))) ∧
    (∀ existingArr newArr : List FValue,
      appendValues (.array existingArr) (.array newArr) =
        .ok (.array (existingArr ++ newArr))) := by
  refine ⟨rfl, rfl, ?_, ?_⟩
  · intro existing hx newArr
    cases existing <;> simp_all [mergeValues, FValue.isArrayLike]
  · intro existingArr newArr
    rfl

/-- Closed instantiation of the general conjuncts of the C7 theorem. -/

theorem merge_scalar_into_array_and_append_witness :
    mergeValues (.logical true) (.array [.null]) =
      .ok (.array [.logical true, .null]) ∧
    appendValues (.array [.null]) (.array [.integer 9]) =
      .ok (.array [.null, .integer 9]) :=
  ⟨merge_scalar_into_array_and_append.2.2.1 (.logical true) rfl [.null],
    merge_scalar_into_array_and_append.2.2.2 [.null] [.integer 9]⟩

/-- **C5.**  The failing input for the derived-type merge claim: the
first arm of `merge_values` (whose guard only excludes `Array` and
`MultiArray` incoming values) captures incoming derived types, so the
merge returns the incoming value wholesale and the field-wise-union arm
is dead code.  The second conjunct records what that dead arm's union
would have produced on the same input. -/

theorem merge_derived_type_replaces_wholesale :
    mergeValues (.derivedType [(lit "a", .integer 1)])
        (.derivedType [(lit "b", .integer 2)]) =
      .ok (.derivedType [(lit "b", .integer 2)]) ∧
    unionFields [(lit "a", .integer 1)] [(lit "b", .integer 2)] =
      [(lit "a", .integer 1), (lit "b", .integer 2)] ∧
    (∀ ef nf : List (Str × FValue),
      mergeValues (.derivedType ef) (.derivedType nf) = .ok (.derivedType nf)) := by
  refine ⟨rfl, rfl, fun ef nf => rfl⟩

/-- **C6 (counterexample).**  `can_convert_to("integer")` accepts the
finite real `1e19` (zero fractional part), yet `as_integer` rejects it
for exceeding the `i64` range — so `can_convert_to` is not equivalent
to conversion success.  `MultiArray → array` fails in the opposite
direction. -/

theorem can_convert_to_not_iff_success :
    (FValue.real (.finite ((10 : ℚ) ^ 19))).canConvertTo (lit "integer") = true ∧
    (FValue.real (.finite ((10 : ℚ) ^ 19))).asInteger =
      .error (.typeConversion (lit "real") (lit "integer")) ∧
    (FValue.multiArray [.integer 1] [1] [1]).canConvertTo (lit "array") = false ∧
    (FValue.multiArray [.integer 1] [1] [1]).asArray = .ok [.integer 1] := by
  exact ⟨rfl, rfl, rfl, rfl⟩

/-- **C6 (amended).**  For every value, `can_convert_to` agrees with
conversion success on the targets `real`, `complex`, `logical` and
`character`; on `integer` it agrees except on real arguments, where it
checks only the zero-fractional-part and finiteness conditions while
`as_integer` additionally enforces the `i64` range; and on `array` it
agrees except on `MultiArray` arguments, where `as_array` succeeds but
`can_convert_to` answers `false`. -/

theorem can_convert_to_amended (v : FValue) :
    v.canConvertTo (lit "real") = isOkB v.asReal ∧
    v.canConvertTo (lit "complex") = isOkB v.asComplex ∧
    v.canConvertTo (lit "logical") = isOkB v.asLogical ∧
    v.canConvertTo (lit "character") = isOkB v.asCharacter ∧
    v.canConvertTo (lit "array") = (isOkB v.asArray && !v.isMultiArray) ∧
    (v.isMultiArray = true → isOkB v.asArray = true) ∧
    (∀ f, v = .real f →
      v.canConvertTo (lit "integer") = (f.fractZero && f.isFinite) ∧
      isOkB v.asInteger = (f.fractZero && f.isFinite && f.inI64Range)) ∧
    ((∀ f, v ≠ .real f) → v.canConvertTo (lit "integer") = isOkB v.asInteger) := by
  refine ⟨?_, ?_, ?_, ?_, ?_, ?_, ?_, ?_⟩
  · cases v <;> rfl
  · cases v <;> rfl
  · cases v <;> rfl
  · cases v <;> rfl
  · cases v <;> rfl
  · cases v <;> simp [FValue.isMultiArray, FValue.asArray, isOkB]
  · rintro f rfl
    refine ⟨rfl, ?_⟩
    cases f with
    | finite q =>
      simp only [FValue.asInteger, FReal.fractZero, FReal.isFinite, FReal.inI64Range]
      split
      · split
        · next h1 h2 => simp_all [isOkB]
        · next h1 h2 => simp_all [isOkB]
      · next h1 => simp_all [isOkB]
    | inf => rfl
    | negInf => rfl
    | nan => rfl
  · intro hne
    cases v with
    | real f => exact absurd rfl (hne f)
    | integer i => rfl
    | complex a b => rfl
    | logical b => rfl
    | character s => rfl
    | array xs => rfl
    | multiArray a b c => rfl
    | derivedType f => rfl
    | derivedTypeArray a => rfl
    | null => rfl

/-- Closed instantiation of the C6 amended theorem at a real argument
with zero fractional part. -/

theorem can_convert_to_amended_witness :
    (FValue.real (.finite 3)).canConvertTo (lit "integer") = true ∧
    isOkB (FValue.real (.finite 3)).asInteger = true ∧
    (FValue.integer 7).canConvertTo (lit "integer") = isOkB (FValue.integer 7).asInteger := by
  have h := can_convert_to_amended (.real (.finite 3))
  have h2 := can_convert_to_amended (.integer 7)
  refine ⟨?_, ?_, ?_⟩
  · exact ((h.2.2.2.2.2.2.1 (.finite 3) rfl).1).trans (by decide)
  · exact ((h.2.2.2.2.2.2.1 (.finite 3) rfl).2).trans (by decide)
  · exact h2.2.2.2.2.2.2.2 (fun f h => FValue.noConfusion h)

/-- **C8.**  The index iterator over the bounds `1..2` and `1..3`
yields exactly `[1,1], [2,1], [1,2], [2,2], [1,3], [2,3]` in that
order (and is exhausted afterwards: larger fuel collects the same
list); in general, whenever the first (leftmost) dimension still has
room, `advance` steps only that dimension and leaves every other
dimension's position unchanged. -/

theorem findex_column_major :
    FIndex.collect 10 (FIndex.new [IndexBound.range 1 2, IndexBound.range 1 3] none) =
      [[1, 1], [2, 1], [1, 2], [2, 2], [1, 3], [2, 3]] ∧
    FIndex.collect 100 (FIndex.new [IndexBound.range 1 2, IndexBound.range 1 3] none) =
      [[1, 1], [2, 1], [1, 2], [2, 2], [1, 3], [2, 3]] ∧
    (∀ (fi : FIndex) (c e s : Int) (cs es ss : List Int) (st : Int) (sts : List Int),
      fi.exhausted = false →
      fi.current = c :: cs → fi.step = st :: sts → fi.stop = e :: es →
      fi.start = s :: ss →
      ((st > 0 && c + st ≤ e) || (st < 0 && e ≤ c + st)) = true →
      fi.advance = (some (c :: cs), { fi with current := (c + st) :: cs })) := by
  refine ⟨rfl, rfl, ?_⟩
  intro fi c e s cs es ss st sts hex hc hst he hs hroom
  simp only [FIndex.advance, hex, Bool.false_eq_true, if_false, hc, hst, he, hs]
  simp [FIndex.advanceCarry, hroom]

/-- Closed instantiation of the general conjunct of the C8 theorem. -/

theorem findex_column_major_witness :
    (FIndex.new [IndexBound.range 1 2, IndexBound.range 1 3] none).advance =
      (some [1, 1],
        { FIndex.new [IndexBound.range 1 2, IndexBound.range 1 3] none with
            current := [2, 1] }) := by
  exact findex_column_major.2.2 _ 1 2 1 [1] [3] [1] 1 [1] rfl rfl rfl rfl rfl (by decide)

/-- **C4.**  `parse_fortran_value(text, None)` auto-detects by trying
the parsers in the exact order Logical, Complex, Real, Integer, with
Character as the default, and in particular maps `"t"` to
`Logical(true)`, `"1d-5"` to `Real(1e-5)`, `"42"` to `Integer(42)`,
`"(1.0,2.0)"` to `Complex(1.0, 2.0)` and the empty string to `Null`. -/

theorem parse_fortran_value_detection_order :
    parseFortranValue (lit "t") none = .ok (.logical true) ∧
    parseFortranValue (lit "1d-5") none = .ok (.real (.finite (mkRat 1 100000))) ∧
    parseFortranValue (lit "42") none = .ok (.integer 42) ∧
    parseFortranValue (lit "(1.0,2.0)") none = .ok (.complex (.finite 1) (.finite 2)) ∧
    parseFortranValue (lit "") none = .ok .null ∧
    (∀ s v, strTrim s ≠ [] → parseLogical (strTrim s) = .ok v →
      parseFortranValue s none = .ok v) ∧
    (∀ s v e1, strTrim s ≠ [] → parseLogical (strTrim s) = .error e1 →
      parseComplex (strTrim s) = .ok v → parseFortranValue s none = .ok v) ∧
    (∀ s v e1 e2, strTrim s ≠ [] → parseLogical (strTrim s) = .error e1 →
      parseComplex (strTrim s) = .error e2 → parseReal (strTrim s) = .ok v →
      parseFortranValue s none = .ok v) ∧
    (∀ s v e1 e2 e3, strTrim s ≠ [] → parseLogical (strTrim s) = .error e1 →
      parseComplex (strTrim s) = .error e2 → parseReal (strTrim s) = .error e3 →
      parseInteger (strTrim s) = .ok v → parseFortranValue s none = .ok v) ∧
    (∀ s e1 e2 e3 e4, strTrim s ≠ [] → parseLogical (strTrim s) = .error e1 →
      parseComplex (strTrim s) = .error e2 → parseReal (strTrim s) = .error e3 →
      parseInteger (strTrim s) = .error e4 →
      parseFortranValue s none = .ok (parseCharacter (strTrim s))) := by
  refine ⟨rfl, rfl, rfl, rfl, rfl, ?_, ?_, ?_, ?_, ?_⟩
  · intro s v ht hl
    simp [parseFortranValue, ht, hl]
  · intro s v e1 ht hl hc
    simp [parseFortranValue, ht, hl, hc]
  · intro s v e1 e2 ht hl hc hr
    simp [parseFortranValue, ht, hl, hc, hr]
  · intro s v e1 e2 e3 ht hl hc hr hi
    simp [parseFortranValue, ht, hl, hc, hr, hi]
  · intro s e1 e2 e3 e4 ht hl hc hr hi
    simp [parseFortranValue, ht, hl, hc, hr, hi]

/-- Closed instantiation of the order conjuncts of the C4 theorem: the
permissive logical prefix beats the character fallback, a parse that
only complex accepts resolves to complex, a kind-suffixed digit string
resolves to integer, and an unquoted word falls through to character. -/

theorem parse_fortran_value_detection_order_witness :
    parseFortranValue (lit ".tr") none = .ok (.logical true) ∧
    parseFortranValue (lit "(2.5, 3.5)") none = .ok (.complex (.finite (mkRat 5 2)) (.finite (mkRat 7 2))) ∧
    parseFortranValue (lit "7_k") none = .ok (.integer 7) ∧
    parseFortranValue (lit "abc") none = .ok (.character (lit "abc")) := by
  refine ⟨?_, ?_, ?_, ?_⟩
  · exact parse_fortran_value_detection_order.2.2.2.2.2.1 (lit ".tr") _ (by decide) rfl
  · exact parse_fortran_value_detection_order.2.2.2.2.2.2.1 (lit "(2.5, 3.5)") _ _
      (by decide) rfl rfl
  · exact parse_fortran_value_detection_order.2.2.2.2.2.2.2.2.1 (lit "7_k") _ _ _ _
      (by decide) rfl rfl rfl rfl
  · exact parse_fortran_value_detection_order.2.2.2.2.2.2.2.2.2 (lit "abc") _ _ _ _
      (by decide) rfl rfl rfl rfl

/-- **C10 (part).**  The string-scanning loop consumes exactly a prefix
of its input: the token text is the scanned characters themselves. -/

theorem scanStringLoop_append (q : Char) (cs l r : Str)
    (h : scanStringLoop q cs = .ok (l, r)) : cs = l ++ r := by
  induction cs using scanStringLoop.induct q generalizing l r with
  | case1 =>
    simp [scanStringLoop] at h
    obtain ⟨rfl, rfl⟩ := h
    rfl
  | case2 xs =>
    rw [scanStringLoop.eq_def] at h
    simp at h
  | case3 tail l2 r2 hrec hq ih =>
    rw [scanStringLoop.eq_def] at h
    simp [hq, hrec] at h
    obtain ⟨rfl, rfl⟩ := h
    simpa using ih l2 r2 hrec
  | case4 tail e hrec hq ih =>
    rw [scanStringLoop.eq_def] at h
    simp [hq, hrec] at h
  | case5 c tail hc hq =>
    rw [scanStringLoop.eq_def] at h
    simp [hq, hc] at h
    obtain ⟨rfl, rfl⟩ := h
    rfl
  | case6 hq =>
    rw [scanStringLoop.eq_def] at h
    simp [hq] at h
    obtain ⟨rfl, rfl⟩ := h
    rfl
  | case7 x xs hx hq l2 r2 hrec ih =>
    rw [scanStringLoop.eq_def] at h
    simp [hx, hq, hrec] at h
    obtain ⟨rfl, rfl⟩ := h
    simpa using ih l2 r2 hrec
  | case8 x xs hx hq e hrec ih =>
    rw [scanStringLoop.eq_def] at h
    simp [hx, hq, hrec] at h

/-- **C10 (part).**  On newline-free input the string-scanning loop
never fails. -/

theorem scanStringLoop_ok_of_no_newline (q : Char) (cs : Str)
    (h : ¬ '\x0a' ∈ cs) : ∃ l r, scanStringLoop q cs = .ok (l, r) := by
  induction cs using scanStringLoop.induct q with
  | case1 => exact ⟨[], [], rfl⟩
  | case2 xs => simp at h
  | case3 tail l r hrec hq ih =>
    exact ⟨q :: q :: l, r, by rw [scanStringLoop.eq_def]; simp [hq, hrec]⟩
  | case4 tail e hrec hq ih =>
    simp at h
    obtain ⟨l, r, hok⟩ := ih (by simp [h])
    rw [hok] at hrec
    exact absurd hrec (by simp)
  | case5 c tail hc hq =>
    exact ⟨[q], c :: tail, by rw [scanStringLoop.eq_def]; simp [hq, hc]⟩
  | case6 hq =>
    exact ⟨[q], [], by rw [scanStringLoop.eq_def]; simp [hq]⟩
  | case7 x xs hx hq l r hrec ih =>
    exact ⟨x :: l, r, by rw [scanStringLoop.eq_def]; simp [hx, hq, hrec]⟩
  | case8 x xs hx hq e hrec ih =>
    simp at h
    obtain ⟨l, r, hok⟩ := ih (by simp [h])
    rw [hok] at hrec
    exact absurd hrec (by simp)

/-- **C10 (part).**  A failure of the string-scanning loop means the
remaining input contains a newline. -/

theorem scanStringLoop_error_newline (q : Char) (cs : Str) (e : F90nmlError)
    (h : scanStringLoop q cs = .error e) : '\x0a' ∈ cs := by
  by_contra hmem
  obtain ⟨l, r, hok⟩ := scanStringLoop_ok_of_no_newline q cs hmem
  rw [hok] at h
  exact Except.noConfusion h

/-- **C10.**  When the lexer reaches the end of input inside a quoted
string literal without encountering a newline, `scan_token` returns a
`String` token whose lexeme holds the (possibly unterminated) text; the
unterminated-string error is raised only when a newline occurs inside
the literal before its closing quote.  Conjuncts: (1)–(2) no newline
after the opening quote means a `String` token is produced (single- and
double-quote variants); (3) the scanned span is a prefix of the input,
so an unterminated token contains the text up to the end of input; (4)
an error implies a newline in the scanned span; (5) a concrete
end-of-input-unterminated example yielding a `String` token carrying
the unterminated text; (6) a concrete newline-before-close example
raising the error. -/

theorem unterminated_string_only_on_newline :
    (∀ cs : Str, ¬ '\x0a' ∈ cs →
      ∃ tok r, scanToken (sq :: cs) = .ok (tok, r) ∧ tok.ttype = .string) ∧
    (∀ cs : Str, ¬ '\x0a' ∈ cs →
      ∃ tok r, scanToken (dq :: cs) = .ok (tok, r) ∧ tok.ttype = .string) ∧
    (∀ q cs l r, scanStringLoop q cs = .ok (l, r) → cs = l ++ r) ∧
    (∀ q cs e, scanStringLoop q cs = .error e → '\x0a' ∈ cs) ∧
    scanToken (sq :: lit "abc") =
      .ok (⟨.string, sq :: lit "abc"⟩, []) ∧
    scanToken (sq :: lit "ab" ++ '\x0a' :: lit "c" ++ [sq]) =
      .error (.invalidSyntax (lit "Unterminated string literal") 0) := by
  refine ⟨?_, ?_, scanStringLoop_append, scanStringLoop_error_newline, rfl, rfl⟩
  · intro cs hmem
    obtain ⟨l, r, hok⟩ := scanStringLoop_ok_of_no_newline sq cs hmem
    have hstep : scanToken (sq :: cs) = scanString sq cs := rfl
    exact ⟨⟨.string, sq :: l⟩, r, by rw [hstep, scanString, hok], rfl⟩
  · intro cs hmem
    obtain ⟨l, r, hok⟩ := scanStringLoop_ok_of_no_newline dq cs hmem
    have hstep : scanToken (dq :: cs) = scanString dq cs := rfl
    exact ⟨⟨.string, dq :: l⟩, r, by rw [hstep, scanString, hok], rfl⟩

/-- Closed instantiation of the C10 theorem: an unterminated
double-quoted literal at end of input still yields a `String` token. -/

theorem unterminated_string_only_on_newline_witness :
    ∃ tok r, scanToken (dq :: lit "xy") = .ok (tok, r) ∧ tok.ttype = .string :=
  unterminated_string_only_on_newline.2.1 (lit "xy") (by decide)

/-! ### Association-list lemmas for the order invariant (C9) -/

/-- Unfolding `alGet` one binding at a time. -/

theorem alGet_cons {α : Type} (a : Str × α) (m : List (Str × α)) (k : Str) :
    alGet (a :: m) k = if a.1 = k then some a.2 else alGet m k := by
  by_cases h : a.1 = k
  · simp [alGet, List.find?, h]
  · simp [alGet, List.find?, h]

/-- Unfolding `alContains` one binding at a time. -/

theorem alContains_cons {α : Type} (a : Str × α) (m : List (Str × α)) (k : Str) :
    alContains (a :: m) k = (decide (a.1 = k) || alContains m k) := by
  simp [alContains]

/-- The replace-in-place branch of `alInsert` does not change the key
set. -/

theorem alContains_map_replace {α : Type} (m : List (Str × α)) (k k' : Str) (v : α) :
    alContains (m.map (fun p => if p.1 = k then (p.1, v) else p)) k' = alContains m k' := by
  induction m with
  | nil => rfl
  | cons a m ih =>
    simp only [List.map_cons]
    rw [alContains_cons, alContains_cons, ih]
    by_cases ha : a.1 = k <;> simp [ha]

/-- Looking up the key just inserted finds the new value. -/

theorem alGet_insert_self {α : Type} (m : List (Str × α)) (k : Str) (v : α) :
    alGet (alInsert m k v) k = some v := by
  unfold alInsert
  by_cases h : alContains m k = true
  · rw [if_pos h]
    induction m with
    | nil => simp [alContains] at h
    | cons a m ih =>
      rw [alContains_cons] at h
      by_cases ha : a.1 = k
      · simp only [List.map_cons, if_pos ha]
        rw [alGet_cons]
        simp [ha]
      · have h2 : alContains m k = true := by simpa [ha] using h
        simp only [List.map_cons, if_neg ha]
        rw [alGet_cons]
        simp only [ha, if_false]
        exact ih h2
  · rw [if_neg h]
    induction m with
    | nil => simp [alGet, List.find?]
    | cons a m ih =>
      rw [alContains_cons] at h
      have ha : ¬ a.1 = k := by
        intro hh; exact h (by simp [hh])
      have h2 : ¬ alContains m k = true := by
        intro hh; exact h (by simp [hh])
      rw [List.cons_append, alGet_cons, if_neg ha]
      exact ih h2

/-- Key membership after an insert: the old keys plus the inserted
one. -/

theorem alContains_insert_iff {α : Type} (m : List (Str × α)) (k k' : Str) (v : α) :
    alContains (alInsert m k v) k' = true ↔ (alContains m k' = true ∨ k' = k) := by
  unfold alInsert
  by_cases h : alContains m k = true
  · rw [if_pos h, alContains_map_replace]
    constructor
    · exact Or.inl
    · rintro (hh | rfl)
      · exact hh
      · exact h
  · rw [if_neg h]
    simp only [alContains, List.any_eq_true, decide_eq_true_eq, List.mem_append,
      List.mem_singleton]
    constructor
    · rintro ⟨p, hp | hp, hk⟩
      · exact Or.inl ⟨p, hp, hk⟩
      · subst hp
        exact Or.inr hk.symm
    · rintro (⟨p, hp, hk⟩ | rfl)
      · exact ⟨p, Or.inl hp, hk⟩
      · exact ⟨(k', v), Or.inr rfl, rfl⟩

/-- Key membership after a removal. -/

theorem alContains_remove_iff {α : Type} (m : List (Str × α)) (k k' : Str) :
    alContains (alRemove m k) k' = true ↔ (alContains m k' = true ∧ ¬ k' = k) := by
  simp only [alContains, alRemove, List.any_eq_true, List.mem_filter,
    decide_eq_true_eq]
  constructor
  · rintro ⟨p, ⟨hp, hnk⟩, hk2⟩
    refine ⟨⟨p, hp, hk2⟩, ?_⟩
    intro hh
    exact hnk (by rw [hk2, hh])
  · rintro ⟨⟨p, hp, hk2⟩, hne⟩
    refine ⟨p, ⟨hp, ?_⟩, hk2⟩
    intro hh
    exact hne (by rw [← hk2, hh])

/-- Insertion preserves the order invariant (this is the shape of both
`NamelistGroup::insert_value` and `Namelist::insert_group_object`). -/

theorem OrderWf.insert {α : Type} {ord : List Str} {m : List (Str × α)}
    (h : OrderWf ord m) (k : Str) (v : α) :
    OrderWf (if alContains m k then ord else ord ++ [k]) (alInsert m k v) := by
  obtain ⟨hnd, hmem⟩ := h
  by_cases hc : alContains m k = true
  · refine ⟨by simpa [hc] using hnd, fun n => ?_⟩
    rw [if_pos hc, hmem n, alContains_insert_iff]
    constructor
    · exact Or.inl
    · rintro (hh | rfl)
      · exact hh
      · exact hc
  · rw [if_neg hc]
    refine ⟨?_, fun n => ?_⟩
    · refine List.Nodup.append hnd (by simp) ?_
      intro a ha hb
      simp only [List.mem_singleton] at hb
      subst hb
      exact hc ((hmem a).1 ha)
    · rw [alContains_insert_iff]
      simp only [List.mem_append, List.mem_singleton, hmem n]

/-- Removal preserves the order invariant (the shape of
`NamelistGroup::remove` and `Namelist::remove_group`). -/

theorem OrderWf.remove {α : Type} {ord : List Str} {m : List (Str × α)}
    (h : OrderWf ord m) (k : Str) :
    OrderWf (ord.filter (fun x => ¬ x = k)) (alRemove m k) := by
  obtain ⟨hnd, hmem⟩ := h
  refine ⟨hnd.filter _, fun n => ?_⟩
  rw [alContains_remove_iff]
  simp only [List.mem_filter, decide_eq_true_eq, hmem n]

/-- Each single group operation preserves the invariant. -/

theorem GroupWf.apply_gop {g : NamelistGroup} (h : GroupWf g) (op : GOp) :
    GroupWf (GOp.apply g op) := by
  cases op with
  | ins n v =>
    simpa [GOp.apply, NamelistGroup.insertValue, GroupWf] using
      OrderWf.insert h (lowerStr n) v
  | insC n v c =>
    simpa [GOp.apply, NamelistGroup.insertWithComment, GroupWf] using
      OrderWf.insert h (lowerStr n) v
  | rem n =>
    simp only [GOp.apply, NamelistGroup.remove]
    match hx : alGet g.vars (lowerStr n) with
    | some v =>
      simpa [GroupWf] using OrderWf.remove h (lowerStr n)
    | none => exact h

/-- Each single namelist operation preserves the invariant. -/

theorem NmlWf.apply_nop {nml : Namelist} (h : NmlWf nml) (op : NOp) :
    NmlWf (NOp.apply nml op) := by
  cases op with
  | insObj n g =>
    simpa [NOp.apply, Namelist.insertGroupObject, NmlWf] using
      OrderWf.insert h (lowerStr n) g
  | insEmpty n =>
    simp only [NOp.apply, Namelist.insertGroup]
    by_cases hc : alContains nml.groups (lowerStr n) = true
    · simpa [hc] using h
    · have hins := OrderWf.insert h (lowerStr n) NamelistGroup.new
      rw [if_neg hc] at hins
      simpa [NmlWf, hc] using hins
  | rem n =>
    simp only [NOp.apply, Namelist.removeGroup]
    match hx : alGet nml.groups (lowerStr n) with
    | some g =>
      simpa [NmlWf] using OrderWf.remove h (lowerStr n)
    | none => exact h

/-- **C9.**  Inserting under a name whose case-folded form is stored
updates the value without adding an order entry; inserting a fresh name
appends exactly one order entry; and across every sequence of insert
and remove operations (for groups and for namelists alike) the order
vector lists each stored name exactly once. -/

theorem insert_idempotent_order_invariant :
    (∀ (g : NamelistGroup) (n : Str) (v : FValue), g.hasVariable n = true →
      (g.insertValue n v).variable_order = g.variable_order) ∧
    (∀ (g : NamelistGroup) (n : Str) (v : FValue),
      (g.insertValue n v).get n = some v) ∧
    (∀ (g : NamelistGroup) (n : Str) (v : FValue), g.hasVariable n = false →
      (g.insertValue n v).variable_order = g.variable_order ++ [lowerStr n]) ∧
    (∀ (g : NamelistGroup), GroupWf g → ∀ ops : List GOp, GroupWf (applyGOps g ops)) ∧
    (∀ (g : NamelistGroup), GroupWf g → ∀ n,
      g.variable_order.countP (fun x => decide (x = n)) =
        if alContains g.vars n then 1 else 0) ∧
    GroupWf NamelistGroup.new ∧
    (∀ (nml : Namelist) (n : Str) (grp : NamelistGroup), nml.hasGroup n = true →
      (nml.insertGroupObject n grp).group_order = nml.group_order) ∧
    (∀ (nml : Namelist) (n : Str) (grp : NamelistGroup),
      (nml.insertGroupObject n grp).getGroup n = some grp) ∧
    (∀ (nml : Namelist) (n : Str) (grp : NamelistGroup), nml.hasGroup n = false →
      (nml.insertGroupObject n grp).group_order = nml.group_order ++ [lowerStr n]) ∧
    (∀ (nml : Namelist), NmlWf nml → ∀ ops : List NOp, NmlWf (applyNOps nml ops)) ∧
    NmlWf Namelist.new := by
  refine ⟨?_, ?_, ?_, ?_, ?_, ?_, ?_, ?_, ?_, ?_, ?_⟩
  · intro g n v h
    simp only [NamelistGroup.insertValue, NamelistGroup.hasVariable] at h ⊢
    simp [h]
  · intro g n v
    simp [NamelistGroup.insertValue, NamelistGroup.get, alGet_insert_self]
  · intro g n v h
    simp only [NamelistGroup.insertValue, NamelistGroup.hasVariable] at h ⊢
    simp [h]
  · intro g hg ops
    induction ops generalizing g with
    | nil => exact hg
    | cons op ops ih => exact ih _ (hg.apply_gop op)
  · intro g hg n
    obtain ⟨hnd, hmem⟩ := hg
    have key : ∀ (l : List Str), l.Nodup →
        l.countP (fun x => decide (x = n)) = if n ∈ l then 1 else 0 := by
      intro l hl
      induction l with
      | nil => simp
      | cons a l ih =>
        rw [List.countP_cons]
        obtain ⟨hna, hnd2⟩ := List.nodup_cons.1 hl
        rw [ih hnd2]
        by_cases h : a = n
        · subst h
          simp [fun hh => hna hh]
        · by_cases h2 : n ∈ l
          · simp [h, h2]
          · simp [h, h2]
            exact (if_neg (fun hh : n = a => h hh.symm)).symm
    rw [key g.variable_order hnd]
    by_cases hc : alContains g.vars n = true
    · rw [if_pos hc, if_pos ((hmem n).2 hc)]
    · rw [if_neg hc, if_neg (fun hmm => hc ((hmem n).1 hmm))]
  · exact ⟨List.nodup_nil, by simp [NamelistGroup.new, alContains]⟩
  · intro nml n grp h
    simp only [Namelist.insertGroupObject, Namelist.hasGroup] at h ⊢
    simp [h]
  · intro nml n grp
    simp [Namelist.insertGroupObject, Namelist.getGroup, alGet_insert_self]
  · intro nml n grp h
    simp only [Namelist.insertGroupObject, Namelist.hasGroup] at h ⊢
    simp [h]
  · intro nml h ops
    induction ops generalizing nml with
    | nil => exact h
    | cons op ops ih => exact ih _ (h.apply_nop op)
  · exact ⟨List.nodup_nil, by simp [Namelist.new, alContains]⟩

/-! ### Concrete inputs for the streaming-patch claims (C1, C2) -/

/-- `skip_value_tokens` never copies anything: it returns a suffix of
its input, i.e. it only advances the cursor. -/

theorem skipValueTokens_suffix :
    ∀ (d : Int) (toks : List Tok), skipValueTokens d toks <:+ toks := by
  intro d toks
  induction d, toks using skipValueTokens.induct
  all_goals rw [skipValueTokens.eq_def]
  all_goals simp only [*]
  all_goals try (simp; done)
  all_goals exact List.IsSuffix.trans (by assumption) (List.suffix_cons _ _)

/-- **C1.**  Patching `x = 42` into the commented document rewrites the
value in place and copies everything else byte for byte: the output is
exactly the input with `1` replaced by `42`; in particular both comment
texts survive, the replacement value appears where the original value's
token span was, `y`'s value `2.0` survives, and the `y` line keeps its
original indentation.  The final two conjuncts state the general
mechanism: when the patch group defines the variable at an assignment,
the patch value's canonically formatted text is written after the
copied name/`=` prefix and the cursor jumps over the original value's
token span; and the span skip only ever advances the cursor (returns a
suffix), copying nothing. -/

theorem parse_and_patch_preserves_formatting :
    (∃ result : Namelist, parseAndPatch c1Input c1Patch = .ok (c1Output, result)) ∧
    (lit "! g") <:+: c1Output ∧
    (lit "! c") <:+: c1Output ∧
    (lit "x = 42,") <:+: c1Output ∧
    ¬ (lit "x = 1") <:+: c1Output ∧
    (lit "\x0a    y = 2.0\x0a") <:+: c1Output ∧
    (∀ (nameTok aTok : Tok) (rest : List Tok) (pg : NamelistGroup)
        (w : Str) (pv : FValue), nameTok.ttype = .identifier →
      aTok.ttype = .assign → pg.get nameTok.lexeme = some pv →
      parseAndPatchVariable (nameTok :: aTok :: rest) (some pg) w =
        .ok (some (nameTok.lexeme, pv,
            skipValueTokens 0 (rest.dropWhile (fun x => x.ttype = .whitespace))),
          w ++ nameTok.lexeme ++ aTok.lexeme ++
            ((rest.takeWhile (fun x => x.ttype = .whitespace)).map (·.lexeme)).flatten ++
            toFortranString pv false)) ∧
    (∀ (d : Int) (toks : List Tok), skipValueTokens d toks <:+ toks) := by
  refine ⟨⟨_, rfl⟩, by decide, by decide, by decide, by decide, by decide, ?_,
    skipValueTokens_suffix⟩
  intro nameTok aTok rest pg w pv hn ha hp
  simp [parseAndPatchVariable, hn, ha, hp]

/-- Closed instantiation of the general conjuncts of the C1 theorem. -/

theorem parse_and_patch_preserves_formatting_witness :
    parseAndPatchVariable
        [⟨.identifier, lit "x"⟩, ⟨.assign, lit "="⟩, ⟨.integer, lit "1"⟩]
        (some (NamelistGroup.new.insertValue (lit "x") (.integer 42))) [] =
      .ok (some (lit "x", .integer 42, skipValueTokens 0 [⟨.integer, lit "1"⟩]),
        lit "x" ++ lit "=" ++ [] ++ lit "42") ∧
    skipValueTokens 0 [Tok.mk .integer (lit "1")] <:+ [Tok.mk .integer (lit "1")] := by
  constructor
  · exact parse_and_patch_preserves_formatting.2.2.2.2.2.2.1
      ⟨.identifier, lit "x"⟩ ⟨.assign, lit "="⟩ [⟨.integer, lit "1"⟩]
      (NamelistGroup.new.insertValue (lit "x") (.integer 42)) [] (.integer 42)
      rfl rfl rfl
  · exact parse_and_patch_preserves_formatting.2.2.2.2.2.2.2 0 [⟨.integer, lit "1"⟩]

/-- **C2.**  Patching a document with an unseen variable and an unseen
group emits the variable as a freshly formatted assignment inside
`data_nml` before its closing `/`, and appends a trailing `&extra_nml`
block containing `z = 1` terminated by `/` after the whole original
document.  The second conjunct exhibits the output's structure: the
new-variable line precedes the group's `/`, and the new group follows
it. -/

theorem parse_and_patch_appends_unseen :
    (∃ result : Namelist, parseAndPatch c2Input c2Patch = .ok (c2Output, result)) ∧
    c2Output =
      (lit "&data_nml x=1 y=2.0 \x0a    new_var = " ++ sq :: lit "hello" ++ [sq]) ++
        lit "/" ++ lit "\x0a&extra_nml\x0a    z = 1\x0a/\x0a" ∧
    (lit "new_var = " ++ sq :: lit "hello" ++ [sq]) <:+: c2Output ∧
    (lit "&extra_nml\x0a    z = 1\x0a/\x0a") <:+: c2Output := by
  refine ⟨⟨_, rfl⟩, by decide, ?_, ?_⟩ <;> decide

/-! ### C3: the round-trip claim

The claim is settled in two parts.  The counterexample below shows that
`parse(format(doc))` loses information already on an array value with a
perfectly determinate rendering (`x(1:2) = 1, 2`): the structural parser
reads a single token as the value, so `x` comes back as `Integer 1`.
The amended theorem (developed afterwards) proves an exact round trip
for documents whose values are scalar integers, logicals and
newline-free ASCII character strings and whose names are plain
lowercase identifiers. -/

/-- **C3 (counterexample).**  Formatting `c3ArrayDoc` yields
`&g\n    x(1:2) = 1, 2\n/\n`, and parsing that text back yields a
document in which `x` is `Integer 1` — not the original array — so the
round trip fails on a document whose value has a fully determinate
formatting. -/

theorem roundtrip_fails_on_array :
    c3ArrayDoc.toFortranString WriteOptions.default =
      .ok (lit "&g\x0a    x(1:2) = 1, 2\x0a/\x0a") ∧
    (∃ doc1, parseNamelist (lit "&g\x0a    x(1:2) = 1, 2\x0a/\x0a") = .ok doc1 ∧
      (doc1.getGroup (lit "g")).map (fun g => g.get (lit "x")) =
        some (some (.integer 1))) ∧
    (c3ArrayDoc.getGroup (lit "g")).map (fun g => g.get (lit "x")) =
      some (some (.array [.integer 1, .integer 2])) ∧
    FValue.integer 1 ≠ FValue.array [.integer 1, .integer 2] := by
  refine ⟨rfl, ⟨_, rfl, rfl⟩, rfl, fun h => FValue.noConfusion h⟩

/-- Closed instantiation of the C9 theorem: a re-insert under different
case keeps a single order entry, a fresh insert appends one, and short
insert/remove sequences keep the invariant. -/

theorem insert_idempotent_order_invariant_witness :
    ((NamelistGroup.new.insertValue (lit "X") (.integer 1)).insertValue (lit "x")
        (.integer 2)).variable_order = [lit "x"] ∧
    GroupWf (applyGOps NamelistGroup.new
      [.ins (lit "a") (.integer 1), .ins (lit "A") (.integer 2), .rem (lit "a"),
        .insC (lit "b") (.null) (lit "note")]) ∧
    NmlWf (applyNOps Namelist.new
      [.insObj (lit "G") NamelistGroup.new, .insEmpty (lit "g"), .rem (lit "g")]) := by
  refine ⟨?_, ?_, ?_⟩
  · have h := insert_idempotent_order_invariant.1
      (NamelistGroup.new.insertValue (lit "X") (.integer 1)) (lit "x") (.integer 2)
      (by decide)
    rw [h]
    decide
  · exact insert_idempotent_order_invariant.2.2.2.1 NamelistGroup.new
      insert_idempotent_order_invariant.2.2.2.2.2.1 _
  · exact insert_idempotent_order_invariant.2.2.2.2.2.2.2.2.2.1 Namelist.new
      insert_idempotent_order_invariant.2.2.2.2.2.2.2.2.2.2 _

/-! ## C3: the amended round trip, developed from the lexer up -/

/-! ### C3 amended round trip: spec-side definitions -/

/-! ### Decimal round trip -/

theorem natToStrAux_fuelIrrel (fuel fuel' n : Nat) (h : n < fuel) (h' : n < fuel') :
    natToStrAux fuel n = natToStrAux fuel' n := by
  induction fuel generalizing fuel' n with
  | zero => omega
  | succ f ih =>
    match fuel', h' with
    | f' + 1, _ =>
      show natToStrAux (f + 1) n = natToStrAux (f' + 1) n
      rw [natToStrAux, natToStrAux]
      by_cases hn : n < 10
      · simp [hn]
      · simp only [hn, if_false]
        have hd : n / 10 < n := Nat.div_lt_self (by omega) (by omega)
        rw [ih f' (n / 10) (by omega) (by omega)]

theorem natToStr_ne_nil (n : Nat) : natToStr n ≠ [] := by
  rw [natToStr, natToStrAux]
  by_cases hn : n < 10 <;> simp [hn]

theorem digitChar_is_digit (n : Nat) (h : n < 10) : isDigitChar (digitChar n) = true := by
  interval_cases n <;> decide

theorem natToStr_all_digits (n : Nat) : ∀ c ∈ natToStr n, isDigitChar c = true := by
  induction n using Nat.strong_induction_on with
  | _ n ih =>
    rw [natToStr, natToStrAux]
    by_cases hn : n < 10
    · simp only [hn, if_true]
      intro c hc
      simp at hc
      subst hc
      exact digitChar_is_digit n hn
    · simp only [hn, if_false]
      intro c hc
      have hd : n / 10 < n := Nat.div_lt_self (by omega) (by omega)
      rw [natToStrAux_fuelIrrel n (n / 10 + 1) (n / 10) (by omega) (by omega)] at hc
      rw [List.mem_append] at hc
      rcases hc with hc | hc
      · exact ih (n / 10) hd c hc
      · simp at hc
        subst hc
        exact digitChar_is_digit _ (Nat.mod_lt _ (by omega))

theorem digitVal_digitChar (n : Nat) (h : n < 10) : digitVal (digitChar n) = n := by
  interval_cases n <;> decide

theorem digitsToNat_append (ds : Str) (d : Char) :
    digitsToNat (ds ++ [d]) = 10 * digitsToNat ds + digitVal d := by
  simp [digitsToNat, List.foldl_append]

theorem digitsToNat_natToStr (n : Nat) : digitsToNat (natToStr n) = n := by
  induction n using Nat.strong_induction_on with
  | _ n ih =>
    rw [natToStr, natToStrAux]
    by_cases hn : n < 10
    · simp only [hn, if_true]
      simp [digitsToNat, digitVal_digitChar n hn]
    · simp only [hn, if_false]
      have hd : n / 10 < n := Nat.div_lt_self (by omega) (by omega)
      rw [natToStrAux_fuelIrrel n (n / 10 + 1) (n / 10) (by omega) (by omega)]
      rw [digitsToNat_append]
      rw [show natToStrAux (n / 10 + 1) (n / 10) = natToStr (n / 10) from rfl]
      rw [ih (n / 10) hd, digitVal_digitChar _ (Nat.mod_lt _ (by omega))]
      omega

/-- No digit character is a sign. -/

theorem ne_of_pred (p : Char → Bool) (c d : Char) (h : p c = true) (hd : p d = false) :
    ¬ c = d := by
  intro hh
  rw [hh, hd] at h
  exact Bool.noConfusion h

/-- `str::parse::<i64>` on an all-digit, non-sign-headed string. -/

theorem rustParseI64_digits (s : Str) (hne : s ≠ [])
    (hd : ∀ c ∈ s, isDigitChar c = true) :
    rustParseI64 s =
      (if i64Min ≤ (digitsToNat s : Int) && (digitsToNat s : Int) ≤ i64Max then
        some (digitsToNat s : Int) else none) := by
  match s, hne with
  | c :: cs, _ =>
    have hcd : isDigitChar c = true := hd c (by simp)
    have hc1 : ¬ c = '+' := ne_of_pred isDigitChar c '+' hcd (by decide)
    have hc2 : ¬ c = '-' := ne_of_pred isDigitChar c '-' hcd (by decide)
    unfold rustParseI64
    split
    rename_i x neg r heq
    split at heq
    · rename_i s0 r0 hsc
      rw [List.cons.injEq] at hsc
      exact absurd hsc.1 hc1
    · rename_i s0 r0 hsc
      rw [List.cons.injEq] at hsc
      exact absurd hsc.1 hc2
    · rw [Prod.mk.injEq] at heq
      obtain ⟨rfl, rfl⟩ := heq
      rw [if_neg (by simp), if_pos (by rw [List.all_eq_true]; exact hd)]
      simp

theorem rustParseI64_intToStr (i : Int) (h1 : i64Min ≤ i) (h2 : i ≤ i64Max) :
    rustParseI64 (intToStr i) = some i := by
  rw [intToStr]
  by_cases hi : i < 0
  · simp only [hi, if_true]
    unfold rustParseI64
    split
    rename_i x neg r heq
    split at heq
    · rename_i s0 r0 hsc
      rw [List.cons.injEq] at hsc
      exact absurd hsc.1 (by decide)
    · rename_i s0 r0 hsc
      rw [List.cons.injEq] at hsc
      rw [Prod.mk.injEq] at heq
      obtain ⟨rfl, rfl⟩ := heq
      rw [← hsc.2]
      rw [if_neg (natToStr_ne_nil _)]
      rw [if_pos (by rw [List.all_eq_true]; intro c hc; exact natToStr_all_digits _ c hc)]
      rw [digitsToNat_natToStr]
      have hv : -(Int.natAbs i : Int) = i := by omega
      simp only [if_true]
      rw [hv]
      simp [h1, h2]
    · rename_i s0 hno1 hno2
      exact absurd rfl (hno2 (natToStr i.natAbs))
  · simp only [hi, if_false]
    rw [rustParseI64_digits _ (natToStr_ne_nil _) (natToStr_all_digits _)]
    rw [digitsToNat_natToStr]
    have hv : (Int.toNat i : Int) = i := by omega
    rw [hv]
    simp [h1, h2]

/-! ### Trim and lowercase fixed points -/

theorem dropWhile_eq_self_of_head {p : Char → Bool} {s : Str}
    (h : ∀ c, s.head? = some c → p c = false) : s.dropWhile p = s := by
  cases s with
  | nil => rfl
  | cons c cs =>
    rw [List.dropWhile_cons, h c rfl]
    simp

/-- `strTrim` fixes any string whose first and last characters are
non-whitespace. -/

theorem strTrim_of_ends {s : Str}
    (h1 : ∀ c, s.head? = some c → isWsChar c = false)
    (h2 : ∀ c, s.getLast? = some c → isWsChar c = false) : strTrim s = s := by
  rw [strTrim, dropWhile_eq_self_of_head h1, dropWhile_eq_self_of_head
    (by intro c hc; exact h2 c (by rwa [← List.head?_reverse])), List.reverse_reverse]

theorem strTrim_of_all {s : Str} (h : ∀ c ∈ s, isWsChar c = false) : strTrim s = s := by
  apply strTrim_of_ends
  · intro c hc
    exact h c (by cases s with | nil => simp at hc | cons a l => simp at hc; simp [hc])
  · intro c hc
    exact h c (List.mem_of_mem_getLast? hc)

theorem lowerChar_fix {c : Char} (h : ('A' ≤ c && c ≤ 'Z') = false) : lowerChar c = c := by
  rw [lowerChar, h]
  rfl

theorem goodNameChar_not_upper {c : Char} (h : goodNameChar c = true) :
    ('A' ≤ c && c ≤ 'Z') = false := by
  simp only [goodNameChar, Bool.or_eq_true, Bool.and_eq_true, decide_eq_true_eq] at h
  cases hb : ('A' ≤ c && c ≤ 'Z') with
  | false => rfl
  | true =>
    exfalso
    simp only [Bool.and_eq_true, decide_eq_true_eq] at hb
    rcases h with (⟨hlo, hhi⟩ | hdig) | hund
    · exact absurd (le_trans hlo hb.2) (by decide)
    · simp only [isDigitChar, Bool.and_eq_true, decide_eq_true_eq] at hdig
      exact absurd (le_trans hb.1 hdig.2) (by decide)
    · subst hund
      exact absurd hb.2 (by decide)

theorem lowerStr_goodName {s : Str} (h : goodName s = true) : lowerStr s = s := by
  match s with
  | c :: rest =>
    simp only [goodName, Bool.and_eq_true] at h
    rw [lowerStr, List.map_cons]
    congr 1
    · apply lowerChar_fix
      apply goodNameChar_not_upper
      simp only [goodNameStart, goodNameChar, Bool.or_eq_true] at h ⊢
      rcases h.1.1 with h1 | h1
      · exact Or.inl (Or.inl h1)
      · exact Or.inr h1
    · rw [show (rest.map lowerChar) = lowerStr rest from rfl]
      have : ∀ c ∈ rest, goodNameChar c = true := by
        rw [← List.all_eq_true]
        exact h.1.2
      clear h
      induction rest with
      | nil => rfl
      | cons a l ih =>
        rw [lowerStr, List.map_cons]
        congr 1
        · exact lowerChar_fix (goodNameChar_not_upper (this a (by simp)))
        · exact ih (fun c hc => this c (by simp [hc]))

/-! ### Character-class helpers -/

theorem isWs_false_of_digit {c : Char} (h : isDigitChar c = true) : isWsChar c = false := by
  cases hb : isWsChar c with
  | false => rfl
  | true =>
    exfalso
    simp only [isWsChar, Bool.or_eq_true, decide_eq_true_eq] at hb
    rcases hb with ((h1 | h1) | h1) | h1 <;> (subst h1; exact absurd h (by decide))

theorem takeWhile_eq_self_of_all {p : Char → Bool} {s : Str}
    (h : ∀ c ∈ s, p c = true) : s.takeWhile p = s := by
  induction s with
  | nil => rfl
  | cons c cs ih =>
    rw [List.takeWhile_cons, h c (by simp)]
    simp only [if_true]
    rw [ih (fun c hc => h c (by simp [hc]))]

theorem takeWhile_append_all {p : Char → Bool} {l r : Str}
    (hl : ∀ c ∈ l, p c = true) (hr : ∀ c, r.head? = some c → p c = false) :
    (l ++ r).takeWhile p = l := by
  induction l with
  | nil =>
    cases r with
    | nil => rfl
    | cons c cs =>
      simp only [List.nil_append, List.takeWhile_cons, hr c rfl]
      rfl
  | cons c cs ih =>
    rw [List.cons_append, List.takeWhile_cons, hl c (by simp)]
    simp only [if_true]
    rw [ih (fun x hx => hl x (by simp [hx]))]

theorem dropWhile_append_all {p : Char → Bool} {l r : Str}
    (hl : ∀ c ∈ l, p c = true) (hr : ∀ c, r.head? = some c → p c = false) :
    (l ++ r).dropWhile p = r := by
  induction l with
  | nil => exact dropWhile_eq_self_of_head hr
  | cons c cs ih =>
    rw [List.cons_append, List.dropWhile_cons, hl c (by simp)]
    simp only [if_true]
    exact ih (fun x hx => hl x (by simp [hx]))

/-! ### `intToStr` facts -/

theorem intToStr_ne_nil (i : Int) : intToStr i ≠ [] := by
  rw [intToStr]
  by_cases hi : i < 0
  · simp [hi]
  · simp only [hi, if_false]
    exact natToStr_ne_nil _

theorem intToStr_chars (i : Int) :
    ∀ c ∈ intToStr i, isDigitChar c = true ∨ c = '-' := by
  rw [intToStr]
  by_cases hi : i < 0
  · simp only [hi, if_true]
    intro c hc
    rcases List.mem_cons.mp hc with h | h
    · exact Or.inr h
    · exact Or.inl (natToStr_all_digits _ c h)
  · simp only [hi, if_false]
    intro c hc
    exact Or.inl (natToStr_all_digits _ c hc)

theorem intToStr_no_ws (i : Int) : ∀ c ∈ intToStr i, isWsChar c = false := by
  intro c hc
  rcases intToStr_chars i c hc with h | h
  · exact isWs_false_of_digit h
  · subst h; decide

theorem strTrim_intToStr (i : Int) : strTrim (intToStr i) = intToStr i :=
  strTrim_of_all (intToStr_no_ws i)

theorem trunc_intToStr (i : Int) : truncAtUnderscore (intToStr i) = intToStr i := by
  rw [truncAtUnderscore]
  apply takeWhile_eq_self_of_all
  intro c hc
  rcases intToStr_chars i c hc with h | h
  · simpa using ne_of_pred isDigitChar c '_' h (by decide)
  · subst h; decide

theorem lowerStr_intToStr (i : Int) : lowerStr (intToStr i) = intToStr i := by
  rw [lowerStr]
  have : ∀ c ∈ intToStr i, lowerChar c = c := by
    intro c hc
    apply lowerChar_fix
    rcases intToStr_chars i c hc with h | h
    · cases hb : ('A' ≤ c && c ≤ 'Z') with
      | false => rfl
      | true =>
        exfalso
        simp only [isDigitChar, Bool.and_eq_true, decide_eq_true_eq] at h hb
        exact absurd (le_trans hb.1 h.2) (by decide)
    · subst h; decide
  calc (intToStr i).map lowerChar = (intToStr i).map id := List.map_congr_left this
    _ = intToStr i := List.map_id _

theorem looksLikeInteger_intToStr (i : Int) : looksLikeInteger (intToStr i) = true := by
  rw [looksLikeInteger, strTrim_intToStr, trunc_intToStr]
  rw [intToStr]
  by_cases hi : i < 0
  · simp only [hi, if_true]
    rw [if_pos (by decide)]
    rw [List.all_eq_true]
    intro c hc
    exact natToStr_all_digits _ c hc
  · simp only [hi, if_false]
    cases hh : natToStr i.toNat with
    | nil => exact absurd hh (natToStr_ne_nil _)
    | cons c cs =>
      have hcd : isDigitChar c = true := natToStr_all_digits _ c (by rw [hh]; simp)
      have hc1 : ¬ c = '+' := ne_of_pred isDigitChar c '+' hcd (by decide)
      have hc2 : ¬ c = '-' := ne_of_pred isDigitChar c '-' hcd (by decide)
      simp only [hc1, hc2, decide_False, Bool.or_self, Bool.false_eq_true, if_false,
        hcd, if_true]
      rw [List.all_eq_true]
      intro x hx
      exact natToStr_all_digits _ x (by rw [hh]; simp [hx])

theorem head_mem_of_head {s : Str} {c : Char} (h : s.head? = some c) : c ∈ s := by
  cases s with
  | nil => simp at h
  | cons a l =>
    simp only [List.head?_cons, Option.some.injEq] at h
    subst h
    exact List.mem_cons_self _ _

/-! ### Parser-failure lemmas -/

theorem parseLogical_fails (s : Str)
    (h : ∀ c, (strTrim (lowerStr s)).head? = some c → ¬(c = '.' ∨ c = 't' ∨ c = 'f')) :
    parseLogical s = .error (.invalidValue [] s (lit "logical")) := by
  simp only [parseLogical]
  cases hl : strTrim (lowerStr s) with
  | nil => simp [lit, startsWith]
  | cons c cs =>
    have hc := h c (by rw [hl]; rfl)
    push_neg at hc
    obtain ⟨hc1, hc2, hc3⟩ := hc
    simp [lit, startsWith, hc1, hc2, hc3, Ne.symm hc1, Ne.symm hc2, Ne.symm hc3]

theorem parseComplex_fails (s : Str)
    (h : ∀ c, (strTrim s).head? = some c → ¬ c = '(') :
    parseComplex s = .error (.invalidValue [] s (lit "complex")) := by
  simp only [parseComplex]
  cases hl : strTrim s with
  | nil => rfl
  | cons c cs =>
    have hc := h c (by rw [hl]; rfl)
    split
    · rename_i rest heq
      rw [List.cons.injEq] at heq
      exact absurd heq.1 hc
    · rfl

theorem parseReal_intToStr (i : Int) :
    parseReal (intToStr i) = .error (.invalidValue [] (intToStr i) (lit "real")) := by
  simp only [parseReal, strTrim_intToStr, looksLikeInteger_intToStr]
  rfl

theorem parseInteger_intToStr (i : Int) (h1 : i64Min ≤ i) (h2 : i ≤ i64Max) :
    parseInteger (intToStr i) = .ok (.integer i) := by
  simp only [parseInteger, trunc_intToStr, rustParseI64_intToStr i h1 h2]

theorem parseFortranValue_intToStr (i : Int) (h1 : i64Min ≤ i) (h2 : i ≤ i64Max) :
    parseFortranValue (intToStr i) none = .ok (.integer i) := by
  have hlog : parseLogical (intToStr i) = .error (.invalidValue [] (intToStr i) (lit "logical")) := by
    apply parseLogical_fails
    intro c hc
    rw [lowerStr_intToStr, strTrim_intToStr] at hc
    have hcm : c ∈ intToStr i := head_mem_of_head hc
    rcases intToStr_chars i c hcm with h | h
    · rintro (rfl | rfl | rfl) <;> exact absurd h (by decide)
    · subst h; decide
  have hcpx : parseComplex (intToStr i) = .error (.invalidValue [] (intToStr i) (lit "complex")) := by
    apply parseComplex_fails
    intro c hc
    rw [strTrim_intToStr] at hc
    have hcm : c ∈ intToStr i := head_mem_of_head hc
    rcases intToStr_chars i c hcm with h | h
    · exact ne_of_pred isDigitChar c '(' h (by decide)
    · subst h; decide
  simp only [parseFortranValue, strTrim_intToStr]
  rw [if_neg (intToStr_ne_nil i)]
  simp only [hlog, hcpx, parseReal_intToStr, parseInteger_intToStr i h1 h2]

/-! ### Quoted strings -/

theorem escapeSq_cons (c : Char) (s : Str) :
    escapeSq (c :: s) = (if c = sq then [c, c] else [c]) ++ escapeSq s := by
  rw [escapeSq, List.flatMap_cons]
  rfl

theorem escapeSq_ne_nil_of_ne_nil {s : Str} (h : s ≠ []) : escapeSq s ≠ [] := by
  cases s with
  | nil => exact absurd rfl h
  | cons c cs =>
    rw [escapeSq_cons]
    by_cases hc : c = sq <;> simp [hc]

theorem collapseDoubled_escapeSq (s : Str) : collapseDoubled sq (escapeSq s) = s := by
  induction s with
  | nil => rfl
  | cons c s ih =>
    rw [escapeSq_cons]
    by_cases hc : c = sq
    · subst hc
      rw [show ((if sq = sq then [sq, sq] else [sq]) ++ escapeSq s) = sq :: sq :: escapeSq s
        by simp]
      rw [collapseDoubled]
      simp [ih]
    · simp only [hc, if_false]
      rw [List.singleton_append]
      cases hs : escapeSq s with
      | nil =>
        have : s = [] := by
          by_contra hne
          exact escapeSq_ne_nil_of_ne_nil hne hs
        subst this
        rfl
      | cons d ds =>
        rw [collapseDoubled]
        have : (c = sq && d = sq) = false := by simp [hc]
        rw [this]
        simp only [Bool.false_eq_true, if_false]
        rw [← hs, ih]

/-- `sq :: t` never parses as an `f64`. -/

theorem rustParseF64_quote_head (t : Str) : rustParseF64 (sq :: t) = none := by
  unfold rustParseF64
  split
  rename_i x neg r heq
  split at heq
  · rename_i s0 r0 hsc
    rw [List.cons.injEq] at hsc
    exact absurd hsc.1 (by decide)
  · rename_i s0 r0 hsc
    rw [List.cons.injEq] at hsc
    exact absurd hsc.1 (by decide)
  · rw [Prod.mk.injEq] at heq
    obtain ⟨rfl, rfl⟩ := heq
    have hlow : lowerStr (sq :: t) = sq :: lowerStr t := by
      rw [lowerStr, List.map_cons]
      congr 1
    rw [hlow]
    rw [if_neg (by simp [lit, show sq ≠ 'i' from by decide]),
      if_neg (by simp [lit, show sq ≠ 'n' from by decide])]
    have htake : (sq :: t).takeWhile isDigitChar = [] := by
      rw [List.takeWhile_cons]
      simp [show isDigitChar sq = false from by decide]
    have hdrop : (sq :: t).dropWhile isDigitChar = sq :: t := by
      rw [List.dropWhile_cons]
      simp [show isDigitChar sq = false from by decide]
    rw [htake, hdrop]
    rfl

theorem parseReal_quote (t : Str) (htr : strTrim (sq :: t) = sq :: t) :
    parseReal (sq :: t) = .error (.invalidValue [] (sq :: t) (lit "real")) := by
  have hlook : looksLikeInteger (sq :: t) = false := by
    simp only [looksLikeInteger, htr]
    rfl
  simp only [parseReal, htr, hlook, Bool.false_eq_true, if_false]
  by_cases hcd : containsChar (lowerStr (sq :: t)) 'd' = true
  · simp only [hcd, if_true]
    cases hfi : List.findIdx? (fun c => decide (lowerChar c = 'd')) (sq :: t) with
    | none =>
      simp [rustParseF64_quote_head, lit, truncAtUnderscore, lowerStr, lowerChar,
        List.takeWhile_cons, List.map_cons,
        show ¬ sq = '_' from by decide,
        show (decide ('A' ≤ sq) && decide (sq ≤ 'Z')) = false from by decide,
        show ¬ sq = '+' from by decide, show ¬ sq = 'i' from by decide,
        show ¬ sq = '-' from by decide, show ¬ sq = 'n' from by decide]
    | some p =>
      rw [List.findIdx?_cons] at hfi
      rw [if_neg (by simp [show ¬ lowerChar sq = 'd' from by decide])] at hfi
      rw [List.findIdx?_succ] at hfi
      cases hfi0 : List.findIdx? (fun c => decide (lowerChar c = 'd')) t 0 with
      | none =>
        rw [hfi0] at hfi
        exact absurd hfi (by simp)
      | some k =>
        rw [hfi0] at hfi
        simp at hfi
        subst hfi
        simp [List.set_cons_succ, rustParseF64_quote_head, lit, truncAtUnderscore,
          lowerStr, lowerChar,
          List.takeWhile_cons, List.map_cons,
          show ¬ sq = '_' from by decide,
          show (decide ('A' ≤ sq) && decide (sq ≤ 'Z')) = false from by decide,
          show ¬ sq = '+' from by decide, show ¬ sq = 'i' from by decide,
          show ¬ sq = '-' from by decide, show ¬ sq = 'n' from by decide]
  · simp only [if_neg hcd]
    simp [rustParseF64_quote_head, lit, truncAtUnderscore, lowerStr, lowerChar,
        List.takeWhile_cons, List.map_cons,
        show ¬ sq = '_' from by decide,
        show (decide ('A' ≤ sq) && decide (sq ≤ 'Z')) = false from by decide,
      show ¬ sq = '+' from by decide, show ¬ sq = 'i' from by decide,
      show ¬ sq = '-' from by decide, show ¬ sq = 'n' from by decide]

theorem rustParseI64_quote_head (t : Str) : rustParseI64 (sq :: t) = none := rfl

theorem quoted_getLast (inner : Str) : (sq :: (inner ++ [sq])).getLast? = some sq := by
  rw [show (sq :: (inner ++ [sq])) = (sq :: inner) ++ [sq] by simp]
  exact List.getLast?_concat _

theorem strTrim_quoted (inner : Str) :
    strTrim (sq :: (inner ++ [sq])) = sq :: (inner ++ [sq]) := by
  apply strTrim_of_ends
  · intro c hc
    simp only [List.head?_cons, Option.some.injEq] at hc
    subst hc
    decide
  · intro c hc
    rw [quoted_getLast] at hc
    simp only [Option.some.injEq] at hc
    subst hc
    decide

theorem parseCharacter_quoted (inner : Str) :
    parseCharacter (sq :: (inner ++ [sq])) = .character (collapseDoubled sq inner) := by
  have hh : (sq :: (inner ++ [sq])).head? = some sq := rfl
  have hl : (sq :: (inner ++ [sq])).getLast? = some sq := quoted_getLast inner
  simp only [parseCharacter, strTrim_quoted]
  rw [if_pos (by simp [hh, hl])]
  rw [if_pos hh]
  congr 1
  rw [show (sq :: (inner ++ [sq])).drop 1 = inner ++ [sq] by simp]
  rw [List.dropLast_concat]

theorem parseFortranValue_quoted (inner : Str) :
    parseFortranValue (sq :: (inner ++ [sq])) none =
      .ok (.character (collapseDoubled sq inner)) := by
  have hlog : parseLogical (sq :: (inner ++ [sq])) =
      .error (.invalidValue [] (sq :: (inner ++ [sq])) (lit "logical")) := by
    apply parseLogical_fails
    intro c hc
    have hlw : lowerStr (sq :: (inner ++ [sq])) = sq :: lowerStr (inner ++ [sq]) := rfl
    have htr2 : strTrim (lowerStr (sq :: (inner ++ [sq]))) =
        lowerStr (sq :: (inner ++ [sq])) := by
      apply strTrim_of_ends
      · intro x hx
        rw [hlw] at hx
        simp only [List.head?_cons, Option.some.injEq] at hx
        subst hx
        decide
      · intro x hx
        rw [show lowerStr (sq :: (inner ++ [sq])) = lowerStr (sq :: inner) ++ [sq] by
          simp only [lowerStr]
          rw [show (sq :: (inner ++ [sq])) = (sq :: inner) ++ [sq] by simp]
          rw [List.map_append]
          rfl] at hx
        rw [List.getLast?_concat] at hx
        simp only [Option.some.injEq] at hx
        subst hx
        decide
    rw [htr2, hlw] at hc
    simp only [List.head?_cons, Option.some.injEq] at hc
    subst hc
    decide
  have hcpx : parseComplex (sq :: (inner ++ [sq])) =
      .error (.invalidValue [] (sq :: (inner ++ [sq])) (lit "complex")) := by
    apply parseComplex_fails
    intro c hc
    rw [strTrim_quoted] at hc
    simp only [List.head?_cons, Option.some.injEq] at hc
    subst hc
    decide
  have hreal : parseReal (sq :: (inner ++ [sq])) =
      .error (.invalidValue [] (sq :: (inner ++ [sq])) (lit "real")) :=
    parseReal_quote (inner ++ [sq]) (strTrim_quoted inner)
  have hint : parseInteger (sq :: (inner ++ [sq])) =
      .error (.invalidValue [] (sq :: (inner ++ [sq])) (lit "integer")) := by
    simp only [parseInteger]
    rw [show truncAtUnderscore (sq :: (inner ++ [sq])) =
      sq :: List.takeWhile (fun x => decide (x ≠ '_')) (inner ++ [sq]) from rfl]
    rw [rustParseI64_quote_head]
  simp only [parseFortranValue, strTrim_quoted]
  rw [if_neg (by simp)]
  simp only [hlog, hcpx, hreal, hint, parseCharacter_quoted]

theorem parseFortranValue_escaped (s : Str) :
    parseFortranValue (sq :: (escapeSq s ++ [sq])) none = .ok (.character s) := by
  rw [parseFortranValue_quoted, collapseDoubled_escapeSq]

/-! ### Formatter-side value rendering -/


theorem toFortranString_goodValue (v : FValue) (hv : goodValue v = true) :
    toFortranString v false = rtValueChars v := by
  cases v with
  | integer i => rfl
  | logical b => cases b <;> rfl
  | character s => rfl
  | _ => simp [goodValue] at hv

/-! ### Lexer dispatch lemmas -/

theorem isWs_false_of_goodStart {c : Char} (h : goodNameStart c = true) :
    isWsChar c = false := by
  cases hb : isWsChar c with
  | false => rfl
  | true =>
    exfalso
    simp only [isWsChar, Bool.or_eq_true, decide_eq_true_eq] at hb
    rcases hb with ((h1 | h1) | h1) | h1 <;> (subst h1; exact absurd h (by decide))

theorem scanToken_digit {c : Char} (h : isDigitChar c = true) (cs : Str) :
    scanToken (c :: cs) = scanNumber c cs := by
  have hws : isWsChar c = false := isWs_false_of_digit h
  have h1 : ¬ c = '&' := ne_of_pred isDigitChar c '&' h (by decide)
  have h2 : ¬ c = '$' := ne_of_pred isDigitChar c '$' h (by decide)
  have h3 : ¬ c = '/' := ne_of_pred isDigitChar c '/' h (by decide)
  have h4 : ¬ c = '=' := ne_of_pred isDigitChar c '=' h (by decide)
  have h5 : ¬ c = ',' := ne_of_pred isDigitChar c ',' h (by decide)
  have h6 : ¬ c = '(' := ne_of_pred isDigitChar c '(' h (by decide)
  have h7 : ¬ c = ')' := ne_of_pred isDigitChar c ')' h (by decide)
  have h8 : ¬ c = ':' := ne_of_pred isDigitChar c ':' h (by decide)
  have h9 : ¬ c = '%' := ne_of_pred isDigitChar c '%' h (by decide)
  have h10 : ¬ c = '+' := ne_of_pred isDigitChar c '+' h (by decide)
  have h11 : ¬ c = '-' := ne_of_pred isDigitChar c '-' h (by decide)
  have h12 : ¬ c = '*' := ne_of_pred isDigitChar c '*' h (by decide)
  have h13 : ¬ c = sq := ne_of_pred isDigitChar c sq h (by decide)
  have h14 : ¬ c = dq := ne_of_pred isDigitChar c dq h (by decide)
  have h15 : ¬ c = '.' := ne_of_pred isDigitChar c '.' h (by decide)
  have h16 : (isAlphaChar c || c = '_') = false := by
    cases hb : (isAlphaChar c || c = '_') with
    | false => rfl
    | true =>
      exfalso
      simp only [Bool.or_eq_true, decide_eq_true_eq] at hb
      rcases hb with h17 | h17
      · simp only [isAlphaChar, isDigitChar, Bool.or_eq_true, Bool.and_eq_true,
          decide_eq_true_eq] at h17 h
        rcases h17 with ⟨hlo, _⟩ | ⟨hlo, _⟩
        · exact absurd (le_trans hlo h.2) (by decide)
        · exact absurd (le_trans hlo h.2) (by decide)
      · subst h17; exact absurd h (by decide)
  simp only [scanToken, hws, Bool.false_eq_true, if_false, h1, h2, h3, h4, h5, h6, h7,
    h8, h9, h10, h11, h12, h13, h14, h15, if_false, h16, h]
  simp [h]

theorem scanToken_goodStart {c : Char} (h : goodNameStart c = true) (cs : Str) :
    scanToken (c :: cs) = .ok (scanIdentifier c cs) := by
  have hws : isWsChar c = false := isWs_false_of_goodStart h
  have h1 : ¬ c = '&' := ne_of_pred goodNameStart c '&' h (by decide)
  have h2 : ¬ c = '$' := ne_of_pred goodNameStart c '$' h (by decide)
  have h3 : ¬ c = '/' := ne_of_pred goodNameStart c '/' h (by decide)
  have h4 : ¬ c = '=' := ne_of_pred goodNameStart c '=' h (by decide)
  have h5 : ¬ c = ',' := ne_of_pred goodNameStart c ',' h (by decide)
  have h6 : ¬ c = '(' := ne_of_pred goodNameStart c '(' h (by decide)
  have h7 : ¬ c = ')' := ne_of_pred goodNameStart c ')' h (by decide)
  have h8 : ¬ c = ':' := ne_of_pred goodNameStart c ':' h (by decide)
  have h9 : ¬ c = '%' := ne_of_pred goodNameStart c '%' h (by decide)
  have h10 : ¬ c = '+' := ne_of_pred goodNameStart c '+' h (by decide)
  have h11 : ¬ c = '-' := ne_of_pred goodNameStart c '-' h (by decide)
  have h12 : ¬ c = '*' := ne_of_pred goodNameStart c '*' h (by decide)
  have h13 : ¬ c = sq := ne_of_pred goodNameStart c sq h (by decide)
  have h14 : ¬ c = dq := ne_of_pred goodNameStart c dq h (by decide)
  have h15 : ¬ c = '.' := ne_of_pred goodNameStart c '.' h (by decide)
  have h16 : (isAlphaChar c || c = '_') = true := by
    simp only [goodNameStart, Bool.or_eq_true, Bool.and_eq_true, decide_eq_true_eq] at h
    rcases h with ⟨hlo, hhi⟩ | h17
    · simp [isAlphaChar, hlo, hhi]
    · simp [h17]
  simp only [scanToken, hws, Bool.false_eq_true, if_false, h1, h2, h3, h4, h5, h6, h7,
    h8, h9, h10, h11, h12, h13, h14, h15, if_false, h16, if_true]

/-! ### Chunk-level scan lemmas -/

theorem scanToken_ws {w : Str} (hne : w ≠ []) (hw : ∀ c ∈ w, isWsChar c = true)
    {r : Str} (hr : ∀ c, r.head? = some c → isWsChar c = false) :
    scanToken (w ++ r) = .ok (⟨.whitespace, w⟩, r) := by
  match w, hne with
  | c :: cs, _ =>
    rw [List.cons_append]
    simp only [scanToken, hw c (by simp), if_true]
    rw [← List.cons_append]
    rw [takeWhile_append_all hw hr, dropWhile_append_all hw hr]

theorem goodNameChar_identCont {c : Char} (h : goodNameChar c = true) :
    identContChar c = true := by
  simp only [goodNameChar, Bool.or_eq_true, Bool.and_eq_true, decide_eq_true_eq] at h
  simp only [identContChar, isAlnumChar, isAlphaChar, Bool.or_eq_true, Bool.and_eq_true,
    decide_eq_true_eq]
  rcases h with (⟨h1, h2⟩ | h1) | h1
  · exact Or.inl (Or.inl (Or.inl (Or.inl ⟨h1, h2⟩)))
  · exact Or.inl (Or.inl (Or.inr h1))
  · exact Or.inl (Or.inr h1)

theorem scanToken_goodName {n : Str} (hn : goodName n = true) {r : Str}
    (hr : ∀ c, r.head? = some c → identContChar c = false) :
    scanToken (n ++ r) = .ok (⟨.identifier, n⟩, r) := by
  have hn0 := hn
  cases n with
  | nil => simp [goodName] at hn
  | cons c rest =>
    simp only [goodName, Bool.and_eq_true] at hn
    rw [List.cons_append]
    rw [scanToken_goodStart hn.1.1]
    have hall : ∀ x ∈ rest, identContChar x = true := by
      intro x hx
      apply goodNameChar_identCont
      have := hn.1.2
      rw [List.all_eq_true] at this
      exact this x hx
    simp only [scanIdentifier]
    rw [takeWhile_append_all hall hr, dropWhile_append_all hall hr]
    have hkey : isLogicalKeyword (lowerStr (c :: rest)) = false := by
      rw [lowerStr_goodName hn0]
      have := hn.2
      simp only [Bool.not_eq_true'] at this
      exact this
    rw [hkey]
    simp

/-- The number-continuation scan stops at a newline. -/

theorem scanNumberContinuation_digits {ds : Str} (hall : ∀ x ∈ ds, isDigitChar x = true)
    (r : Str) : scanNumberContinuation (ds ++ '\x0a' :: r) = (ds, '\x0a' :: r) := by
  have hnl : ∀ c, ('\x0a' :: r).head? = some c → isDigitChar c = false := by
    intro c hc
    simp only [List.head?_cons, Option.some.injEq] at hc
    subst hc
    decide
  simp only [scanNumberContinuation]
  rw [takeWhile_append_all hall hnl, dropWhile_append_all hall hnl]
  simp [scanExpTailLax, scanKindSuffix, isExpMarker]

/-- Scanning an integer literal followed by a newline. -/

theorem scanToken_intToStr (i : Int) (r : Str) :
    scanToken (intToStr i ++ '\x0a' :: r) = .ok (⟨.integer, intToStr i⟩, '\x0a' :: r) := by
  have hnl : ∀ c, ('\x0a' :: r).head? = some c → isDigitChar c = false := by
    intro c hc
    simp only [List.head?_cons, Option.some.injEq] at hc
    subst hc
    decide
  rw [intToStr]
  by_cases hi : i < 0
  · simp only [hi, if_true]
    rw [List.cons_append]
    rw [show scanToken ('-' :: (natToStr i.natAbs ++ '\x0a' :: r)) =
      scanSignOrNumber '-' .minus (natToStr i.natAbs ++ '\x0a' :: r) from rfl]
    cases hh : natToStr i.natAbs with
    | nil => exact absurd hh (natToStr_ne_nil _)
    | cons c cs =>
      have hcd : isDigitChar c = true := natToStr_all_digits _ c (by rw [hh]; simp)
      have hall : ∀ x ∈ c :: cs, isDigitChar x = true := by
        intro x hx
        exact natToStr_all_digits _ x (by rw [hh]; exact hx)
      have hcont := scanNumberContinuation_digits hall r
      rw [List.cons_append]
      simp only [scanSignOrNumber, hcd, if_true]
      rw [← List.cons_append, hcont]
      have hty : determineNumberType ('-' :: (c :: cs)) = .integer := by
        simp only [determineNumberType, containsChar]
        rw [if_neg]
        intro hcon
        simp only [Bool.or_eq_true, List.any_eq_true, decide_eq_true_eq] at hcon
        rcases hcon with ((((h1 | h1) | h1) | h1) | h1) | h1 <;>
          (obtain ⟨x, hx, rfl⟩ := h1
           rcases List.mem_cons.mp hx with h2 | h2
           · revert h2; decide
           · exact absurd (hall _ h2) (by decide))
      rw [hty]
  · simp only [hi, if_false]
    cases hh : natToStr i.toNat with
    | nil => exact absurd hh (natToStr_ne_nil _)
    | cons c cs =>
      have hcd : isDigitChar c = true := natToStr_all_digits _ c (by rw [hh]; simp)
      have hall : ∀ x ∈ cs, isDigitChar x = true := by
        intro x hx
        exact natToStr_all_digits i.toNat x (by rw [hh]; simp [hx])
      rw [List.cons_append, scanToken_digit hcd]
      simp only [scanNumber]
      rw [takeWhile_append_all hall hnl, dropWhile_append_all hall hnl]
      simp [scanKindSuffix, isExpMarker]

theorem scanToken_true (r : Str) :
    scanToken (lit ".true." ++ r) = .ok (⟨.logical, lit ".true."⟩, r) := rfl

theorem scanToken_false (r : Str) :
    scanToken (lit ".false." ++ r) = .ok (⟨.logical, lit ".false."⟩, r) := rfl

/-- The string loop consumes an escaped body up to the closing quote,
provided the body is newline-free and the next character is not a
quote. -/

theorem scanStringLoop_escaped {s : Str} (hnl : ∀ c ∈ s, ¬ c = '\x0a')
    {r : Str} (hr : r.head? = some '\x0a') :
    scanStringLoop sq (escapeSq s ++ (sq :: r)) = .ok (escapeSq s ++ [sq], r) := by
  induction s with
  | nil =>
    cases r with
    | nil => simp at hr
    | cons c r2 =>
      simp only [List.head?_cons, Option.some.injEq] at hr
      subst hr
      rfl
  | cons c s ih =>
    rw [escapeSq_cons]
    by_cases hc : c = sq
    · subst hc
      rw [if_pos rfl]
      have hrec := ih (fun x hx => hnl x (by simp [hx]))
      rw [show ([sq, sq] ++ escapeSq s) ++ (sq :: r) = sq :: sq :: (escapeSq s ++ (sq :: r))
        by simp]
      rw [scanStringLoop.eq_def]
      simp [hrec, show ¬ sq = '\x0a' from by decide]
    · rw [if_neg hc]
      have hcnl : ¬ c = '\x0a' := hnl c (by simp)
      have hrec := ih (fun x hx => hnl x (by simp [hx]))
      rw [show ([c] ++ escapeSq s) ++ (sq :: r) = c :: (escapeSq s ++ (sq :: r)) by simp]
      rw [scanStringLoop.eq_def]
      simp [hrec, hcnl, hc]

/-- Scanning a quoted, escaped string literal followed by a newline. -/

theorem scanToken_stringLit {s : Str} (hnl : ∀ c ∈ s, ¬ c = '\x0a')
    {r : Str} (hr : r.head? = some '\x0a') :
    scanToken ((sq :: (escapeSq s ++ [sq])) ++ r) =
      .ok (⟨.string, sq :: (escapeSq s ++ [sq])⟩, r) := by
  rw [show (sq :: (escapeSq s ++ [sq])) ++ r = sq :: (escapeSq s ++ (sq :: r)) by simp]
  rw [show scanToken (sq :: (escapeSq s ++ (sq :: r))) =
    scanString sq (escapeSq s ++ (sq :: r)) from rfl]
  rw [scanString, scanStringLoop_escaped hnl hr]

/-- The head character of a rendered good value is never whitespace
and never an identifier-continuation character. -/

theorem rtValueChars_head {v : FValue} (hv : goodValue v = true) {c : Char}
    (hc : (rtValueChars v).head? = some c) : isWsChar c = false := by
  cases v with
  | integer i =>
    simp only [rtValueChars] at hc
    rcases intToStr_chars i c (head_mem_of_head hc) with h | h
    · exact isWs_false_of_digit h
    · subst h; decide
  | logical b =>
    cases b <;>
      (simp only [rtValueChars] at hc
       simp only [lit] at hc
       simp at hc
       subst hc
       decide)
  | character s =>
    simp only [rtValueChars, List.head?_cons, Option.some.injEq] at hc
    subst hc
    decide
  | _ => simp [goodValue] at hv

/-- Scanning a rendered good value followed by a newline. -/

theorem scanToken_value {v : FValue} (hv : goodValue v = true) (r : Str) :
    scanToken (rtValueChars v ++ '\x0a' :: r) = .ok (rtValueTok v, '\x0a' :: r) := by
  cases v with
  | integer i => exact scanToken_intToStr i r
  | logical b =>
    cases b
    · show scanToken (lit ".false." ++ ('\x0a' :: r)) =
        .ok (⟨.logical, lit ".false."⟩, '\x0a' :: r)
      exact scanToken_false ('\x0a' :: r)
    · show scanToken (lit ".true." ++ ('\x0a' :: r)) =
        .ok (⟨.logical, lit ".true."⟩, '\x0a' :: r)
      exact scanToken_true ('\x0a' :: r)
  | character s =>
    have hnl : ∀ c ∈ s, ¬ c = '\x0a' := by
      simp only [goodValue, List.all_eq_true, Bool.and_eq_true, Bool.not_eq_true',
        decide_eq_true_eq] at hv
      intro c hcm
      have := (hv c hcm).1
      simp only [decide_eq_false_iff_not] at this
      exact this
    exact scanToken_stringLit hnl rfl
  | _ => simp [goodValue] at hv

theorem rtValueTok_ttype {v : FValue} (hv : goodValue v = true) :
    (rtValueTok v).ttype = .integer ∨ (rtValueTok v).ttype = .logical ∨
      (rtValueTok v).ttype = .string := by
  cases v with
  | integer i => exact Or.inl rfl
  | logical b => exact Or.inr (Or.inl rfl)
  | character s => exact Or.inr (Or.inr rfl)
  | _ => simp [goodValue] at hv

/-! ### The scan loop on well-formed chunked input

`LexOkF cs toks` says every sufficient fuel scans `cs` to exactly
`toks`.  Each step consumes a nonempty chunk, so the fuel budget
`input length + 1` of `scan_all_including_whitespace` always suffices. -/

theorem lexOkF_nil : LexOkF [] [⟨.eof, []⟩] := by
  intro fuel hf
  match fuel, hf with
  | f + 1, _ => rfl

theorem lexOkF_step {l r : Str} {t : Tok} {toks : List Tok}
    (hchunk : l ≠ []) (hscan : scanToken (l ++ r) = .ok (t, r))
    (hne : ¬ t.ttype = .eof) (h : LexOkF r toks) : LexOkF (l ++ r) (t :: toks) := by
  intro fuel hf
  have hlen : r.length < l.length + r.length := by
    cases l with
    | nil => exact absurd rfl hchunk
    | cons a l => simp only [List.length_cons]; omega
  rw [List.length_append] at hf
  match fuel, hf with
  | f + 1, _ =>
    rw [scanAllAux, hscan]
    simp only [hne, if_false]
    rw [h f (by omega)]

theorem lexOkF_scanAll {cs : Str} {toks : List Tok} (h : LexOkF cs toks) :
    scanAllIncludingWhitespace cs = .ok toks :=
  h (cs.length + 1) (by omega)

/-! ### Lexing the rendered document -/

theorem head_append_of_ne_nil {l : Str} (h : l ≠ []) (r : Str) :
    (l ++ r).head? = l.head? := by
  cases l with
  | nil => exact absurd rfl h
  | cons c cs => rfl

theorem goodName_ne_nil {n : Str} (hn : goodName n = true) : n ≠ [] := by
  cases n with
  | nil => simp [goodName] at hn
  | cons c cs => simp

theorem goodName_head_not_ws {n : Str} (hn : goodName n = true) (X : Str) :
    ∀ c, (n ++ X).head? = some c → isWsChar c = false := by
  intro c hc
  cases n with
  | nil => simp [goodName] at hn
  | cons c0 cs =>
    simp only [List.cons_append, List.head?_cons, Option.some.injEq] at hc
    subst hc
    simp only [goodName, Bool.and_eq_true] at hn
    exact isWs_false_of_goodStart hn.1.1

theorem rtValueChars_ne_nil {v : FValue} (hv : goodValue v = true) :
    rtValueChars v ≠ [] := by
  cases v with
  | integer i => exact intToStr_ne_nil i
  | logical b => cases b <;> simp [rtValueChars, lit]
  | character s => simp [rtValueChars]
  | _ => simp [goodValue] at hv

theorem rtValueTok_ne_eof {v : FValue} (hv : goodValue v = true) :
    ¬ (rtValueTok v).ttype = .eof := by
  rcases rtValueTok_ttype hv with h | h | h <;> (rw [h]; simp)

theorem rt_lex_lines (vars : List (Str × FValue))
    (hv : ∀ p ∈ vars, goodName p.1 = true ∧ goodValue p.2 = true)
    (tail : Str) (toks : List Tok) (htail : LexOkF ('/' :: tail) toks) :
    LexOkF ('\x0a' :: (rtLinesChars vars ++ '/' :: tail)) (rtLinesToks vars ++ toks) := by
  induction vars generalizing tail toks with
  | nil =>
    have h := lexOkF_step (l := ['\x0a']) (r := '/' :: tail) (by simp)
      (scanToken_ws (by simp) (by decide) (by intro c hc; simp at hc; subst hc; decide))
      (by simp) htail
    simpa [rtLinesChars, rtLinesToks] using h
  | cons p vs ih =>
    obtain ⟨n, v⟩ := p
    have hgn : goodName n = true := (hv (n, v) (by simp)).1
    have hgv : goodValue v = true := (hv (n, v) (by simp)).2
    have ihh := ih (fun q hq => hv q (by simp [hq])) tail toks htail
    -- innermost: the value chunk
    have h6 : LexOkF (rtValueChars v ++ '\x0a' :: (rtLinesChars vs ++ '/' :: tail))
        (rtValueTok v :: (rtLinesToks vs ++ toks)) :=
      lexOkF_step (rtValueChars_ne_nil hgv) (scanToken_value hgv _)
        (rtValueTok_ne_eof hgv) ihh
    have h5 : LexOkF ([' '] ++ (rtValueChars v ++ '\x0a' :: (rtLinesChars vs ++ '/' :: tail)))
        (⟨.whitespace, [' ']⟩ :: rtValueTok v :: (rtLinesToks vs ++ toks)) :=
      lexOkF_step (by simp)
        (scanToken_ws (by simp) (by decide)
          (by
            rw [head_append_of_ne_nil (rtValueChars_ne_nil hgv)]
            intro c hc
            exact rtValueChars_head hgv hc))
        (by simp) h6
    have h4 : LexOkF (['='] ++ ([' '] ++ (rtValueChars v ++ '\x0a' ::
        (rtLinesChars vs ++ '/' :: tail))))
        (⟨.assign, ['=']⟩ :: ⟨.whitespace, [' ']⟩ :: rtValueTok v ::
          (rtLinesToks vs ++ toks)) :=
      lexOkF_step (by simp) rfl (by simp) h5
    have h3 : LexOkF ([' '] ++ (['='] ++ ([' '] ++ (rtValueChars v ++ '\x0a' ::
        (rtLinesChars vs ++ '/' :: tail)))))
        (⟨.whitespace, [' ']⟩ :: ⟨.assign, ['=']⟩ :: ⟨.whitespace, [' ']⟩ ::
          rtValueTok v :: (rtLinesToks vs ++ toks)) :=
      lexOkF_step (by simp)
        (scanToken_ws (by simp) (by decide) (by intro c hc; simp at hc; subst hc; decide))
        (by simp) h4
    have h2 : LexOkF (n ++ ([' '] ++ (['='] ++ ([' '] ++ (rtValueChars v ++ '\x0a' ::
        (rtLinesChars vs ++ '/' :: tail))))))
        (⟨.identifier, n⟩ :: ⟨.whitespace, [' ']⟩ :: ⟨.assign, ['=']⟩ ::
          ⟨.whitespace, [' ']⟩ :: rtValueTok v :: (rtLinesToks vs ++ toks)) :=
      lexOkF_step (goodName_ne_nil hgn)
        (scanToken_goodName hgn (by intro c hc; simp at hc; subst hc; decide))
        (by simp) h3
    have h1 : LexOkF (('\x0a' :: lit "    ") ++ (n ++ ([' '] ++ (['='] ++ ([' '] ++
        (rtValueChars v ++ '\x0a' :: (rtLinesChars vs ++ '/' :: tail)))))))
        (⟨.whitespace, '\x0a' :: lit "    "⟩ :: ⟨.identifier, n⟩ ::
          ⟨.whitespace, [' ']⟩ :: ⟨.assign, ['=']⟩ :: ⟨.whitespace, [' ']⟩ ::
          rtValueTok v :: (rtLinesToks vs ++ toks)) :=
      lexOkF_step (by simp [lit])
        (scanToken_ws (by simp [lit]) (by decide) (goodName_head_not_ws hgn _))
        (by simp) h2
    have hchars : '\x0a' :: (rtLinesChars ((n, v) :: vs) ++ '/' :: tail) =
        ('\x0a' :: lit "    ") ++ (n ++ ([' '] ++ (['='] ++ ([' '] ++
          (rtValueChars v ++ '\x0a' :: (rtLinesChars vs ++ '/' :: tail)))))) := by
      simp [rtLinesChars, rtLineChars, lit]
    have htoks : rtLinesToks ((n, v) :: vs) ++ toks =
        ⟨.whitespace, '\x0a' :: lit "    "⟩ :: ⟨.identifier, n⟩ ::
          ⟨.whitespace, [' ']⟩ :: ⟨.assign, ['=']⟩ :: ⟨.whitespace, [' ']⟩ ::
          rtValueTok v :: (rtLinesToks vs ++ toks) := by
      simp [rtLinesToks]
    rw [hchars, htoks]
    exact h1

theorem rtDocChars_head (gs : List (Str × List (Str × FValue))) :
    ∀ p rest, gs = p :: rest → (rtDocChars gs).head? = some '&' := by
  intro p rest hgs
  subst hgs
  obtain ⟨n, vars⟩ := p
  rfl

theorem rtDocToks_cons (n : Str) (vars : List (Str × FValue))
    (rest : List (Str × List (Str × FValue))) :
    rtDocToks ((n, vars) :: rest) = ⟨.groupStart, ['&']⟩ :: ⟨.identifier, n⟩ ::
      (rtLinesToks vars ++ ⟨.groupEnd, ['/']⟩ :: rtSepToks rest) := by
  cases rest <;> rfl

theorem rt_lex_doc (gs : List (Str × List (Str × FValue))) (hg : rtGoodGroups gs) :
    LexOkF (rtDocChars gs) (rtDocToks gs) := by
  induction gs with
  | nil => exact lexOkF_nil
  | cons p rest ih =>
    obtain ⟨n, vars⟩ := p
    have hgn : goodName n = true := (hg (n, vars) (by simp)).1
    have hgv : ∀ q ∈ vars, goodName q.1 = true ∧ goodValue q.2 = true :=
      (hg (n, vars) (by simp)).2
    have hsep : LexOkF ('\x0a' :: rtSepChars rest) (rtSepToks rest) := by
      cases rest with
      | nil =>
        have h := lexOkF_step (l := ['\x0a']) (r := []) (by simp)
          (by rw [show (['\x0a'] ++ ([] : Str)) = ['\x0a'] by simp]; rfl)
          (by simp) lexOkF_nil
        simpa [rtSepChars, rtSepToks] using h
      | cons p2 rest2 =>
        have ih2 := ih (fun q hq => hg q (by simp [hq]))
        have h := lexOkF_step (l := ['\x0a', '\x0a']) (r := rtDocChars (p2 :: rest2))
          (by simp)
          (scanToken_ws (by simp) (by decide)
            (by
              rw [rtDocChars_head (p2 :: rest2) p2 rest2 rfl]
              intro c hc
              simp only [Option.some.injEq] at hc
              subst hc
              decide))
          (by simp) ih2
        have hch : (['\x0a', '\x0a'] : Str) ++ rtDocChars (p2 :: rest2) =
            '\x0a' :: rtSepChars (p2 :: rest2) := by
          simp [rtSepChars, rtDocChars]
        rw [hch] at h
        exact h
    have hslash : LexOkF ('/' :: ('\x0a' :: rtSepChars rest))
        (⟨.groupEnd, ['/']⟩ :: rtSepToks rest) := by
      have h := lexOkF_step (l := ['/']) (r := '\x0a' :: rtSepChars rest) (by simp)
        rfl (by simp) hsep
      simpa using h
    have hbody := rt_lex_lines vars hgv ('\x0a' :: rtSepChars rest) _ hslash
    have hname : LexOkF (n ++ ('\x0a' :: (rtLinesChars vars ++ '/' ::
        ('\x0a' :: rtSepChars rest))))
        (⟨.identifier, n⟩ :: (rtLinesToks vars ++ ⟨.groupEnd, ['/']⟩ ::
          rtSepToks rest)) := by
      have h := lexOkF_step (goodName_ne_nil hgn)
        (scanToken_goodName hgn (by intro c hc; simp at hc; subst hc; decide))
        (by simp) hbody
      simpa using h
    have hamp : LexOkF ('&' :: (n ++ ('\x0a' :: (rtLinesChars vars ++ '/' ::
        ('\x0a' :: rtSepChars rest)))))
        (⟨.groupStart, ['&']⟩ :: ⟨.identifier, n⟩ :: (rtLinesToks vars ++
          ⟨.groupEnd, ['/']⟩ :: rtSepToks rest)) := by
      have h := lexOkF_step (l := ['&'])
        (r := n ++ ('\x0a' :: (rtLinesChars vars ++ '/' :: ('\x0a' :: rtSepChars rest))))
        (by simp) rfl (by simp) hname
      simpa using h
    have hchars : rtDocChars ((n, vars) :: rest) =
        '&' :: (n ++ ('\x0a' :: (rtLinesChars vars ++ '/' ::
          ('\x0a' :: rtSepChars rest)))) := by
      simp [rtDocChars, rtBlockChars]
    rw [hchars, rtDocToks_cons]
    exact hamp

/-! ### Filtering the token stream -/

theorem rtValueTok_not_ws (v : FValue) : (decide (¬ (rtValueTok v).ttype = .whitespace)) = true := by
  cases v <;> simp [rtValueTok]

theorem filter_rtLinesToks (vars : List (Str × FValue)) :
    (rtLinesToks vars).filter (fun t => ¬ t.ttype = .whitespace) = rtVarToks vars := by
  induction vars with
  | nil => rfl
  | cons p vs ih =>
    obtain ⟨n, v⟩ := p
    simp only [rtLinesToks, rtVarToks, List.filter_cons]
    rw [ih]
    cases v <;> simp [rtValueTok]

theorem filter_rtDocToks (gs : List (Str × List (Str × FValue))) :
    (rtDocToks gs).filter (fun t => ¬ t.ttype = .whitespace) = rtDocFToks gs := by
  induction gs with
  | nil => rfl
  | cons p rest ih =>
    obtain ⟨n, vars⟩ := p
    rw [rtDocToks_cons]
    simp only [rtDocFToks, List.filter_cons, List.filter_append]
    rw [filter_rtLinesToks]
    cases rest with
    | nil =>
      simp [rtSepToks, rtDocFToks]
    | cons p2 rest2 =>
      simp only [rtSepToks, List.filter_cons]
      rw [ih]
      simp
    
theorem filter2_rtVarToks (vars : List (Str × FValue)) :
    (rtVarToks vars).filter (fun t => ¬ (t.ttype = .whitespace || t.ttype = .comment)) =
      rtVarToks vars := by
  induction vars with
  | nil => rfl
  | cons p vs ih =>
    obtain ⟨n, v⟩ := p
    simp only [rtVarToks, List.filter_cons]
    rw [ih]
    cases v <;> simp [rtValueTok]

theorem filter2_rtDocFToks (gs : List (Str × List (Str × FValue))) :
    (rtDocFToks gs).filter (fun t => ¬ (t.ttype = .whitespace || t.ttype = .comment)) =
      rtDocFToks gs := by
  induction gs with
  | nil => rfl
  | cons p rest ih =>
    obtain ⟨n, vars⟩ := p
    simp only [rtDocFToks, List.filter_cons, List.filter_append]
    rw [filter2_rtVarToks, ih]
    simp

/-- `StreamingParser::new` on the rendered text yields exactly the
filtered token stream. -/

theorem rt_streaming (gs : List (Str × List (Str × FValue))) (hg : rtGoodGroups gs) :
    streamingParserTokens (rtDocChars gs) = .ok (rtDocFToks gs) := by
  rw [streamingParserTokens, scanAll, lexOkF_scanAll (rt_lex_doc gs hg)]
  simp only []
  rw [filter_rtDocToks, filter2_rtDocFToks]

/-! ### Parsing the filtered token stream -/

theorem rt_parseValue (v : FValue) (hv : goodValue v = true) :
    parseFortranValue (rtValueTok v).lexeme none = .ok v := by
  cases v with
  | integer i =>
    simp only [goodValue, Bool.and_eq_true, decide_eq_true_eq] at hv
    exact parseFortranValue_intToStr i hv.1 hv.2
  | logical b => cases b <;> rfl
  | character s => exact parseFortranValue_escaped s
  | _ => simp [goodValue] at hv

theorem rt_parseVariable (fuel : Nat) (prev : Option Tok) (n : Str) (v : FValue)
    (hv : goodValue v = true) (rest : List Tok) :
    parseVariable fuel
      ⟨prev, ⟨.identifier, n⟩ :: ⟨.assign, ['=']⟩ :: rtValueTok v :: rest⟩ =
      .ok (n, v, ⟨some (rtValueTok v), rest⟩) := by
  have hne := rtValueTok_ne_eof hv
  simp only [parseVariable, PState.advance, PState.isAtEnd, PState.peek, parseValueTok]
  simp [hne, rt_parseValue v hv]

theorem rt_parseGroupLoop (vars : List (Str × FValue))
    (hv : ∀ p ∈ vars, goodName p.1 = true ∧ goodValue p.2 = true)
    (fuel : Nat) (prev : Option Tok) (tail : List Tok) (g0 : NamelistGroup) :
    parseGroupLoop (fuel + vars.length + 1)
      ⟨prev, rtVarToks vars ++ ⟨.groupEnd, ['/']⟩ :: tail⟩ g0 =
      .ok (vars.foldl (fun g p => g.insertValue p.1 p.2) g0,
        ⟨some ⟨.groupEnd, ['/']⟩, tail⟩) := by
  induction vars generalizing fuel prev g0 with
  | nil =>
    show parseGroupLoop (fuel + 0 + 1) _ _ = _
    simp only [rtVarToks, List.nil_append, parseGroupLoop, PState.isAtEnd, PState.peek,
      PState.advance, List.head?_cons, List.foldl_nil]
    rfl
  | cons p vs ih =>
    obtain ⟨n, v⟩ := p
    have hgv : goodValue v = true := (hv (n, v) (by simp)).2
    rw [show fuel + ((n, v) :: vs).length + 1 = (fuel + vs.length + 1) + 1 by
      simp [List.length_cons]; omega]
    rw [parseGroupLoop]
    simp only [rtVarToks, List.cons_append, PState.isAtEnd, PState.peek, List.head?_cons]
    rw [rt_parseVariable (fuel + vs.length + 1) prev n v hgv
      (rtVarToks vs ++ ⟨.groupEnd, ['/']⟩ :: tail)]
    simp only []
    rw [ih (fun q hq => hv q (by simp [hq])) fuel (some (rtValueTok v)) (g0.insertValue n v)]
    simp

theorem rt_parseTopLoop (gs : List (Str × List (Str × FValue))) (hg : rtGoodGroups gs)
    (fuel : Nat) (prev : Option Tok) (nml0 : Namelist) :
    parseTopLoop (fuel + rtFuel gs) ⟨prev, rtDocFToks gs⟩ nml0 =
      .ok (rtBuild gs nml0) := by
  induction gs generalizing fuel prev nml0 with
  | nil =>
    show parseTopLoop (fuel + 1) _ _ = _
    simp only [rtDocFToks, parseTopLoop, PState.isAtEnd]
    rfl
  | cons p rest ih =>
    obtain ⟨n, vars⟩ := p
    have hvs : ∀ q ∈ vars, goodName q.1 = true ∧ goodValue q.2 = true :=
      (hg (n, vars) (by simp)).2
    rw [show fuel + rtFuel ((n, vars) :: rest) =
      ((fuel + rtFuel rest) + vars.length + 1) + 1 by simp [rtFuel]; omega]
    rw [parseTopLoop]
    simp only [rtDocFToks, PState.isAtEnd, PState.peek, PState.advance, List.head?_cons,
      parseGroup, Bool.false_eq_true, if_false, if_true, reduceCtorEq, decide_False,
      decide_True, Bool.or_self, Bool.or_true, Bool.true_or, Bool.or_false,
      Bool.false_or]
    rw [rt_parseGroupLoop vars hvs (fuel + rtFuel rest)
      (some ⟨.identifier, n⟩) (rtDocFToks rest) NamelistGroup.new]
    simp only []
    rw [show (fuel + rtFuel rest) + vars.length + 1 =
      (fuel + vars.length + 1) + rtFuel rest by omega]
    rw [ih (fun q hq => hg q (by simp [hq])) (fuel + vars.length + 1)
      (some ⟨.groupEnd, ['/']⟩) (nml0.insertGroupObject n
        (vars.foldl (fun g q => g.insertValue q.1 q.2) NamelistGroup.new))]
    simp [rtBuild]

theorem rtVarToks_length (vars : List (Str × FValue)) :
    (rtVarToks vars).length = 3 * vars.length := by
  induction vars with
  | nil => rfl
  | cons p vs ih =>
    obtain ⟨n, v⟩ := p
    simp [rtVarToks, ih]
    omega

theorem rtFuel_le (gs : List (Str × List (Str × FValue))) :
    rtFuel gs ≤ (rtDocFToks gs).length + 2 := by
  induction gs with
  | nil => simp [rtFuel, rtDocFToks]
  | cons p rest ih =>
    obtain ⟨n, vars⟩ := p
    simp only [rtFuel, rtDocFToks, List.length_cons, List.length_append,
      rtVarToks_length]
    omega

/-- `parse` on the rendered text of a restricted document. -/

theorem rt_parseNamelist (gs : List (Str × List (Str × FValue))) (hg : rtGoodGroups gs) :
    parseNamelist (rtDocChars gs) = .ok (rtBuild gs Namelist.new) := by
  rw [parseNamelist, rt_streaming gs hg]
  simp only []
  obtain ⟨k, hk⟩ := Nat.le.dest (rtFuel_le gs)
  rw [show (rtDocFToks gs).length + 2 = k + rtFuel gs by omega]
  exact rt_parseTopLoop gs hg k none Namelist.new

/-! ### The formatter on restricted documents -/

/-- On an association list with in-order, duplicate-free keys, iterating
the order vector returns the list itself. -/

theorem filterMap_alGet_eq {α : Type} (m : List (Str × α))
    (hnd : (m.map Prod.fst).Nodup) :
    (m.map Prod.fst).filterMap (fun name => (alGet m name).map (fun v => (name, v))) =
      m := by
  induction m with
  | nil => rfl
  | cons p m ih =>
    obtain ⟨k, v⟩ := p
    simp only [List.map_cons, List.filterMap_cons] at *
    have hk : alGet ((k, v) :: m) k = some v := by
      simp [alGet, List.find?]
    rw [hk]
    simp only [Option.map_some']
    congr 1
    have hnd2 : (m.map Prod.fst).Nodup := (List.nodup_cons.mp hnd).2
    have hkn : k ∉ m.map Prod.fst := (List.nodup_cons.mp hnd).1
    have hcongr : ∀ name ∈ m.map Prod.fst,
        (alGet ((k, v) :: m) name).map (fun w => (name, w)) =
          (alGet m name).map (fun w => (name, w)) := by
      intro name hname
      have hne : ¬ ((k, v).1 = name) := by
        simp only
        intro hkk
        exact hkn (hkk ▸ hname)
      simp [alGet, List.find?, hne]
    rw [List.filterMap_congr hcongr]
    exact ih hnd2

theorem flatMap_congr_mem {α β : Type} (l : List α) (f g : α → List β)
    (h : ∀ a ∈ l, f a = g a) : l.flatMap f = l.flatMap g := by
  induction l with
  | nil => rfl
  | cons a l ih =>
    rw [List.flatMap_cons, List.flatMap_cons, h a (by simp),
      ih (fun x hx => h x (by simp [hx]))]

theorem flatMap_rtLineChars (vars : List (Str × FValue)) :
    vars.flatMap (fun p => rtLineChars p.1 p.2) = rtLinesChars vars := by
  induction vars with
  | nil => rfl
  | cons p vs ih =>
    rw [List.flatMap_cons, ih]
    obtain ⟨n, v⟩ := p
    rfl

theorem rt_fmt_group (vars : List (Str × FValue))
    (hnd : (vars.map Prod.fst).Nodup)
    (hv : ∀ p ∈ vars, goodValue p.2 = true) :
    (rtGroup vars).toFortranString WriteOptions.default = .ok (rtLinesChars vars) := by
  rw [NamelistGroup.toFortranString]
  simp only [WriteOptions.default, Bool.false_eq_true, if_false,
    NamelistGroup.variablesInOrder, rtGroup]
  rw [filterMap_alGet_eq vars hnd]
  refine congrArg Except.ok
    (Eq.trans (flatMap_congr_mem vars _ (fun p => rtLineChars p.1 p.2) ?_)
      (flatMap_rtLineChars vars))
  intro p hp
  obtain ⟨n, v⟩ := p
  have hgv : goodValue v = true := hv (n, v) hp
  have hform : toFortranString v false = rtValueChars v := toFortranString_goodValue v hgv
  cases v with
  | integer i =>
    simp [NamelistGroup.formatVariableAssignment, NamelistGroup.formatSimpleAssignment,
      NamelistGroup.getStartIndices, NamelistGroup.getComment, alGet, rtLineChars,
      hform, rtValueChars]
  | logical b =>
    simp [NamelistGroup.formatVariableAssignment, NamelistGroup.formatSimpleAssignment,
      NamelistGroup.getStartIndices, NamelistGroup.getComment, alGet, rtLineChars,
      hform, rtValueChars]
  | character str =>
    simp [NamelistGroup.formatVariableAssignment, NamelistGroup.formatSimpleAssignment,
      NamelistGroup.getStartIndices, NamelistGroup.getComment, alGet, rtLineChars,
      hform, rtValueChars]
  | _ => simp [goodValue] at hgv

theorem rt_fmt_loop_false (gs : List (Str × List (Str × FValue))) (hg : rtFmtGood gs)
    (out : Str) :
    Namelist.fmtGroupsLoop WriteOptions.default
      (gs.map (fun p => (p.1, rtGroup p.2))) out false = .ok (out ++ rtSepChars gs) := by
  induction gs generalizing out with
  | nil => simp [Namelist.fmtGroupsLoop, rtSepChars]
  | cons p rest ih =>
    obtain ⟨n, vars⟩ := p
    have hng := hg (n, vars) (by simp)
    rw [List.map_cons, Namelist.fmtGroupsLoop]
    simp only [Bool.not_false, if_true,
      show WriteOptions.default.uppercase = false from rfl, Bool.false_eq_true, if_false]
    rw [rt_fmt_group vars hng.1 hng.2]
    simp only []
    rw [ih (fun q hq => hg q (by simp [hq]))]
    simp [rtSepChars, rtBlockChars]

theorem rt_fmt_loop_true (gs : List (Str × List (Str × FValue))) (hg : rtFmtGood gs) :
    Namelist.fmtGroupsLoop WriteOptions.default
      (gs.map (fun p => (p.1, rtGroup p.2))) [] true = .ok (rtDocChars gs) := by
  cases gs with
  | nil => rfl
  | cons p rest =>
    obtain ⟨n, vars⟩ := p
    have hng := hg (n, vars) (by simp)
    rw [List.map_cons, Namelist.fmtGroupsLoop]
    simp only [Bool.not_true, Bool.false_eq_true, if_false,
      show WriteOptions.default.uppercase = false from rfl]
    rw [rt_fmt_group vars hng.1 hng.2]
    simp only []
    rw [rt_fmt_loop_false rest (fun q hq => hg q (by simp [hq]))]
    simp [rtDocChars, rtBlockChars]

/-! ### Rebuilding the document from the parse -/

theorem rt_rebuild_group_aux (vars acc : List (Str × FValue))
    (hlow : ∀ p ∈ vars, lowerStr p.1 = p.1)
    (hnd : ((acc ++ vars).map Prod.fst).Nodup) :
    vars.foldl (fun g q => g.insertValue q.1 q.2) (rtGroup acc) =
      rtGroup (acc ++ vars) := by
  induction vars generalizing acc with
  | nil => simp
  | cons p vs ih =>
    obtain ⟨n, v⟩ := p
    rw [List.foldl_cons]
    have hlown : lowerStr n = n := hlow (n, v) (by simp)
    have hnotin : n ∉ acc.map Prod.fst := by
      intro hmem
      rw [List.map_append, List.nodup_append] at hnd
      exact hnd.2.2 hmem (List.mem_map_of_mem Prod.fst (List.mem_cons_self _ _))
    have hcont : alContains (rtGroup acc).vars n = false := by
      cases hb : alContains (rtGroup acc).vars n with
      | false => rfl
      | true =>
        exfalso
        simp only [rtGroup, alContains, List.any_eq_true, decide_eq_true_eq] at hb
        obtain ⟨q, hq, hqn⟩ := hb
        exact hnotin (hqn ▸ List.mem_map_of_mem Prod.fst hq)
    have hcont2 : alContains acc n = false := hcont
    have hins : (rtGroup acc).insertValue n v = rtGroup (acc ++ [(n, v)]) := by
      simp only [NamelistGroup.insertValue, hlown, rtGroup, alInsert]
      rw [show alContains acc n = false from hcont2]
      simp
    rw [hins]
    rw [ih (acc ++ [(n, v)]) (fun q hq => hlow q (by simp [hq])) (by simpa using hnd)]
    simp

theorem rt_rebuild_group (vars : List (Str × FValue))
    (hlow : ∀ p ∈ vars, lowerStr p.1 = p.1)
    (hnd : (vars.map Prod.fst).Nodup) :
    vars.foldl (fun g q => g.insertValue q.1 q.2) NamelistGroup.new = rtGroup vars := by
  have h := rt_rebuild_group_aux vars [] hlow (by simpa using hnd)
  simpa using h

theorem rt_rebuild_nml_aux (gs : List (Str × List (Str × FValue)))
    (acc : List (Str × NamelistGroup))
    (hlow : ∀ p ∈ gs, lowerStr p.1 = p.1)
    (hvlow : ∀ p ∈ gs, ∀ q ∈ p.2, lowerStr q.1 = q.1)
    (hvnd : ∀ p ∈ gs, (p.2.map Prod.fst).Nodup)
    (hnd : ((acc.map Prod.fst) ++ gs.map Prod.fst).Nodup) :
    rtBuild gs ⟨acc, acc.map Prod.fst⟩ =
      ⟨acc ++ gs.map (fun p => (p.1, rtGroup p.2)),
        (acc ++ gs.map (fun p => (p.1, rtGroup p.2))).map Prod.fst⟩ := by
  induction gs generalizing acc with
  | nil => simp [rtBuild]
  | cons p rest ih =>
    obtain ⟨n, vars⟩ := p
    rw [rtBuild]
    have hlown : lowerStr n = n := hlow (n, vars) (by simp)
    have hnotin : n ∉ acc.map Prod.fst := by
      intro hmem
      rw [List.map_cons, List.nodup_append] at hnd
      exact hnd.2.2 hmem (List.mem_cons_self _ _)
    have hcont : alContains acc n = false := by
      cases hb : alContains acc n with
      | false => rfl
      | true =>
        exfalso
        simp only [alContains, List.any_eq_true, decide_eq_true_eq] at hb
        obtain ⟨q, hq, hqn⟩ := hb
        exact hnotin (hqn ▸ List.mem_map_of_mem Prod.fst hq)
    have hgrp : vars.foldl (fun g q => g.insertValue q.1 q.2) NamelistGroup.new =
        rtGroup vars :=
      rt_rebuild_group vars (hvlow (n, vars) (by simp)) (hvnd (n, vars) (by simp))
    have hins : Namelist.insertGroupObject ⟨acc, acc.map Prod.fst⟩ n
        (vars.foldl (fun g q => g.insertValue q.1 q.2) NamelistGroup.new) =
        ⟨acc ++ [(n, rtGroup vars)], (acc ++ [(n, rtGroup vars)]).map Prod.fst⟩ := by
      rw [hgrp]
      simp only [Namelist.insertGroupObject, hlown, alInsert]
      rw [show alContains acc n = false from hcont]
      simp
    rw [hins]
    rw [ih (acc ++ [(n, rtGroup vars)]) (fun q hq => hlow q (by simp [hq]))
      (fun q hq => hvlow q (by simp [hq])) (fun q hq => hvnd q (by simp [hq]))
      (by simpa using hnd)]
    simp

theorem rt_rebuild_nml (gs : List (Str × List (Str × FValue)))
    (hlow : ∀ p ∈ gs, lowerStr p.1 = p.1)
    (hvlow : ∀ p ∈ gs, ∀ q ∈ p.2, lowerStr q.1 = q.1)
    (hvnd : ∀ p ∈ gs, (p.2.map Prod.fst).Nodup)
    (hnd : (gs.map Prod.fst).Nodup) :
    rtBuild gs Namelist.new =
      ⟨gs.map (fun p => (p.1, rtGroup p.2)),
        (gs.map (fun p => (p.1, rtGroup p.2))).map Prod.fst⟩ := by
  have h := rt_rebuild_nml_aux gs [] hlow hvlow hvnd (by simpa using hnd)
  simpa [Namelist.new] using h

/-! ### The amended round-trip theorem -/

/-- **C3 (amended).**  For every document of the restricted class
(`goodDocB`: group and variable names are plain lowercase identifiers,
the order vectors match the stored maps without duplicates, there are no
start indices or comments, and every value is an in-range `Integer`, a
`Logical`, or a newline-free ASCII `Character` string), formatting with
the default `WriteOptions` and re-parsing with `StreamingParser::parse`
returns exactly the original document — the same group names in the
same order, the same variable names in the same order, and equal
values.  (The claim as stated, over all documents with unambiguously
formatted values, is refuted by `roundtrip_fails_on_array`: a plain
array value formats unambiguously but parses back to its first
element.) -/

theorem roundtrip_restricted (doc : Namelist) (h : goodDocB doc = true) :
    ∃ text, doc.toFortranString WriteOptions.default = .ok text ∧
      parseNamelist text = .ok doc := by
  simp only [goodDocB, Bool.and_eq_true, decide_eq_true_eq, List.all_eq_true] at h
  obtain ⟨⟨horder, hnd⟩, hgroups⟩ := h
  have hgfacts : ∀ p ∈ doc.groups, goodName p.1 = true ∧
      p.2.variable_order = p.2.vars.map Prod.fst ∧ (p.2.vars.map Prod.fst).Nodup ∧
      (∀ q ∈ p.2.vars, goodName q.1 = true ∧ goodValue q.2 = true) ∧
      p.2.start_indices = [] ∧ p.2.variable_comments = [] := by
    intro p hp
    have := hgroups p hp
    simp only [goodGroupB, Bool.and_eq_true, decide_eq_true_eq, List.all_eq_true] at this
    exact ⟨this.1, this.2.1.1.1.1, this.2.1.1.1.2,
      fun q hq => by
        have h2 := this.2.1.1.2 q hq
        simp only [Bool.and_eq_true] at h2
        exact h2,
      this.2.1.2, this.2.2⟩
  set gs := doc.groups.map (fun p => (p.1, p.2.vars)) with hgs
  have hA : gs.map (fun p => (p.1, rtGroup p.2)) = doc.groups := by
    rw [hgs, List.map_map]
    have : ∀ p ∈ doc.groups,
        ((fun p => (p.1, rtGroup p.2)) ∘ (fun p => (p.1, p.2.vars))) p = id p := by
      intro p hp
      obtain ⟨n, g⟩ := p
      obtain ⟨-, hord, -, -, hsi, hcm⟩ := hgfacts (n, g) hp
      simp only [Function.comp, id]
      congr 1
      cases g with
      | mk vars order si cm =>
        simp only [rtGroup]
        simp only at hord hsi hcm
        rw [hord, hsi, hcm]
    rw [List.map_congr_left this, List.map_id]
  have hfst : gs.map Prod.fst = doc.groups.map Prod.fst := by
    rw [hgs, List.map_map]
    rfl
  have hmemgs : ∀ p ∈ gs, ∃ g, (p.1, g) ∈ doc.groups ∧ g.vars = p.2 := by
    intro p hp
    rw [hgs] at hp
    obtain ⟨q, hq, rfl⟩ := List.mem_map.mp hp
    exact ⟨q.2, by simpa using hq, rfl⟩
  have hrtgood : rtGoodGroups gs := by
    intro p hp
    obtain ⟨g, hg, hgv⟩ := hmemgs p hp
    obtain ⟨hn, -, -, hq, -, -⟩ := hgfacts (p.1, g) hg
    exact ⟨hn, by rw [← hgv]; exact hq⟩
  have hfmtgood : rtFmtGood gs := by
    intro p hp
    obtain ⟨g, hg, hgv⟩ := hmemgs p hp
    obtain ⟨-, -, hndv, hq, -, -⟩ := hgfacts (p.1, g) hg
    exact ⟨by rw [← hgv]; exact hndv,
      fun q hq2 => (hq q (by rw [hgv]; exact hq2)).2⟩
  refine ⟨rtDocChars gs, ?_, ?_⟩
  · rw [Namelist.toFortranString]
    simp only [show WriteOptions.default.sortGroups = false from rfl,
      Bool.false_eq_true, if_false]
    have hgio : doc.groupsInOrder = doc.groups := by
      rw [Namelist.groupsInOrder, horder]
      exact filterMap_alGet_eq doc.groups hnd
    rw [hgio, ← hA]
    exact rt_fmt_loop_true gs hfmtgood
  · rw [rt_parseNamelist gs hrtgood]
    have hlow : ∀ p ∈ gs, lowerStr p.1 = p.1 := by
      intro p hp
      obtain ⟨g, hg, -⟩ := hmemgs p hp
      exact lowerStr_goodName (hgfacts (p.1, g) hg).1
    have hvlow : ∀ p ∈ gs, ∀ q ∈ p.2, lowerStr q.1 = q.1 := by
      intro p hp q hq
      obtain ⟨g, hg, hgv⟩ := hmemgs p hp
      obtain ⟨-, -, -, hqs, -, -⟩ := hgfacts (p.1, g) hg
      exact lowerStr_goodName (hqs q (by rw [hgv]; exact hq)).1
    have hvnd : ∀ p ∈ gs, (p.2.map Prod.fst).Nodup := by
      intro p hp
      obtain ⟨g, hg, hgv⟩ := hmemgs p hp
      obtain ⟨-, -, hndv, -, -, -⟩ := hgfacts (p.1, g) hg
      rw [← hgv]
      exact hndv
    have hndgs : (gs.map Prod.fst).Nodup := by
      rw [hfst]
      exact hnd
    rw [rt_rebuild_nml gs hlow hvlow hvnd hndgs, hA]
    show Except.ok (⟨doc.groups, doc.groups.map Prod.fst⟩ : Namelist) =
      Except.ok (⟨doc.groups, doc.group_order⟩ : Namelist)
    rw [horder]

/-- Closed instantiation of the amended C3 theorem at a concrete
two-group document. -/

theorem roundtrip_restricted_witness :
    goodDocB rtWitnessDoc = true ∧
    (∃ text, rtWitnessDoc.toFortranString WriteOptions.default = .ok text ∧
      parseNamelist text = .ok rtWitnessDoc) :=
  ⟨rfl, roundtrip_restricted rtWitnessDoc rfl⟩

end F90nml
